import Mathlib

/-!
Verification of the go-provider-mirror core against its specification.

This file shallowly embeds the Go source of the provider-mirror tool:
pure functions become Lean functions, Go maps become association lists
(with map-iteration nondeterminism made explicit where it matters),
durations and float64 arithmetic are modelled over exact rationals, and
fallible code returns Except.  Theorems at the end settle the spec claims.
-/

namespace PM

/-! ## Model of Go sorting

`sort.Slice` and `sort.Strings` in Go run pdqsort.  For slices of length
at most 12 pdqsort is exactly this insertion sort, so on such inputs the
model is the code's behavior; for longer slices Go's sort is
documented-unstable and may reorder elements that compare equal both
ways.  The claims' theorems therefore lean on `sortGo` only through
properties every correct sort output shares — it is a pairwise-sorted
permutation of its input — or on lists whose comparator is total on
distinct members, where every correct sort has the same unique output;
counterexamples evaluate it only on lists short enough to be in the
exact insertion-sort regime.  `insertGo` places `x` after every element
`y` with `less y x` and before the first element `y` with `¬ less y x`
(stable: ties keep input order). -/

def insertGo (less : α → α → Bool) (x : α) : List α → List α
  | [] => [x]
  | y :: ys => if less y x then y :: insertGo less x ys else x :: y :: ys

/-- Model of Go `sort.Slice` / `sort.Strings` (see `insertGo`). -/
def sortGo (less : α → α → Bool) : List α → List α
  | [] => []
  | x :: xs => insertGo less x (sortGo less xs)

/-! ## Model of the Go string operations used by the program

Go strings are byte strings; every string this program manipulates with
the operations below (hostnames, env entries) is ASCII, where byte-wise
and character-wise processing coincide, so strings are modelled by
`String` with helpers over `List Char`. -/

/-- Model of Go `strings.ReplaceAll` restricted to a non-empty pattern
`p :: ps`: replaces non-overlapping occurrences left to right.  `fuel`
bounds the recursion structurally (callers pass the input length, which
always suffices since each step consumes at least one character). -/
def replaceChars (p : Char) (ps rep : List Char) : ℕ → List Char → List Char
  | _, [] => []
  | 0, l => l
  | fuel + 1, c :: rest =>
    if (p :: ps).isPrefixOf (c :: rest) then
      rep ++ replaceChars p ps rep fuel (rest.drop ps.length)
    else
      c :: replaceChars p ps rep fuel rest

/-- Model of Go `strings.ReplaceAll s pat rep` (the program never calls it
with an empty pattern). -/
def goReplaceAll (s pat rep : String) : String :=
  match pat.toList with
  | [] => s
  | p :: ps => ⟨replaceChars p ps rep.toList s.toList.length s.toList⟩

/-- Model of Go `strings.HasPrefix`. -/
def goStartsWith (s pat : String) : Bool :=
  pat.toList.isPrefixOf s.toList

/-- Model of Go `strings.TrimPrefix`. -/
def goTrimPfx (s pat : String) : String :=
  if goStartsWith s pat then ⟨s.toList.drop pat.toList.length⟩ else s

/-- Model of Go `strings.Split` for a one-character separator. -/
def charsSplit (sep : Char) : List Char → List (List Char)
  | [] => [[]]
  | c :: rest =>
    let r := charsSplit sep rest
    if c = sep then [] :: r
    else
      match r with
      | [] => [[c]]
      | h :: t => (c :: h) :: t

/-- `strings.Split` lifted to `String` (one-character separator). -/
def goSplit (s : String) (sep : Char) : List String :=
  (charsSplit sep s.toList).map fun l => ⟨l⟩

/-- Whitespace for the purposes of `strings.TrimSpace` (the program only
ever trims ASCII spaces and tabs). -/
def isWs (c : Char) : Bool := c = ' ' || c = '\t'

/-- Model of Go `strings.TrimSpace`. -/
def goTrim (s : String) : String :=
  ⟨((s.toList.dropWhile isWs).reverse.dropWhile isWs).reverse⟩

/-- Decimal digit value. -/
def digitVal (c : Char) : Option ℕ :=
  if '0' ≤ c && c ≤ '9' then some (c.toNat - '0'.toNat) else none

/-- Digits-only decimal parse (helper for `strconv.Atoi`). -/
def charsToNatAux (acc : ℕ) : List Char → Option ℕ
  | [] => some acc
  | c :: rest =>
    match digitVal c with
    | some d => charsToNatAux (acc * 10 + d) rest
    | none => none

/-- Non-empty all-digits decimal parse. -/
def charsToNat? (l : List Char) : Option ℕ :=
  if l.isEmpty then none else charsToNatAux 0 l

/-- Model of Go `strconv.Atoi`: optional sign, then decimal digits. -/
def charsToInt? : List Char → Option ℤ
  | '-' :: rest => (charsToNat? rest).map fun n => -(n : ℤ)
  | '+' :: rest => (charsToNat? rest).map fun n => (n : ℤ)
  | l => (charsToNat? l).map fun n => (n : ℤ)

/-- Splits a character list at the first occurrence of `sep`; `none` when
`sep` does not occur. -/
def splitFirst (sep : Char) : List Char → Option (List Char × List Char)
  | [] => none
  | c :: rest =>
    if c = sep then some ([], rest)
    else (splitFirst sep rest).map (fun pr => (c :: pr.1, pr.2))

/-- Model of Go `strings.SplitN(s, sep, 2)` for a one-character separator. -/
def goSplitN2 (s : String) (sep : Char) : List String :=
  match splitFirst sep s.toList with
  | none => [s]
  | some (a, b) => [⟨a⟩, ⟨b⟩]

/-- Byte-wise (here character-wise; ASCII) lexicographic strict
comparison, the order Go's `<` on strings implements.  Defined
structurally so that concrete comparisons evaluate inside the kernel;
`strLess_iff` below identifies it with `String`'s `<`. -/
def charsLt : List Char → List Char → Bool
  | [], [] => false
  | [], _ :: _ => true
  | _ :: _, [] => false
  | c :: cs, d :: ds =>
    if c < d then true
    else if d < c then false
    else charsLt cs ds

/-! ## Model of Go error values

`fmt.Errorf("...: %w", err)` wraps, `httpclient.RetryableError` is a
distinguished node carrying an optional `Retry-After` hint (a duration in
seconds, `0` meaning "no hint" exactly as Go's zero value does), and
plain `fmt.Errorf` / `errors.New` values are leaves.  Durations are
modelled as exact rationals in seconds. -/

inductive GoErr
  | msg (s : String)
  | retryable (cause : GoErr) (retryAfter : ℚ)
  | wrap (ctx : String) (cause : GoErr)
  deriving DecidableEq, Repr

/-- Model of `errors.As(err, &re)` for `re : *httpclient.RetryableError`:
walks the `Unwrap` chain and returns the `RetryAfter` field of the first
`RetryableError` found. -/
def asRetryable : GoErr → Option ℚ
  | .msg _ => none
  | .retryable _ ra => some ra
  | .wrap _ e => asRetryable e

namespace httpclient

/-- Model of `isRetryableStatus`: HTTP status codes the client retries. -/
def isRetryableStatus (code : ℕ) : Bool :=
  code = 429 || code = 500 || code = 502 || code = 503 || code = 504

/-- Model of `parseRetryAfter`: seconds from a `Retry-After` header value
(`strconv.Atoi`; empty or non-numeric value gives 0). -/
def parseRetryAfter (value : String) : ℚ :=
  if value = "" then 0
  else match charsToInt? value.toList with
    | some n => (n : ℚ)
    | none => 0

/-- Model of `NewHTTPError`: `*RetryableError` for 429/500/502/503/504
(carrying the parsed `Retry-After` hint), a plain error otherwise. -/
def NewHTTPError (statusCode : ℕ) (retryAfterHdr : String) : GoErr :=
  if isRetryableStatus statusCode then
    .retryable (.msg s!"HTTP {statusCode}") (parseRetryAfter retryAfterHdr)
  else
    .msg s!"HTTP {statusCode}"

/-- Model of `Backoff(attempt, maxBackoff, lastErr)`.  Durations are
rationals in seconds; `u` is the value drawn from `rand.Float64()`
(uniform on `[0,1)`).  The float64 arithmetic and the truncation of the
jitter to integer nanoseconds are idealized as exact rational arithmetic;
at the concrete inputs evaluated below the float computation is exact. -/
def Backoff (attempt : ℕ) (maxBackoff : ℚ) (lastErr : Option GoErr) (u : ℚ) : ℚ :=
  let exponential : ℚ :=
    let baseBackoff : ℚ := 2 ^ attempt
    let jitter : ℚ := baseBackoff * (1/2 - u) * (1/2)
    let backoff := baseBackoff + jitter
    if maxBackoff < backoff then maxBackoff else backoff
  match lastErr.bind asRetryable with
  | some ra => if 0 < ra then (if ra ≤ maxBackoff then ra else maxBackoff) else exponential
  | none => exponential

/-- Hostname decoding used by `loadCredentials`: `__` is preserved through
a NUL sentinel, `_` becomes `.`, then the sentinel becomes `_`. -/
def decodeHostname (s : String) : String :=
  goReplaceAll (goReplaceAll (goReplaceAll s "__" "\x00") "_" ".") "\x00" "_"

/-- The two env-var name pfxes scanned by `loadCredentials`, in source
order. -/
def tokenPfxes : List String := ["PM_TOKEN_", "TF_TOKEN_"]

/-- One step of the credential map construction (`creds[hostname] = v`
guarded by "don't overwrite if already set"); the map is an association
list in insertion order. -/
def credsInsert (creds : List (String × String)) (host tok : String) :
    List (String × String) :=
  if (creds.lookup host).isSome then creds else creds ++ [(host, tok)]

/-- Processing of a single `os.Environ()` entry by `loadCredentials`:
for each pfx in order, skip unless the entry starts with it, split at the
first `=`, decode the hostname, and insert unless already present. -/
def processEnvEntry (creds : List (String × String)) (env : String) :
    List (String × String) :=
  tokenPfxes.foldl
    (fun creds pfx =>
      if !goStartsWith env pfx then creds
      else
        match goSplitN2 env '=' with
        | [k, v] => credsInsert creds (decodeHostname (goTrimPfx k pfx)) v
        | _ => creds)
    creds

/-- Model of `loadCredentials`: folds `processEnvEntry` over the process
environment, which Go surfaces as the ordered list `os.Environ()`. -/
def loadCredentials (environ : List String) : List (String × String) :=
  environ.foldl processEnvEntry []

/-- Model of `httpclient.Config`.  `Timeout` and `MaxBackoff` are
durations in seconds (rationals); `Retries` is a Go `int`. -/
structure Config where
  Timeout : ℚ
  Retries : Int
  MaxBackoff : ℚ
  deriving DecidableEq, Repr

/-- Model of `httpclient.DefaultConfig`. -/
def DefaultConfig : Config :=
  { Timeout := 30, Retries := 3, MaxBackoff := 60 }

/-- The fields of `httpclient.Client` relevant to the model. -/
structure Client where
  timeout : ℚ
  credentials : List (String × String)
  retries : Int
  maxBackoff : ℚ
  deriving DecidableEq, Repr

/-- Model of `httpclient.New`: normalizes each non-positive field to its
default and loads credentials from the environment. -/
def New (environ : List String) (cfg : Config) : Client :=
  let cfg := if cfg.Timeout ≤ 0 then { cfg with Timeout := DefaultConfig.Timeout } else cfg
  let cfg := if cfg.Retries ≤ 0 then { cfg with Retries := DefaultConfig.Retries } else cfg
  let cfg := if cfg.MaxBackoff ≤ 0 then { cfg with MaxBackoff := DefaultConfig.MaxBackoff } else cfg
  { timeout := cfg.Timeout
    credentials := loadCredentials environ
    retries := cfg.Retries
    maxBackoff := cfg.MaxBackoff }

end httpclient

namespace downloader

/-- The first failing operation of one `downloadFile` attempt (or `ok`).
Each constructor corresponds to one failure site of `downloadFile` in the
source, in program order; `httpStatus` is a non-200 response (status code
and `Retry-After` header value), `netErr` a transport error from
`httpClient.Do`, `checksumMismatch` the SHA-256 comparison failure. -/
inductive AttemptOutcome
  | mkdirErr (s : String)
  | createErr (s : String)
  | reqErr (s : String)
  | netErr (s : String)
  | httpStatus (code : ℕ) (retryAfterHdr : String)
  | copyErr (s : String)
  | checksumMismatch (expected actual : String)
  | closeErr (s : String)
  | renameErr (s : String)
  | ok
  deriving DecidableEq, Repr

/-- Model of `downloadFile`: maps the attempt's outcome to the error value
the source builds at that site.  Network errors are wrapped in
`httpclient.RetryableError`; non-200 responses go through
`httpclient.NewHTTPError`; everything else is a plain wrapped error. -/
def downloadFile : AttemptOutcome → Except GoErr Unit
  | .mkdirErr s => .error (.wrap "creating directory" (.msg s))
  | .createErr s => .error (.wrap "creating temp file" (.msg s))
  | .reqErr s => .error (.wrap "creating request" (.msg s))
  | .netErr s => .error (.retryable (.wrap "downloading" (.msg s)) 0)
  | .httpStatus code hdr => .error (httpclient.NewHTTPError code hdr)
  | .copyErr s => .error (.wrap "writing file" (.msg s))
  | .checksumMismatch e a =>
      .error (.msg s!"checksum mismatch: expected {e}, got {a}")
  | .closeErr s => .error (.wrap "closing file" (.msg s))
  | .renameErr s => .error (.wrap "moving file" (.msg s))
  | .ok => .ok ()

/-- Whether an attempt outcome produces an error the retry loop treats as
transient (an `errors.As`-reachable `RetryableError`). -/
def isTransient (o : AttemptOutcome) : Bool :=
  match downloadFile o with
  | .ok _ => false
  | .error e => (asRetryable e).isSome

/-- The wrapped per-attempt error `fmt.Errorf("attempt %d/%d: %w", ...)`. -/
def attemptErr (attempt totalAttempts : ℕ) (e : GoErr) : GoErr :=
  .wrap s!"attempt {attempt + 1}/{totalAttempts}" e

/-- The loop body of `downloadWithRetry`, from attempt index `attempt`
with `fuel` iterations left (`fuel = retries + 1 - attempt`); `last` is
the wrapped error of the previous attempt (`none` before the first).
The backoff sleep between attempts does not affect the result and is not
modelled; cancellation during the sleep is outside this model.  Returns
the loop's result together with the number of `downloadFile` calls made. -/
def retryFrom (outcomes : ℕ → AttemptOutcome) (retries : ℕ) :
    ℕ → ℕ → Option GoErr → Except GoErr Unit × ℕ
  | attempt, 0, last =>
    (.error (match last with | some e => e | none => .msg "unreachable"), attempt)
  | attempt, fuel + 1, _ =>
    match downloadFile (outcomes attempt) with
    | .ok _ => (.ok (), attempt + 1)
    | .error err =>
      if (asRetryable err).isSome then
        retryFrom outcomes retries (attempt + 1) fuel
          (some (attemptErr attempt (retries + 1) err))
      else
        (.error (attemptErr attempt (retries + 1) err), attempt + 1)

/-- Model of `downloadWithRetry`: attempts `downloadFile` for
`attempt = 0 .. retries`, retrying only errors marked retryable, and
returns the result together with the number of attempts performed. -/
def downloadWithRetry (retries : ℕ) (outcomes : ℕ → AttemptOutcome) :
    Except GoErr Unit × ℕ :=
  retryFrom outcomes retries 0 (retries + 1) none

/-- Model of `downloader.Config`; durations in seconds, Go `int` fields
as `Int`. -/
structure Config where
  CacheDir : String
  NoCache : Bool
  Concurrency : Int
  Retries : Int
  MaxBackoff : ℚ
  ShowProgress : Bool
  deriving DecidableEq, Repr

/-- Model of `downloader.DefaultConfig`; `tempDir` stands for
`os.TempDir()`, and `filepath.Join` is modelled as `/`-concatenation
(its cleaning never alters the paths involved here). -/
def DefaultConfig (tempDir : String) : Config :=
  { CacheDir := tempDir ++ "/provider-mirror-cache"
    NoCache := false
    Concurrency := 8
    Retries := 3
    MaxBackoff := 60
    ShowProgress := true }

/-- The fields of `Downloader` relevant to the model: the normalized
config and the `httpclient.Client` built with a 5-minute timeout. -/
structure Downloader where
  config : Config
  httpClient : httpclient.Client
  deriving DecidableEq, Repr

/-- Model of `downloader.New`: normalizes the empty cache dir and every
non-positive numeric field to the default, and builds the shared HTTP
client with `httpclient.Config{Timeout: 5 * time.Minute}` (all other
fields at Go zero values). -/
def New (tempDir : String) (environ : List String) (config : Config) : Downloader :=
  let defaults := DefaultConfig tempDir
  let config := if config.CacheDir = "" then { config with CacheDir := defaults.CacheDir } else config
  let config := if config.Concurrency ≤ 0 then { config with Concurrency := defaults.Concurrency } else config
  let config := if config.Retries ≤ 0 then { config with Retries := defaults.Retries } else config
  let config := if config.MaxBackoff ≤ 0 then { config with MaxBackoff := defaults.MaxBackoff } else config
  { config := config
    httpClient := httpclient.New environ { Timeout := 5 * 60, Retries := 0, MaxBackoff := 0 } }

end downloader

namespace manifest

/-- Model of `manifest.Engine`, a Go string type. -/
abbrev Engine := String

def EngineTerraform : Engine := "terraform"

def EngineOpenTofu : Engine := "opentofu"

/-- Model of `Engine.IsValid`. -/
def Engine.IsValid (e : Engine) : Bool :=
  e = EngineTerraform || e = EngineOpenTofu

/-- Model of `Engine.DefaultRegistry` (default case returns `""`). -/
def Engine.DefaultRegistry (e : Engine) : String :=
  if e = EngineTerraform then "registry.terraform.io"
  else if e = EngineOpenTofu then "registry.opentofu.org"
  else ""

/-- Model of `manifest.Defaults`. -/
structure Defaults where
  Engines : List Engine
  Platforms : List String
  deriving DecidableEq, Repr

/-- Model of `manifest.Provider` (one manifest entry). -/
structure Provider where
  Source : String
  Versions : List String
  Engines : List Engine
  Platforms : List String
  deriving DecidableEq, Repr

/-- Model of `manifest.Manifest`. -/
structure Manifest where
  Defaults : Defaults
  Providers : List Provider
  deriving DecidableEq, Repr

/-- Model of `manifest.ProviderSource`. -/
structure ProviderSource where
  Hostname : String
  Namespace : String
  Name : String
  deriving DecidableEq, Repr

/-- Model of `ProviderSource.String()`. -/
def ProviderSource.render (p : ProviderSource) : String :=
  p.Hostname ++ "/" ++ p.Namespace ++ "/" ++ p.Name

/-- The provider-entry part of `Manifest.Validate` (the indexed loop). -/
def validateProviders (defaultEngines : List Engine) : ℕ → List Provider → Except String Unit
  | _, [] => .ok ()
  | i, p :: rest =>
    if p.Source = "" then .error s!"provider {i}: source is required"
    else if p.Versions.length = 0 then
      .error s!"provider {p.Source}: at least one version constraint is required"
    else
      match p.Engines.find? (fun e => !e.IsValid) with
      | some e => .error s!"provider {p.Source}: unsupported engine: {e}"
      | none =>
        if p.Engines.length = 0 && defaultEngines.length = 0 then
          .error s!"provider {p.Source}: no engines specified (set defaults.engines or provider-level engines)"
        else validateProviders defaultEngines (i + 1) rest

/-- Model of `Manifest.Validate`. -/
def Validate (m : Manifest) : Except String Unit :=
  match m.Defaults.Engines.find? (fun e => !e.IsValid) with
  | some e => .error s!"unsupported engine: {e}"
  | none =>
    if m.Providers.length = 0 then .error "manifest must specify at least one provider"
    else validateProviders m.Defaults.Engines 0 m.Providers

/-- Model of `Manifest.applyDefaults`. -/
def applyDefaults (m : Manifest) : Manifest :=
  { m with
    Providers := m.Providers.map fun p =>
      let p := if p.Engines.length = 0 then { p with Engines := m.Defaults.Engines } else p
      if p.Platforms.length = 0 then { p with Platforms := m.Defaults.Platforms } else p }

/-- Model of `ParseProviderSource` (`strings.Split` on `/`). -/
def ParseProviderSource (source : String) : Except String ProviderSource :=
  match goSplit source '/' with
  | [ns, name] => .ok { Hostname := "", Namespace := ns, Name := name }
  | [host, ns, name] => .ok { Hostname := host, Namespace := ns, Name := name }
  | _ =>
    .error s!"invalid provider source format: {source} (expected namespace/name or hostname/namespace/name)"

/-- Model of `manifest.ExpandedProvider`; `Engine` is `""` (the Go zero
value, "unset") when the source had an explicit hostname. -/
structure ExpandedProvider where
  Source : ProviderSource
  Versions : List String
  Platforms : List String
  Engine : Engine
  SourceSpec : String
  deriving DecidableEq, Repr

/-- Model of `Manifest.expandProvider`. -/
def expandProvider (p : Provider) : Except String (List ExpandedProvider) :=
  match ParseProviderSource p.Source with
  | .error e => .error e
  | .ok parsed =>
    if parsed.Hostname ≠ "" then
      .ok [{ Source := parsed
             Versions := p.Versions
             Platforms := p.Platforms
             Engine := ""
             SourceSpec := p.Source }]
    else
      .ok (p.Engines.map fun engine =>
        { Source := { parsed with Hostname := engine.DefaultRegistry }
          Versions := p.Versions
          Platforms := p.Platforms
          Engine := engine
          SourceSpec := p.Source })

/-- Model of `Manifest.GetExpandedProviders` (error messages wrap as
string concatenation). -/
def GetExpandedProviders (m : Manifest) : Except String (List ExpandedProvider) :=
  go m.Providers
where
  go : List Provider → Except String (List ExpandedProvider)
    | [] => .ok []
    | p :: rest =>
      match expandProvider p with
      | .error e => .error s!"expanding provider {p.Source}: {e}"
      | .ok expanded =>
        match go rest with
        | .error e => .error e
        | .ok all => .ok (expanded ++ all)

/-- Statement vocabulary for the expansion claim: whether an entry's
source string carries an explicit hostname (parses into three components
with a non-empty first, the criterion `expandProvider` branches on). -/
def hasExplicitHostname (p : Provider) : Bool :=
  match ParseProviderSource p.Source with
  | .ok parsed => parsed.Hostname ≠ ""
  | .error _ => false

/-- Statement vocabulary: the expansion count the spec predicts for one
entry — 1 with an explicit hostname, otherwise one per resolved engine. -/
def expectedCount (p : Provider) : ℕ :=
  if hasExplicitHostname p then 1 else p.Engines.length

end manifest

namespace registry

/-- Model of `registry.ProviderPlatform` (`internal/registry`,
src/unnamed/part_006): one platform of an advertised provider version. -/
structure ProviderPlatform where
  OS : String
  Arch : String
  deriving DecidableEq, Repr

/-- Model of `ProviderPlatform.String()` (src/unnamed/part_006):
`"<os>_<arch>"` via `fmt.Sprintf("%s_%s", p.OS, p.Arch)`. -/
def ProviderPlatform.render (p : ProviderPlatform) : String :=
  p.OS ++ "_" ++ p.Arch

/-- Model of `registry.ProviderVersion` (src/unnamed/part_006): a single
advertised provider version.  `Protocols` is carried as in the source;
the resolver reads only `Version` and `Platforms`. -/
structure ProviderVersion where
  Version : String
  Protocols : List String
  Platforms : List ProviderPlatform
  deriving DecidableEq, Repr

/-- Model of `registry.ProviderVersions` (src/unnamed/part_006): the
versions-endpoint response that `Client.GetVersions` decodes. -/
structure ProviderVersions where
  Versions : List ProviderVersion
  deriving DecidableEq, Repr

end registry

/-- A fixed registry snapshot: the `ProviderVersions` value (or error)
that `registry.Client.GetVersions(ctx, hostname, namespace, name)`
(src/unnamed/part_006) yields for each provider during a run.
`GetVersions` performs service discovery and an authenticated HTTP GET
and decodes the JSON response; the claims quantify over a fixed snapshot
of its results, so that network side is abstracted into this function. -/
def RegistrySnapshot : Type :=
  String → String → String → Except String registry.ProviderVersions

/-- Interface of the external `github.com/hashicorp/go-version` library
exactly as the resolver uses it: `NewVersion` (`parse`), `NewConstraint`
(`parseC`), `Constraint.Check` (`check`) and `Version.GreaterThan` (`gt`,
on parsed values; the original string is carried separately, as
`Version.Original()` does).  The library is an external dependency, so
the resolver is embedded parametrically in it; `numericLib` below is the
concrete instantiation for plain dotted numeric versions. -/
structure VersionLib (V C : Type) where
  parse : String → Option V
  parseC : String → Option C
  check : C → V → Bool
  gt : V → V → Bool

/-- The contract the go-version library satisfies: `Compare` is a total
preorder, so `GreaterThan` is asymmetric and negatively transitive, and
`Constraint.Check` depends on a version only through comparisons, hence
respects the induced equivalence (`gt` both ways false). -/
structure VersionLib.Lawful (lib : VersionLib V C) : Prop where
  gt_asymm : ∀ a b, lib.gt a b = true → lib.gt b a = false
  gt_negtrans : ∀ a b c, lib.gt a c = true → lib.gt a b = true ∨ lib.gt b c = true
  check_congr : ∀ c a b, lib.gt a b = false → lib.gt b a = false →
    lib.check c a = lib.check c b

namespace resolver

/-- Model of `resolver.ResolvedVersion`. -/
structure ResolvedVersion where
  Version : String
  Platforms : List String
  ManifestSources : List String
  deriving DecidableEq, Repr

/-- Model of `resolver.ResolvedProvider`. -/
structure ResolvedProvider where
  Source : manifest.ProviderSource
  Versions : List ResolvedVersion
  deriving DecidableEq, Repr

/-- Model of `resolver.Resolution`. -/
structure Resolution where
  Providers : List ResolvedProvider
  deriving DecidableEq, Repr

/-- Model of `resolver.resolvedVersionResult`. -/
structure resolvedVersionResult where
  Provider : manifest.ProviderSource
  Version : String
  Platforms : List String
  ManifestSource : String
  deriving DecidableEq, Repr

/-- The matching versions of one registry response, in advertised order:
original string paired with its parsed value, keeping only strings that
parse (`NewVersion` failures are skipped) and satisfy the constraint. -/
def matchingOf (lib : VersionLib V C) (constraint : C)
    (pvs : registry.ProviderVersions) : List (String × V) :=
  pvs.Versions.filterMap fun pv =>
    match lib.parse pv.Version with
    | none => none
    | some v => if lib.check constraint v then some (pv.Version, v) else none

/-- The `versionToPlatforms` map at key `ver`: the map is written once per
matching advertised entry in order, so a lookup yields the platforms of
the last matching entry carrying that exact version string (Go's map
read of an absent key gives the empty slice). -/
def platformsForVersion (lib : VersionLib V C) (constraint : C)
    (pvs : registry.ProviderVersions) (ver : String) : List registry.ProviderPlatform :=
  let matchingEntries := pvs.Versions.filter fun pv =>
    match lib.parse pv.Version with
    | none => false
    | some v => lib.check constraint v
  match (matchingEntries.filter (fun pv => pv.Version = ver)).getLast? with
  | some pv => pv.Platforms
  | none => []

/-- The requested-platform check loop: appends each requested platform
present in the available set, failing at the first one that is not. -/
def checkPlatforms (src ver : String) (available : List String) :
    List String → Except String (List String)
  | [] => .ok []
  | requested :: rest =>
    if available.contains requested then
      match checkPlatforms src ver available rest with
      | .error e => .error e
      | .ok ps => .ok (requested :: ps)
    else .error s!"provider {src} version {ver} does not have platform {requested}"

/-- The per-expansion body of `resolveConstraintGroup`: fetch the version
list, keep matching versions, sort them descending by `GreaterThan`
(`sortGo`, see its header comment), select the head's original string,
and check the requested platforms against the platforms advertised for
that exact version string. -/
def resolveExpansion (lib : VersionLib V C) (reg : RegistrySnapshot)
    (constraintStr : String) (constraint : C) (ep : manifest.ExpandedProvider) :
    Except String resolvedVersionResult :=
  match reg ep.Source.Hostname ep.Source.Namespace ep.Source.Name with
  | .error e => .error s!"fetching versions for {ep.Source.render}: {e}"
  | .ok pvs =>
    match sortGo (fun a b => lib.gt a.2 b.2) (matchingOf lib constraint pvs) with
    | [] => .error s!"no versions of {ep.Source.render} match constraint {constraintStr}"
    | sel :: _ =>
      let selectedVersion := sel.1
      let available :=
        (platformsForVersion lib constraint pvs selectedVersion).map registry.ProviderPlatform.render
      match checkPlatforms ep.Source.render selectedVersion available ep.Platforms with
      | .error e => .error e
      | .ok platforms =>
        .ok { Provider := ep.Source
              Version := selectedVersion
              Platforms := platforms
              ManifestSource := ep.SourceSpec }

/-- The expansion loop of `resolveConstraintGroup`. -/
def resolveExpansions (lib : VersionLib V C) (reg : RegistrySnapshot)
    (constraintStr : String) (constraint : C) :
    List manifest.ExpandedProvider → Except String (List resolvedVersionResult)
  | [] => .ok []
  | ep :: rest =>
    match resolveExpansion lib reg constraintStr constraint ep with
    | .error e => .error e
    | .ok r =>
      match resolveExpansions lib reg constraintStr constraint rest with
      | .error e => .error e
      | .ok rs => .ok (r :: rs)

/-- Model of `resolveConstraintGroup`. -/
def resolveConstraintGroup (lib : VersionLib V C) (reg : RegistrySnapshot)
    (constraintStr : String) (expansions : List manifest.ExpandedProvider) :
    Except String (List resolvedVersionResult) :=
  if expansions.length = 0 then .ok []
  else
    match lib.parseC constraintStr with
    | none => .error s!"parsing constraint {constraintStr}: malformed constraint"
    | some constraint => resolveExpansions lib reg constraintStr constraint expansions

end resolver

/-- Association-list model of a Go map: update the value at `k` with `f`
(starting from the default `d` when absent, as Go map reads do),
preserving first-insertion order of keys. -/
def mapUpdate [DecidableEq κ] (k : κ) (d : β) (f : β → β) :
    List (κ × β) → List (κ × β)
  | [] => [(k, f d)]
  | (k', v) :: rest =>
    if k' = k then (k', f v) :: rest else (k', v) :: mapUpdate k d f rest

/-- Go `set[x] = true` on a set represented as its keys in insertion
order. -/
def setInsert (l : List String) (x : String) : List String :=
  if x ∈ l then l else l ++ [x]

/-- Ascending string comparison, as used by Go `sort.Strings`. -/
def strLess (a b : String) : Bool := charsLt a.data b.data

namespace resolver

/-- Modelled from the spec's tie-break words (stated for comparison with
the code's selection, not taken from the code): among the advertised
versions that parse and satisfy the constraint, take the semver-maximal
set and pick the lexicographically greatest original string in it. -/
def specTieBreakPick (lib : VersionLib V C) (constraint : C)
    (pvs : registry.ProviderVersions) : Option String :=
  let m := matchingOf lib constraint pvs
  let maximal := m.filter fun a => m.all fun b => !lib.gt b.2 a.2
  (sortGo strLess (maximal.map Prod.fst)).getLast?

/-- Model of the resolver's `constraintGroup`. -/
structure constraintGroup where
  constraint : String
  expansions : List manifest.ExpandedProvider
  deriving DecidableEq, Repr

/-- The find-or-create step over one provider key's group slice
(`Resolve` pass 1 inner loop); the appended expansion carries the single
constraint. -/
def addExpansion (constraintStr : String) (e : manifest.ExpandedProvider) :
    List constraintGroup → List constraintGroup
  | [] => [{ constraint := constraintStr, expansions := [e] }]
  | cg :: rest =>
    if cg.constraint = constraintStr then
      { cg with expansions := cg.expansions ++ [e] } :: rest
    else cg :: addExpansion constraintStr e rest

/-- Model of `Resolve` pass 1: group expansions by `namespace/name` and,
within each provider key, by exact constraint string.  The Go map is an
association list in first-insertion order; its *content* (which pass 2
consumes) does not depend on iteration order, only pass 2's traversal
does. -/
def buildConstraintGroups (expanded : List manifest.ExpandedProvider) :
    List (String × List constraintGroup) :=
  expanded.foldl
    (fun acc ep =>
      ep.Versions.foldl
        (fun acc constraintStr =>
          mapUpdate (ep.Source.Namespace ++ "/" ++ ep.Source.Name) []
            (addExpansion constraintStr { ep with Versions := [constraintStr] }) acc)
        acc)
    []

/-- Model of the resolver's `versionKey` (`ns` is the namespace). -/
structure versionKey where
  hostname : String
  ns : String
  name : String
  version : String
  deriving DecidableEq, Repr

/-- `versionsMap` / `sourcesMap`: association lists from `versionKey` to a
set of strings (platforms / manifest sources) kept in insertion order. -/
abbrev StrSetMap := List (versionKey × List String)

/-- Accumulation of one `resolvedVersionResult` into the two maps
(`Resolve` pass 2 result loop). -/
def addResult (maps : StrSetMap × StrSetMap) (rv : resolvedVersionResult) :
    StrSetMap × StrSetMap :=
  let key : versionKey :=
    { hostname := rv.Provider.Hostname
      ns := rv.Provider.Namespace
      name := rv.Provider.Name
      version := rv.Version }
  (mapUpdate key [] (fun ps => rv.Platforms.foldl setInsert ps) maps.1,
   mapUpdate key [] (fun ss => setInsert ss rv.ManifestSource) maps.2)

/-- Model of the resolver's `providerKey` in `buildResolution`. -/
structure providerKey where
  hostname : String
  ns : String
  name : String
  deriving DecidableEq, Repr

/-- Model of the resolver's `versionData`. -/
structure versionData where
  platforms : List String
  sources : List String
  deriving DecidableEq, Repr

/-- The provider-key comparator of `buildResolution` (and of the mirror
writer): ascending by `(hostname, namespace, name)`. -/
def pkLess (a b : providerKey) : Bool :=
  if a.hostname ≠ b.hostname then strLess a.hostname b.hostname
  else if a.ns ≠ b.ns then strLess a.ns b.ns
  else strLess a.name b.name

/-- The version comparator of `buildResolution`: descending by
`GreaterThan` when both strings parse, otherwise descending by string. -/
def verLess (lib : VersionLib V C) (a b : String) : Bool :=
  match lib.parse a, lib.parse b with
  | some va, some vb => lib.gt va vb
  | _, _ => strLess b a

/-- One step of the `grouped` construction in `buildResolution`: merge the
entry's platform set and source set into `grouped[pk][version]`, sorting
both (the Go code extracts each set's keys in map order and sorts; the
sort makes the extraction order irrelevant). -/
def groupStep (sm : StrSetMap)
    (grouped : List (providerKey × List (String × versionData)))
    (entry : versionKey × List String) :
    List (providerKey × List (String × versionData)) :=
  let vk := entry.1
  let pk : providerKey := { hostname := vk.hostname, ns := vk.ns, name := vk.name }
  mapUpdate pk []
    (mapUpdate vk.version { platforms := [], sources := [] } fun vd =>
      { platforms := sortGo strLess ((vd.platforms ++ entry.2).foldl setInsert [])
        sources :=
          sortGo strLess
            ((vd.sources ++ ((sm.lookup vk).getD [])).foldl setInsert []) })
    grouped

/-- Model of `buildResolution`.  The input association lists stand for the
Go maps together with one iteration order over them; theorems quantify
over that order. -/
def buildResolution (lib : VersionLib V C) (vm sm : StrSetMap) : Resolution :=
  let grouped := vm.foldl (groupStep sm) []
  let providerKeys := sortGo pkLess (grouped.map (·.1))
  { Providers :=
      providerKeys.map fun pk =>
        let versions := (grouped.lookup pk).getD []
        let versionStrs := sortGo (verLess lib) (versions.map (·.1))
        { Source := { Hostname := pk.hostname, Namespace := pk.ns, Name := pk.name }
          Versions :=
            versionStrs.map fun v =>
              let data := (versions.lookup v).getD { platforms := [], sources := [] }
              { Version := v
                Platforms := data.platforms
                ManifestSources := data.sources } } }

/-- The pass-2 loop over constraint groups: resolve each group in the
given traversal order, concatenating the per-group results (accumulation
into the maps happens afterwards via `addResult`, which is equivalent to
the source's interleaved accumulation). -/
def resolveGroups (lib : VersionLib V C) (reg : RegistrySnapshot) :
    List constraintGroup → Except String (List resolvedVersionResult)
  | [] => .ok []
  | cg :: rest =>
    match resolveConstraintGroup lib reg cg.constraint cg.expansions with
    | .error e => .error e
    | .ok r =>
      match resolveGroups lib reg rest with
      | .error e => .error e
      | .ok rs => .ok (r ++ rs)

/-- Model of `Resolve` for one run.  `groupOrder` is the order in which
the run's Go map iteration visits the flattened constraint groups — an
arbitrary permutation of `buildConstraintGroups`' content (theorems
quantify over it, constrained to be a permutation).  Cancellation is not
modelled (a run that completes was not cancelled). -/
def Resolve (lib : VersionLib V C) (reg : RegistrySnapshot)
    (m : manifest.Manifest) (groupOrder : List constraintGroup) :
    Except String Resolution :=
  match manifest.GetExpandedProviders m with
  | .error e => .error s!"expanding providers: {e}"
  | .ok _ =>
    match resolveGroups lib reg groupOrder with
    | .error e => .error e
    | .ok results =>
      let maps := results.foldl addResult ([], [])
      .ok (buildResolution lib maps.1 maps.2)

/-- The canonical flattened group list of a manifest (pass 1 content in
first-insertion order); a run's `groupOrder` is a permutation of this. -/
def canonicalGroups (m : manifest.Manifest) : List constraintGroup :=
  match manifest.GetExpandedProviders m with
  | .error _ => []
  | .ok expanded => (buildConstraintGroups expanded).foldr (fun kv acc => kv.2 ++ acc) []

/-- The version key a result accumulates under (`addResult`'s key). -/
def vkOf (rv : resolvedVersionResult) : versionKey :=
  { hostname := rv.Provider.Hostname
    ns := rv.Provider.Namespace
    name := rv.Provider.Name
    version := rv.Version }

/-- The provider key of a version key (`buildResolution`'s grouping). -/
def pkOf (vk : versionKey) : providerKey :=
  { hostname := vk.hostname, ns := vk.ns, name := vk.name }

/-- The concatenated per-group results of a run, written directly as a
`flatMap` (used to compare two runs' `resolveGroups` outputs). -/
def groupResultsOf (lib : VersionLib V C) (reg : RegistrySnapshot)
    (l : List constraintGroup) : List resolvedVersionResult :=
  l.flatMap fun cg =>
    match resolveConstraintGroup lib reg cg.constraint cg.expansions with
    | .ok r => r
    | .error _ => []

end resolver

/-! ## Concrete instantiation of the version library

`hashicorp/go-version` restricted to plain dotted numeric versions
(1–3 numeric segments, zero-padded to three; no prerelease or build
metadata) and to constraints built from `=`, `!=`, `<`, `<=`, `>`, `>=`
conjunctions.  On this fragment go-version's `Compare` is exactly the
lexicographic comparison of the padded segments, and every concrete
version and constraint string evaluated below lies in the fragment. -/

/-- A parsed numeric version: `(major, minor, patch)`. -/
abbrev NumVer := ℕ × ℕ × ℕ

/-- Lexicographic strict comparison of numeric versions (go-version
`LessThan` on the fragment). -/
def numLt (a b : NumVer) : Bool :=
  if a.1 ≠ b.1 then decide (a.1 < b.1)
  else if a.2.1 ≠ b.2.1 then decide (a.2.1 < b.2.1)
  else decide (a.2.2 < b.2.2)

/-- go-version `NewVersion` on the numeric fragment: dot-separated decimal
segments, padded with zeros to three. -/
def parseNumericVersion (s : String) : Option NumVer :=
  match (charsSplit '.' s.toList).mapM charsToNat? with
  | some [a] => some (a, 0, 0)
  | some [a, b] => some (a, b, 0)
  | some [a, b, c] => some (a, b, c)
  | _ => none

/-- Comparison operators of the constraint grammar fragment. -/
inductive NumOp
  | eqOp | neOp | ltOp | leOp | gtOp | geOp
  deriving DecidableEq, Repr

/-- One comparator of a constraint string (`NewConstraint` fragment): an
optional operator (default `=`) followed by a version; the pessimistic
operator `~>` is outside the fragment. -/
def parseSingleConstraint (t : String) : Option (NumOp × NumVer) :=
  let vOf : List Char → Option NumVer := fun cs =>
    parseNumericVersion ⟨(cs.dropWhile isWs).reverse.dropWhile isWs |>.reverse⟩
  match (goTrim t).toList with
  | '>' :: '=' :: rest => (vOf rest).map ((NumOp.geOp, ·))
  | '<' :: '=' :: rest => (vOf rest).map ((NumOp.leOp, ·))
  | '!' :: '=' :: rest => (vOf rest).map ((NumOp.neOp, ·))
  | '~' :: '>' :: _ => none
  | '=' :: rest => (vOf rest).map ((NumOp.eqOp, ·))
  | '>' :: rest => (vOf rest).map ((NumOp.gtOp, ·))
  | '<' :: rest => (vOf rest).map ((NumOp.ltOp, ·))
  | cs => (vOf cs).map ((NumOp.eqOp, ·))

/-- go-version `NewConstraint` on the fragment: comma-separated
conjunction of comparators. -/
def parseNumericConstraint (s : String) : Option (List (NumOp × NumVer)) :=
  (goSplit s ',').mapM parseSingleConstraint

/-- go-version `Constraint.Check` on the fragment. -/
def numCheck (cs : List (NumOp × NumVer)) (v : NumVer) : Bool :=
  cs.all fun c =>
    match c.1 with
    | .eqOp => v = c.2
    | .neOp => v ≠ c.2
    | .ltOp => numLt v c.2
    | .leOp => !numLt c.2 v
    | .gtOp => numLt c.2 v
    | .geOp => !numLt v c.2

/-- The concrete version library: go-version on the numeric fragment. -/
def numericLib : VersionLib NumVer (List (NumOp × NumVer)) :=
  { parse := parseNumericVersion
    parseC := parseNumericConstraint
    check := numCheck
    gt := fun a b => numLt b a }

namespace downloader

/-- Model of `downloader.DownloadTask` (the fields the writer reads). -/
structure DownloadTask where
  Provider : resolver.ResolvedProvider
  Version : resolver.ResolvedVersion
  Platform : String
  OS : String
  Arch : String
  deriving DecidableEq, Repr

/-- Model of `downloader.DownloadResult`. -/
structure DownloadResult where
  Task : DownloadTask
  CachePath : String
  DownloadURL : String
  Filename : String
  SHA256Sum : String
  Error : Option GoErr
  FromCache : Bool
  deriving DecidableEq, Repr

end downloader

namespace mirror

/-- Model of `mirror.LockFilePlatform`. -/
structure LockFilePlatform where
  OS : String
  Arch : String
  Filename : String
  SHA256 : String
  H1 : String
  deriving DecidableEq, Repr

/-- Model of `mirror.LockFileVersion`. -/
structure LockFileVersion where
  Version : String
  ManifestSources : List String
  Platforms : List LockFilePlatform
  deriving DecidableEq, Repr

/-- Model of `mirror.LockFileProvider`. -/
structure LockFileProvider where
  Hostname : String
  Namespace : String
  Name : String
  Versions : List LockFileVersion
  deriving DecidableEq, Repr

/-- Model of `mirror.LockFile`. -/
structure LockFile where
  Version : Int
  GeneratedAt : String
  Providers : List LockFileProvider
  deriving DecidableEq, Repr

/-- The platform comparator of `writeLockFile`: ascending by `(OS, Arch)`. -/
def platLess (a b : LockFilePlatform) : Bool :=
  if a.OS ≠ b.OS then strLess a.OS b.OS else strLess a.Arch b.Arch

/-- The `LockFilePlatform` built for one download result (`h1Hashes` is
the hash map from the hashing phase, read at the result's cache path;
Go's map read of an absent key gives `""`). -/
def lockPlatform (h1Hashes : String → String) (r : downloader.DownloadResult) :
    LockFilePlatform :=
  { OS := r.Task.OS
    Arch := r.Task.Arch
    Filename := r.Filename
    SHA256 := r.SHA256Sum
    H1 := h1Hashes r.CachePath }

/-- The grouping loop of `writeLockFile`: `providerMap` (here the ordered
key list, since the provider value is determined by its key until
versions are attached) and `versionMap`; a `LockFileVersion` is created
with the first result's `ManifestSources` and later results only append
platforms. -/
def lockAccum (h1Hashes : String → String)
    (acc : List resolver.providerKey ×
      List (resolver.providerKey × List (String × LockFileVersion)))
    (r : downloader.DownloadResult) :
    List resolver.providerKey ×
      List (resolver.providerKey × List (String × LockFileVersion)) :=
  let pk : resolver.providerKey :=
    { hostname := r.Task.Provider.Source.Hostname
      ns := r.Task.Provider.Source.Namespace
      name := r.Task.Provider.Source.Name }
  let ver := r.Task.Version.Version
  ((if pk ∈ acc.1 then acc.1 else acc.1 ++ [pk]),
   mapUpdate pk []
     (mapUpdate ver
       { Version := ver, ManifestSources := r.Task.Version.ManifestSources, Platforms := [] }
       (fun lv => { lv with Platforms := lv.Platforms ++ [lockPlatform h1Hashes r] }))
     acc.2)

/-- The two grouping maps of `writeLockFile` (provider key list and
`versionMap`), built by folding `lockAccum` over the results. -/
def lockMaps (h1Hashes : String → String) (results : List downloader.DownloadResult) :
    List resolver.providerKey ×
      List (resolver.providerKey × List (String × LockFileVersion)) :=
  results.foldl (lockAccum h1Hashes) ([], [])

/-- The `LockFileVersion` emitted for one sorted version key: the stored
entry with its platforms sorted by `(OS, Arch)` (the `getD` default is
Go's nil-map read, unreachable for keys of the map). -/
def lockVersionOf (verMap : List (String × LockFileVersion)) (v : String) :
    LockFileVersion :=
  let lv := (verMap.lookup v).getD { Version := v, ManifestSources := [], Platforms := [] }
  { lv with Platforms := sortGo platLess lv.Platforms }

/-- The `LockFileProvider` assembled for one provider key in the output
loop of `writeLockFile`: version strings sorted by `sort.Strings`
(ascending), each version's platforms sorted by `(OS, Arch)`. -/
def lockProviderOf
    (verMaps : List (resolver.providerKey × List (String × LockFileVersion)))
    (pk : resolver.providerKey) : LockFileProvider :=
  let verMap := (verMaps.lookup pk).getD []
  { Hostname := pk.hostname
    Namespace := pk.ns
    Name := pk.name
    Versions := (sortGo strLess (verMap.map (·.1))).map (lockVersionOf verMap) }

/-- Model of `writeLockFile` up to the serialized value: the `LockFile`
it marshals (the actual write to `<staging>/mirror.lock` is one of the
staged filesystem actions of `Write` below).  `generatedAt` stands for
`time.Now().UTC().Format(time.RFC3339)`. -/
def writeLockFile (h1Hashes : String → String) (generatedAt : String)
    (results : List downloader.DownloadResult) : LockFile :=
  let maps := lockMaps h1Hashes results
  { Version := 1
    GeneratedAt := generatedAt
    Providers := (sortGo resolver.pkLess maps.1).map (lockProviderOf maps.2) }

/-! ### Filesystem model for the atomic-swap analysis

A filesystem is a finite map from file paths (component lists) to file
contents; directories are implicit.  File contents are kept as structured
data (`FileData`): the JSON encodings the writer emits are injective on
these values, so "bit-identical" coincides with equality. -/

abbrev Path := List String

/-- Structured file contents written by the mirror writer. -/
inductive FileData
  | zipCopy (cachePath : String)
  | versionJson (archives : List (String × List String × String))
  | indexJson (versions : List String)
  | lockJson (lf : LockFile)
  deriving DecidableEq, Repr

abbrev FS := List (Path × FileData)

/-- Whether `p` lies inside directory `dir`. -/
def isUnder (dir : Path) (p : Path) : Bool :=
  dir.isPrefixOf p

/-- `os.RemoveAll dir` (successful case). -/
def removeAllFS (dir : Path) (fs : FS) : FS :=
  fs.filter fun e => !isUnder dir e.1

/-- A partially failed `os.RemoveAll dir`: entries under `dir` for which
the environment's `survives` predicate holds remain. -/
def removeAllPartial (dir : Path) (survives : Path → Bool) (fs : FS) : FS :=
  fs.filter fun e => !isUnder dir e.1 || survives e.1

/-- `os.WriteFile` / `copyFile` destination effect. -/
def writeFileFS (p : Path) (d : FileData) (fs : FS) : FS :=
  (fs.filter fun e => e.1 ≠ p) ++ [(p, d)]

/-- `os.Rename src dst` (successful case): every entry under `src` moves
under `dst`. -/
def renameFS (src dst : Path) (fs : FS) : FS :=
  fs.map fun e => if isUnder src e.1 then (dst ++ e.1.drop src.length, e.2) else e

/-- Model of `mirror.Writer`: the output directory is `dirs ++ [base]`
and `NewWriter` derives the staging directory by appending `".staging"`
to the final component (after `filepath.Clean`, which the component
representation absorbs). -/
structure Writer where
  dirs : List String
  base : String
  deriving DecidableEq, Repr

def Writer.outputDir (w : Writer) : Path := w.dirs ++ [w.base]

def Writer.stagingDir (w : Writer) : Path := w.dirs ++ [w.base ++ ".staging"]

/-- The state of the `<output>` directory: the restriction of the
filesystem to paths under it. -/
def outputView (w : Writer) (fs : FS) : FS :=
  fs.filter fun e => isUnder w.outputDir e.1

/-- One staged filesystem operation of the writer. -/
inductive StageAction
  | mkdirAct (p : Path)
  | writeAct (p : Path) (d : FileData)
  deriving DecidableEq, Repr

/-- The grouping of results by provider and version in `Write`
(insertion-ordered association lists standing for the Go maps). -/
def groupResults (results : List downloader.DownloadResult) :
    List (resolver.providerKey × List (String × List downloader.DownloadResult)) :=
  results.foldl
    (fun acc r =>
      let pk : resolver.providerKey :=
        { hostname := r.Task.Provider.Source.Hostname
          ns := r.Task.Provider.Source.Namespace
          name := r.Task.Provider.Source.Name }
      mapUpdate pk [] (mapUpdate r.Task.Version.Version [] (fun l => l ++ [r])) acc)
    []

/-- The staged operations of `writeProvider` for one provider, in program
order: create the provider directory, then per version copy each archive
and write `<version>.json`, then write `index.json`. -/
def providerActions (stagingDir : Path) (h1Hashes : String → String)
    (pk : resolver.providerKey)
    (versions : List (String × List downloader.DownloadResult)) : List StageAction :=
  let providerDir := stagingDir ++ [pk.hostname, pk.ns, pk.name]
  StageAction.mkdirAct providerDir ::
    (versions.flatMap fun (ver, downloads) =>
      (downloads.map fun dl =>
        StageAction.writeAct (providerDir ++ [dl.Filename]) (.zipCopy dl.CachePath)) ++
      [StageAction.writeAct (providerDir ++ [ver ++ ".json"])
        (.versionJson (downloads.map fun dl =>
          (dl.Task.OS ++ "_" ++ dl.Task.Arch, [h1Hashes dl.CachePath], dl.Filename)))]) ++
    [StageAction.writeAct (providerDir ++ ["index.json"]) (.indexJson (versions.map (·.1)))]

/-- All staged operations of a `Write` run after hashing: the provider
trees followed by the lock file. -/
def stagingActions (w : Writer) (h1Hashes : String → String) (generatedAt : String)
    (results : List downloader.DownloadResult) : List StageAction :=
  (groupResults results).flatMap
      (fun g => providerActions w.stagingDir h1Hashes g.1 g.2) ++
    [StageAction.writeAct (w.stagingDir ++ ["mirror.lock"])
      (.lockJson (writeLockFile h1Hashes generatedAt results))]

/-- The per-step failure oracle of a `Write` run: which filesystem
operations fail (and, for `RemoveAll`, which entries a failed partial
removal leaves behind), plus the hashing phase's outcome. -/
structure WriteEnv where
  rmStagingErr : Option String
  rmStagingSurvives : Path → Bool
  hashes : Except String (String → String)
  writeErr : ℕ → Option String
  rmOutputErr : Option String
  rmOutputSurvives : Path → Bool
  renameErr : Option String

/-- Sequential application of the staged operations, stopping at the
first failing one (`i` indexes into the oracle). -/
def applyActions (writeErr : ℕ → Option String) :
    ℕ → List StageAction → FS → Except String Unit × FS
  | _, [], fs => (.ok (), fs)
  | i, a :: rest, fs =>
    match writeErr i with
    | some e => (.error e, fs)
    | none =>
      let fs := match a with
        | .mkdirAct _ => fs
        | .writeAct p d => writeFileFS p d fs
      applyActions writeErr (i + 1) rest fs

/-- Model of `Write`: clean staging, check results for download errors,
compute the `h1:` hashes, stage the provider trees and the lock file,
then swap — `RemoveAll(output)` followed by `Rename(staging, output)`.
Returns the result together with the final filesystem. -/
def Write (env : WriteEnv) (w : Writer) (generatedAt : String)
    (results : List downloader.DownloadResult) (fs : FS) :
    Except String Unit × FS :=
  match env.rmStagingErr with
  | some e => (.error s!"cleaning staging directory: {e}",
      removeAllPartial w.stagingDir env.rmStagingSurvives fs)
  | none =>
    let fs := removeAllFS w.stagingDir fs
    match results.find? (fun r => r.Error.isSome) with
    | some r =>
      (.error s!"cannot write mirror: download failed for {r.Task.Provider.Source.render}", fs)
    | none =>
      match env.hashes with
      | .error e => (.error e, fs)
      | .ok h1Hashes =>
        match applyActions env.writeErr 0 (stagingActions w h1Hashes generatedAt results) fs with
        | (.error e, fs) => (.error e, fs)
        | (.ok _, fs) =>
          match env.rmOutputErr with
          | some e => (.error s!"removing old output directory: {e}",
              removeAllPartial w.outputDir env.rmOutputSurvives fs)
          | none =>
            let fs := removeAllFS w.outputDir fs
            match env.renameErr with
            | some e => (.error s!"moving staging to output: {e}", fs)
            | none => (.ok (), renameFS w.stagingDir w.outputDir fs)

end mirror

theorem insertGo_perm (less : α → α → Bool) (x : α) :
    ∀ l : List α, List.Perm (insertGo less x l) (x :: l) := by
  intro l
  induction l with
  | nil => simp [insertGo]
  | cons y ys ih =>
    cases h : less y x with
    | true =>
      simp only [insertGo, h, if_true]
      exact (ih.cons y).trans (List.Perm.swap x y ys)
    | false =>
      simp only [insertGo, h]
      simp

theorem sortGo_perm (less : α → α → Bool) :
    ∀ l : List α, List.Perm (sortGo less l) l := by
  intro l
  induction l with
  | nil => simp [sortGo]
  | cons x xs ih =>
    exact (insertGo_perm less x (sortGo less xs)).trans (ih.cons x)

theorem mem_insertGo (less : α → α → Bool) (x : α) (l : List α) (z : α) :
    z ∈ insertGo less x l ↔ z = x ∨ z ∈ l := by
  constructor
  · intro h
    have := (insertGo_perm less x l).mem_iff.mp h
    simpa using this
  · intro h
    exact (insertGo_perm less x l).mem_iff.mpr (by simpa using h)

/-- Sortedness produced by `insertGo`: if `less` is asymmetric and
negatively transitive (a strict weak order, which every comparator used
by this program is on the lists it sorts), the output is pairwise ordered
by `fun a b => less b a = false`. -/
theorem insertGo_pairwise (less : α → α → Bool)
    (hasym : ∀ a b, less a b = true → less b a = false)
    (hneg : ∀ a b c, less a c = true → less a b = true ∨ less b c = true)
    (x : α) (l : List α)
    (hl : l.Pairwise (fun a b => less b a = false)) :
    (insertGo less x l).Pairwise (fun a b => less b a = false) := by
  induction l with
  | nil => simp [insertGo]
  | cons y ys ih =>
    rcases List.pairwise_cons.mp hl with ⟨hy, hys⟩
    cases h : less y x with
    | true =>
      simp only [insertGo, h, if_true]
      refine List.pairwise_cons.mpr ⟨?_, ih hys⟩
      intro z hz
      rcases (mem_insertGo less x ys z).mp hz with rfl | hz
      · exact hasym y z h
      · exact hy z hz
    | false =>
      simp only [insertGo, h]
      simp only [if_false, Bool.false_eq_true]
      refine List.pairwise_cons.mpr ⟨?_, hl⟩
      intro z hz
      rcases List.mem_cons.mp hz with rfl | hz
      · exact h
      · -- z ∈ ys; if less z x then less z y ∨ less y x, both impossible
        cases hzx : less z x with
        | false => rfl
        | true =>
          rcases hneg z y x hzx with hzy | hyx
          · have := hy z hz
            rw [this] at hzy
            exact absurd hzy Bool.false_ne_true
          · rw [h] at hyx
            exact absurd hyx Bool.false_ne_true

theorem sortGo_pairwise (less : α → α → Bool)
    (hasym : ∀ a b, less a b = true → less b a = false)
    (hneg : ∀ a b c, less a c = true → less a b = true ∨ less b c = true) :
    ∀ l : List α, (sortGo less l).Pairwise (fun a b => less b a = false) := by
  intro l
  induction l with
  | nil => simp [sortGo]
  | cons x xs ih => exact insertGo_pairwise less hasym hneg x _ ih

/-- Two lists that are permutations of each other, both pairwise sorted by
`le`, and on which `le` is antisymmetric, are equal.  (Variant of the
standard uniqueness-of-sorting lemma with antisymmetry only required on
the lists' members.) -/
theorem eq_of_perm_of_pairwise (le : α → α → Prop) :
    ∀ l₁ l₂ : List α, List.Perm l₁ l₂ → l₁.Pairwise le → l₂.Pairwise le →
      (∀ a ∈ l₁, ∀ b ∈ l₁, le a b → le b a → a = b) → l₁ = l₂ := by
  intro l₁
  induction l₁ with
  | nil => intro l₂ h _ _ _; simpa using h.nil_eq
  | cons a t₁ ih =>
    intro l₂ h h₁ h₂ hanti
    cases l₂ with
    | nil => exact absurd h.symm.nil_eq (by simp)
    | cons b t₂ =>
      have hab : a = b := by
        by_contra hne
        have hbmem : b ∈ a :: t₁ := h.symm.mem_iff.mp (by simp)
        have hamem : a ∈ b :: t₂ := h.mem_iff.mp (by simp)
        have hb₁ : b ∈ t₁ := by
          rcases List.mem_cons.mp hbmem with hba | hb
          · exact absurd hba.symm hne
          · assumption
        have ha₂ : a ∈ t₂ := by
          rcases List.mem_cons.mp hamem with hab | ha
          · exact absurd hab hne
          · assumption
        have hle₁ : le a b := (List.pairwise_cons.mp h₁).1 b hb₁
        have hle₂ : le b a := (List.pairwise_cons.mp h₂).1 a ha₂
        exact hne (hanti a (by simp) b (by simp [hb₁]) hle₁ hle₂)
      subst hab
      have ht : List.Perm t₁ t₂ := h.cons_inv
      have : t₁ = t₂ := by
        refine ih t₂ ht (List.pairwise_cons.mp h₁).2 (List.pairwise_cons.mp h₂).2 ?_
        intro x hx y hy
        exact hanti x (by simp [hx]) y (by simp [hy])
      rw [this]

/-- The sort model is canonical: permuting the input does not change the
output as long as tied elements are equal (no distinct elements compare
as unordered).  This is what makes the program's map-iteration order
harmless wherever a sort follows. -/
theorem sortGo_canonical (less : α → α → Bool)
    (hasym : ∀ a b, less a b = true → less b a = false)
    (hneg : ∀ a b c, less a c = true → less a b = true ∨ less b c = true)
    (l₁ l₂ : List α) (hperm : List.Perm l₁ l₂)
    (hanti : ∀ a ∈ l₁, ∀ b ∈ l₁, less a b = false → less b a = false → a = b) :
    sortGo less l₁ = sortGo less l₂ := by
  have p₁ := sortGo_perm less l₁
  have p₂ := sortGo_perm less l₂
  refine eq_of_perm_of_pairwise (fun a b => less b a = false) _ _
      (p₁.trans (hperm.trans p₂.symm))
      (sortGo_pairwise less hasym hneg l₁) (sortGo_pairwise less hasym hneg l₂) ?_
  intro a ha b hb hab hba
  exact hanti a (p₁.mem_iff.mp ha) b (p₁.mem_iff.mp hb) hba hab

/-! ## Comparator lemmas

Each comparator the program passes to a sort is (on the lists it sorts)
the strict order induced by a linear order on a derived key; these
lemmas supply the asymmetry, negative transitivity, totality and
antisymmetry facts the sorting lemmas consume. -/

theorem decideLt_asymm {κ : Type} [LinearOrder κ] (x y : κ)
    (h : decide (x < y) = true) : decide (y < x) = false := by
  rw [decide_eq_true_eq] at h
  rw [decide_eq_false_iff_not]
  exact lt_asymm h

theorem decideLt_negtrans {κ : Type} [LinearOrder κ] (x y z : κ)
    (h : decide (x < z) = true) : decide (x < y) = true ∨ decide (y < z) = true := by
  rw [decide_eq_true_eq] at h
  rcases lt_or_le x y with h' | h'
  · exact Or.inl (by rw [decide_eq_true_eq]; exact h')
  · exact Or.inr (by rw [decide_eq_true_eq]; exact lt_of_le_of_lt h' h)

theorem decideLt_total {κ : Type} [LinearOrder κ] (x y : κ) (hne : x ≠ y) :
    decide (x < y) = true ∨ decide (y < x) = true := by
  rcases lt_or_gt_of_ne hne with h | h
  · exact Or.inl (by rw [decide_eq_true_eq]; exact h)
  · exact Or.inr (by rw [decide_eq_true_eq]; exact h)

theorem decideLt_antisymm {κ : Type} [LinearOrder κ] (x y : κ)
    (h1 : decide (x < y) = false) (h2 : decide (y < x) = false) : x = y := by
  rw [decide_eq_false_iff_not] at h1 h2
  exact le_antisymm (not_lt.mp h2) (not_lt.mp h1)

theorem charsLt_iff : ∀ cs ds : List Char, charsLt cs ds = true ↔ cs < ds := by
  intro cs
  induction cs with
  | nil =>
    intro ds
    cases ds with
    | nil =>
      simp only [charsLt, Bool.false_eq_true, false_iff]
      intro h; cases h
    | cons d ds =>
      simp only [charsLt, true_iff]
      exact List.Lex.nil
  | cons c cs ih =>
    intro ds
    cases ds with
    | nil =>
      simp only [charsLt, Bool.false_eq_true, false_iff]
      intro h; cases h
    | cons d ds =>
      rw [charsLt]
      by_cases h1 : c < d
      · simp only [h1, if_true, true_iff]
        exact List.Lex.rel h1
      · rw [if_neg h1]
        by_cases h2 : d < c
        · simp only [h2, if_true, Bool.false_eq_true, false_iff]
          intro h
          cases h with
          | rel h' => exact absurd h' h1
          | cons h' => exact absurd h2 (lt_irrefl _)
        · rw [if_neg h2]
          have hcd : c = d := le_antisymm (le_of_not_lt h2) (le_of_not_lt h1)
          subst hcd
          rw [ih ds]
          constructor
          · intro h; exact List.Lex.cons h
          · intro h
            cases h with
            | rel h' => exact absurd h' h1
            | cons h' => exact h'

theorem strLess_iff (a b : String) : strLess a b = true ↔ a < b := by
  rw [String.lt_iff_toList_lt]
  exact charsLt_iff a.data b.data

theorem strLess_eq (a b : String) : strLess a b = decide (a < b) := by
  cases hc : strLess a b
  · have hn : ¬ a < b := fun h => by rw [(strLess_iff a b).mpr h] at hc; cases hc
    simp [hn]
  · have := (strLess_iff a b).mp hc
    simp [this]

theorem pkLess_eq (a b : resolver.providerKey) :
    resolver.pkLess a b =
      decide (toLex (a.hostname, toLex (a.ns, a.name)) <
        toLex (b.hostname, toLex (b.ns, b.name))) := by
  rw [resolver.pkLess]
  by_cases h1 : a.hostname = b.hostname <;> by_cases h2 : a.ns = b.ns <;>
    simp [h1, h2, Prod.Lex.lt_iff, lt_irrefl, strLess_eq]

theorem platLess_eq (a b : mirror.LockFilePlatform) :
    mirror.platLess a b = decide (toLex (a.OS, a.Arch) < toLex (b.OS, b.Arch)) := by
  rw [mirror.platLess]
  by_cases h1 : a.OS = b.OS <;> simp [h1, Prod.Lex.lt_iff, lt_irrefl, strLess_eq]

/-! ## Association-list (Go map) lemmas -/

theorem mapUpdate_keys {κ β : Type} [DecidableEq κ] (k : κ) (d : β) (f : β → β) :
    ∀ m : List (κ × β), (mapUpdate k d f m).map (·.1) =
      if k ∈ m.map (·.1) then m.map (·.1) else m.map (·.1) ++ [k] := by
  intro m
  induction m with
  | nil => simp [mapUpdate]
  | cons kv rest ih =>
    obtain ⟨k', v⟩ := kv
    by_cases h : k' = k
    · subst h
      simp [mapUpdate]
    · simp only [mapUpdate, if_neg h, List.map_cons, ih]
      by_cases hk : k ∈ rest.map (·.1)
      · simp [hk, h, Ne.symm h]
      · simp [hk, h, Ne.symm h]

theorem mapUpdate_noDupKeys {κ β : Type} [DecidableEq κ] (k : κ) (d : β) (f : β → β)
    (m : List (κ × β)) (h : (m.map (·.1)).Nodup) :
    ((mapUpdate k d f m).map (·.1)).Nodup := by
  rw [mapUpdate_keys]
  by_cases hk : k ∈ m.map (·.1)
  · simpa [hk] using h
  · simp only [hk, if_false]
    rw [List.nodup_append]
    refine ⟨h, List.nodup_singleton k, ?_⟩
    intro a ha hb
    rw [List.mem_singleton] at hb
    subst hb
    exact hk ha

theorem mapUpdate_forall {κ β : Type} [DecidableEq κ] (k : κ) (d : β) (f : β → β)
    (P : κ × β → Prop)
    (hd : P (k, f d)) (hf : ∀ v, P (k, v) → P (k, f v)) :
    ∀ m : List (κ × β), (∀ kv ∈ m, P kv) → ∀ kv ∈ mapUpdate k d f m, P kv := by
  intro m
  induction m with
  | nil =>
    intro _ kv hkv
    simp only [mapUpdate, List.mem_singleton] at hkv
    rw [hkv]; exact hd
  | cons kv' rest ih =>
    obtain ⟨k', v⟩ := kv'
    intro hm kv hkv
    by_cases h : k' = k
    · subst h
      simp only [mapUpdate, if_pos rfl] at hkv
      rcases List.mem_cons.mp hkv with heq | hkv'
      · rw [heq]; exact hf v (hm (k', v) (by simp))
      · exact hm kv (by simp [hkv'])
    · simp only [mapUpdate, if_neg h] at hkv
      rcases List.mem_cons.mp hkv with heq | hkv'
      · rw [heq]; exact hm (k', v) (by simp)
      · exact ih (fun x hx => hm x (by simp [hx])) kv hkv'

theorem lookup_mem {κ β : Type} [DecidableEq κ] (k : κ) (v : β) :
    ∀ m : List (κ × β), m.lookup k = some v → (k, v) ∈ m := by
  intro m
  induction m with
  | nil => intro h; simp [List.lookup] at h
  | cons kv rest ih =>
    obtain ⟨k', v'⟩ := kv
    intro h
    rw [List.lookup] at h
    by_cases hk : k = k'
    · subst hk
      simp only [beq_self_eq_true] at h
      cases h
      simp
    · have hbeq : (k == k') = false := by simpa using hk
      simp only [hbeq] at h
      exact List.mem_cons_of_mem _ (ih h)

theorem lookup_isSome_of_mem_keys {κ β : Type} [DecidableEq κ] (k : κ) :
    ∀ m : List (κ × β), k ∈ m.map (·.1) → (m.lookup k).isSome = true := by
  intro m
  induction m with
  | nil => intro h; simp at h
  | cons kv rest ih =>
    obtain ⟨k', v'⟩ := kv
    intro h
    rw [List.lookup]
    by_cases hk : k = k'
    · simp [hk]
    · have hbeq : (k == k') = false := by simpa using hk
      simp only [hbeq]
      rw [List.map_cons] at h
      rcases List.mem_cons.mp h with h' | h'
      · exact absurd h' hk
      · exact ih h'

theorem foldl_invariant {γ δ : Type} (P : γ → Prop) (step : γ → δ → γ)
    (hstep : ∀ acc x, P acc → P (step acc x)) :
    ∀ (l : List δ) (init : γ), P init → P (l.foldl step init) := by
  intro l
  induction l with
  | nil => intro init h; exact h
  | cons x rest ih =>
    intro init h
    exact ih (step init x) (hstep init x h)

theorem pairwise_to_strict (less : α → α → Bool) (l : List α)
    (hp : l.Pairwise (fun a b => less b a = false)) (hnd : l.Nodup)
    (htot : ∀ a b, a ≠ b → less a b = true ∨ less b a = true) :
    l.Pairwise (fun a b => less a b = true) := by
  induction l with
  | nil => exact List.Pairwise.nil
  | cons x rest ih =>
    rcases List.pairwise_cons.mp hp with ⟨hx, hrest⟩
    rcases List.nodup_cons.mp hnd with ⟨hxn, hndr⟩
    refine List.pairwise_cons.mpr ⟨?_, ih hrest hndr⟩
    intro y hy
    have hne : x ≠ y := fun h => hxn (h ▸ hy)
    rcases htot x y hne with h | h
    · exact h
    · rw [hx y hy] at h
      exact absurd h (by simp)

/-! ## Retry-loop lemmas (downloader) -/

theorem isTransient_elim (o : downloader.AttemptOutcome)
    (h : downloader.isTransient o = true) :
    ∃ e, downloader.downloadFile o = .error e ∧ (asRetryable e).isSome = true := by
  cases hdf : downloader.downloadFile o with
  | ok _ => rw [downloader.isTransient, hdf] at h; exact absurd h (by simp)
  | error e =>
    rw [downloader.isTransient, hdf] at h
    exact ⟨e, rfl, h⟩

theorem retryFrom_succ (outcomes : ℕ → downloader.AttemptOutcome)
    (retries attempt fuel : ℕ) (last : Option GoErr) :
    downloader.retryFrom outcomes retries attempt (fuel + 1) last =
      match downloader.downloadFile (outcomes attempt) with
      | .ok _ => (.ok (), attempt + 1)
      | .error err =>
        if (asRetryable err).isSome then
          downloader.retryFrom outcomes retries (attempt + 1) fuel
            (some (downloader.attemptErr attempt (retries + 1) err))
        else (.error (downloader.attemptErr attempt (retries + 1) err), attempt + 1) := rfl

theorem retryFrom_count_ge (outcomes : ℕ → downloader.AttemptOutcome) (retries : ℕ) :
    ∀ fuel attempt last,
      attempt ≤ (downloader.retryFrom outcomes retries attempt fuel last).2 := by
  intro fuel
  induction fuel with
  | zero => intro attempt last; simp [downloader.retryFrom]
  | succ f ih =>
    intro attempt last
    unfold downloader.retryFrom
    cases downloader.downloadFile (outcomes attempt) with
    | ok _ => simp
    | error err =>
      by_cases hr : (asRetryable err).isSome = true
      · simp only [hr, if_true]
        exact le_trans (by omega) (ih (attempt + 1) _)
      · simp only [hr, if_false]
        simp

theorem retryFrom_count_le (outcomes : ℕ → downloader.AttemptOutcome) (retries : ℕ) :
    ∀ fuel attempt last,
      (downloader.retryFrom outcomes retries attempt fuel last).2 ≤ attempt + fuel := by
  intro fuel
  induction fuel with
  | zero => intro attempt last; simp [downloader.retryFrom]
  | succ f ih =>
    intro attempt last
    unfold downloader.retryFrom
    cases downloader.downloadFile (outcomes attempt) with
    | ok _ => show attempt + 1 ≤ attempt + (f + 1); omega
    | error err =>
      by_cases hr : (asRetryable err).isSome = true
      · simp only [hr, if_true]
        have := ih (attempt + 1) (some (downloader.attemptErr attempt (retries + 1) err))
        omega
      · simp only [hr, if_false]
        show attempt + 1 ≤ attempt + (f + 1); omega

theorem retryFrom_stop (outcomes : ℕ → downloader.AttemptOutcome) (retries : ℕ)
    (e : GoErr) :
    ∀ k fuel attempt last, k < fuel →
      (∀ i, i < k → downloader.isTransient (outcomes (attempt + i)) = true) →
      downloader.downloadFile (outcomes (attempt + k)) = .error e →
      asRetryable e = none →
      downloader.retryFrom outcomes retries attempt fuel last =
        (.error (downloader.attemptErr (attempt + k) (retries + 1) e), attempt + k + 1) := by
  intro k
  induction k with
  | zero =>
    intro fuel attempt last hk htr hdf hnr
    cases fuel with
    | zero => omega
    | succ f =>
      unfold downloader.retryFrom
      rw [show attempt + 0 = attempt from rfl] at hdf
      rw [hdf]
      simp [hnr]
  | succ k ih =>
    intro fuel attempt last hk htr hdf hnr
    cases fuel with
    | zero => omega
    | succ f =>
      have h0 : downloader.isTransient (outcomes attempt) = true := by
        simpa using htr 0 (by omega)
      obtain ⟨e₀, he₀, hr₀⟩ := isTransient_elim _ h0
      unfold downloader.retryFrom
      rw [he₀]
      simp only [hr₀, if_true]
      have htr' : ∀ i, i < k → downloader.isTransient (outcomes (attempt + 1 + i)) = true := by
        intro i hi
        have := htr (i + 1) (by omega)
        rw [show attempt + (i + 1) = attempt + 1 + i by omega] at this
        exact this
      have hdf' : downloader.downloadFile (outcomes (attempt + 1 + k)) = .error e := by
        rw [show attempt + 1 + k = attempt + (k + 1) by omega]
        exact hdf
      rw [ih f (attempt + 1) _ (by omega) htr' hdf' hnr]
      have h1 : attempt + 1 + k = attempt + (k + 1) := by omega
      rw [h1]

theorem retryFrom_exhaust (outcomes : ℕ → downloader.AttemptOutcome) (retries : ℕ) :
    ∀ fuel attempt last, 1 ≤ fuel →
      (∀ i, i < fuel → downloader.isTransient (outcomes (attempt + i)) = true) →
      ∃ e, downloader.downloadFile (outcomes (attempt + (fuel - 1))) = .error e ∧
        (asRetryable e).isSome = true ∧
        downloader.retryFrom outcomes retries attempt fuel last =
          (.error (downloader.attemptErr (attempt + (fuel - 1)) (retries + 1) e),
            attempt + fuel) := by
  intro fuel
  induction fuel with
  | zero => intro attempt last h; omega
  | succ f ih =>
    intro attempt last _ htr
    have h0 : downloader.isTransient (outcomes attempt) = true := by
      simpa using htr 0 (by omega)
    obtain ⟨e₀, he₀, hr₀⟩ := isTransient_elim _ h0
    cases f with
    | zero =>
      refine ⟨e₀, by simpa using he₀, hr₀, ?_⟩
      unfold downloader.retryFrom
      rw [he₀]
      simp only [hr₀, if_true]
      unfold downloader.retryFrom
      simp
    | succ f' =>
      have htr' : ∀ i, i < f' + 1 → downloader.isTransient (outcomes (attempt + 1 + i)) = true := by
        intro i hi
        have := htr (i + 1) (by omega)
        rw [show attempt + (i + 1) = attempt + 1 + i by omega] at this
        exact this
      obtain ⟨e, hdf, hr, heq⟩ := ih (attempt + 1)
        (some (downloader.attemptErr attempt (retries + 1) e₀)) (by omega) htr'
      refine ⟨e, ?_, hr, ?_⟩
      · rw [show attempt + (f' + 1 + 1 - 1) = attempt + 1 + (f' + 1 - 1) by omega]
        exact hdf
      · unfold downloader.retryFrom
        rw [he₀]
        simp only [hr₀, if_true]
        rw [heq]
        have h1 : attempt + 1 + (f' + 1 - 1) = attempt + (f' + 1 + 1 - 1) := by omega
        have h2 : attempt + 1 + (f' + 1) = attempt + (f' + 1 + 1) := by omega
        rw [h1, h2]

theorem retryFrom_skip (outcomes : ℕ → downloader.AttemptOutcome) (retries : ℕ) :
    ∀ k fuel attempt last, k ≤ fuel →
      (∀ i, i < k → downloader.isTransient (outcomes (attempt + i)) = true) →
      ∃ last', downloader.retryFrom outcomes retries attempt fuel last =
        downloader.retryFrom outcomes retries (attempt + k) (fuel - k) last' := by
  intro k
  induction k with
  | zero =>
    intro fuel attempt last _ _
    exact ⟨last, rfl⟩
  | succ k ih =>
    intro fuel attempt last hk htr
    cases fuel with
    | zero => omega
    | succ f =>
      have h0 : downloader.isTransient (outcomes attempt) = true := by
        simpa using htr 0 (by omega)
      obtain ⟨e₀, he₀, hr₀⟩ := isTransient_elim _ h0
      have htr' : ∀ i, i < k → downloader.isTransient (outcomes (attempt + 1 + i)) = true := by
        intro i hi
        have := htr (i + 1) (by omega)
        rw [show attempt + (i + 1) = attempt + 1 + i by omega] at this
        exact this
      obtain ⟨last', heq⟩ := ih f (attempt + 1)
        (some (downloader.attemptErr attempt (retries + 1) e₀)) (by omega) htr'
      refine ⟨last', ?_⟩
      rw [retryFrom_succ, he₀]
      simp only [hr₀, if_true]
      have h1 : attempt + 1 + k = attempt + (k + 1) := by omega
      have h2 : f - k = f + 1 - (k + 1) := by omega
      rw [h1, h2] at heq
      exact heq

/-! ## C5 — Backoff -/

/-- C5, counterexample: at attempt 1 with `MaxBackoff = 60 s`, no
`Retry-After` hint and random draw `u = 0`, the code returns 2.5 s, but
the claim's `base + jitter` with `base = min(2^1, 60) = 2 s` and
`jitter ∈ base × (−0.125, +0.125)` can never equal 2.5 s: the code's
jitter factor reaches 1/4 of the base, not 1/8. -/
theorem C5_counterexample :
    httpclient.Backoff 1 60 none 0 = 5/2 ∧
    ∀ j : ℚ, -(1/8) < j → j < 1/8 →
      httpclient.Backoff 1 60 none 0 ≠
        min ((2:ℚ)^1) 60 + min ((2:ℚ)^1) 60 * j := by
  have hval : httpclient.Backoff 1 60 none 0 = 5/2 := by
    norm_num [httpclient.Backoff, Option.bind]
  refine ⟨hval, ?_⟩
  intro j h1 h2 h
  rw [hval] at h
  have hmin : min ((2:ℚ)^1) 60 = 2 := by norm_num
  rw [hmin] at h
  linarith

/-- C5 (amended): with a positive `Retry-After` hint the backoff is
`min(hint, MaxBackoff)`; otherwise it is `min(base + jitter, MaxBackoff)`
where `base = 2^attempt` seconds and `jitter = base × (0.5 − u) × 0.5`
for the uniform draw `u ∈ [0,1)` — so the jitter factor ranges over
`(−0.25, +0.25]` (not `(−0.125, +0.125)`), every factor in that range is
attained, and the clamp applies to `base + jitter`, not to `base`. -/
theorem C5_backoff (attempt : ℕ) (maxBackoff : ℚ) (lastErr : Option GoErr) (u : ℚ)
    (hu0 : 0 ≤ u) (hu1 : u < 1) :
    (∀ ra, lastErr.bind asRetryable = some ra → 0 < ra →
      httpclient.Backoff attempt maxBackoff lastErr u = min ra maxBackoff) ∧
    ((lastErr.bind asRetryable = none ∨
        ∃ ra, lastErr.bind asRetryable = some ra ∧ ra ≤ 0) →
      ∃ j : ℚ, -(1/4) < j ∧ j ≤ 1/4 ∧
        httpclient.Backoff attempt maxBackoff lastErr u =
          min ((2:ℚ)^attempt * (1 + j)) maxBackoff) ∧
    (∀ j : ℚ, -(1/4) < j → j ≤ 1/4 → ∃ v : ℚ, 0 ≤ v ∧ v < 1 ∧ (1/2 - v) * (1/2) = j) := by
  have hexp :
      (if maxBackoff < (2:ℚ)^attempt + (2:ℚ)^attempt * (1/2 - u) * (1/2) then maxBackoff
       else (2:ℚ)^attempt + (2:ℚ)^attempt * (1/2 - u) * (1/2)) =
      min ((2:ℚ)^attempt * (1 + (1/2 - u) * (1/2))) maxBackoff := by
    have harith : (2:ℚ)^attempt + (2:ℚ)^attempt * (1/2 - u) * (1/2) =
        (2:ℚ)^attempt * (1 + (1/2 - u) * (1/2)) := by ring
    rw [harith]
    rcases le_or_lt ((2:ℚ)^attempt * (1 + (1/2 - u) * (1/2))) maxBackoff with h | h
    · rw [if_neg (not_lt.mpr h), min_eq_left h]
    · rw [if_pos h, min_eq_right h.le]
  refine ⟨?_, ?_, ?_⟩
  · intro ra hra hpos
    simp only [httpclient.Backoff, hra]
    rw [if_pos hpos]
    rcases le_or_lt ra maxBackoff with h | h
    · rw [if_pos h, min_eq_left h]
    · rw [if_neg (not_le.mpr h), min_eq_right h.le]
  · intro hcase
    refine ⟨(1/2 - u) * (1/2), by linarith, by linarith, ?_⟩
    rcases hcase with hnone | ⟨ra, hra, hle⟩
    · simp only [httpclient.Backoff, hnone]
      exact hexp
    · simp only [httpclient.Backoff, hra]
      rw [if_neg (not_lt.mpr hle)]
      exact hexp
  · intro j h1 h2
    exact ⟨1/2 - 2*j, by linarith, by linarith, by ring⟩

/-- C5 witness: a 429 with a 7-second `Retry-After` hint at attempt 2
under a 60-second cap sleeps exactly `min(7, 60)` seconds. -/
theorem C5_backoff_witness :
    httpclient.Backoff 2 60 (some (GoErr.retryable (.msg "HTTP 429") 7)) (1/3) =
      min (7:ℚ) 60 :=
  (C5_backoff 2 60 (some (GoErr.retryable (.msg "HTTP 429") 7)) (1/3)
    (by norm_num) (by norm_num)).1 7 rfl (by norm_num)

/-! ## C7 — credential loading -/

/-- C7: evaluation of `loadCredentials` at the failing environment.  With
`TF_TOKEN_example_com` listed before `PM_TOKEN_example_com` in
`os.Environ()`, the hostname maps to the TF token: the implementation
keeps the first entry in environment order (its per-entry prefix loop
cannot prefer PM over TF), contradicting its own doc comment and
`TestLoadCredentials_PMTokenTakesPrecedence`.  With the PM entry first it
returns the PM token, exhibiting the order dependence.  The hostname
decoding itself behaves as claimed. -/
theorem C7_pm_token_not_preferred :
    (httpclient.loadCredentials
        ["TF_TOKEN_example_com=tf-token", "PM_TOKEN_example_com=pm-token"]).lookup
      "example.com" = some "tf-token" ∧
    (httpclient.loadCredentials
        ["PM_TOKEN_example_com=pm-token", "TF_TOKEN_example_com=tf-token"]).lookup
      "example.com" = some "pm-token" ∧
    httpclient.decodeHostname "my__custom_registry_io" = "my_custom.registry.io" := by
  exact ⟨rfl, rfl, rfl⟩

/-! ## C4 — retry policy -/

/-- C4: `downloadWithRetry` performs at most `1 + Retries` attempts of
`downloadFile`; after a run of transient failures, a non-retryable error
at attempt `k` ends the loop at once with that error (wrapped in its
attempt context) and exactly `k + 1` attempts; when every attempt in the
budget fails transiently the task fails with the last transient error
after exactly `1 + Retries` attempts; a transient failure with budget
remaining is followed by a further attempt; and an error is transient
exactly when it is a network I/O failure or an HTTP 429/500/502/503/504
response — checksum mismatches, other statuses, and all other errors are
not retried. -/
theorem C4_retry_policy (retries : ℕ) (outcomes : ℕ → downloader.AttemptOutcome) :
    ((downloader.downloadWithRetry retries outcomes).2 ≤ retries + 1) ∧
    (∀ k e, k ≤ retries →
      (∀ i, i < k → downloader.isTransient (outcomes i) = true) →
      downloader.downloadFile (outcomes k) = .error e → asRetryable e = none →
      downloader.downloadWithRetry retries outcomes =
        (.error (downloader.attemptErr k (retries + 1) e), k + 1)) ∧
    ((∀ i, i ≤ retries → downloader.isTransient (outcomes i) = true) →
      ∃ e, downloader.downloadFile (outcomes retries) = .error e ∧
        (asRetryable e).isSome = true ∧
        downloader.downloadWithRetry retries outcomes =
          (.error (downloader.attemptErr retries (retries + 1) e), retries + 1)) ∧
    (∀ k, k < retries →
      (∀ i, i ≤ k → downloader.isTransient (outcomes i) = true) →
      k + 2 ≤ (downloader.downloadWithRetry retries outcomes).2) ∧
    (∀ o, downloader.isTransient o = true ↔
      ((∃ s, o = .netErr s) ∨
        ∃ c h, o = .httpStatus c h ∧
          (c = 429 ∨ c = 500 ∨ c = 502 ∨ c = 503 ∨ c = 504))) := by
  refine ⟨?_, ?_, ?_, ?_, ?_⟩
  · have := retryFrom_count_le outcomes retries (retries + 1) 0 none
    simpa [downloader.downloadWithRetry] using this
  · intro k e hk htr hdf hnr
    have := retryFrom_stop outcomes retries e k (retries + 1) 0 none (by omega)
      (by intro i hi; simpa using htr i hi) (by simpa using hdf) hnr
    simpa [downloader.downloadWithRetry] using this
  · intro htr
    obtain ⟨e, hdf, hr, heq⟩ := retryFrom_exhaust outcomes retries (retries + 1) 0 none
      (by omega) (by intro i hi; simpa using htr i (by omega))
    refine ⟨e, by simpa using hdf, hr, ?_⟩
    simpa [downloader.downloadWithRetry] using heq
  · intro k hk htr
    obtain ⟨last', heq⟩ := retryFrom_skip outcomes retries (k + 1) (retries + 1) 0 none
      (by omega) (by intro i hi; simpa using htr i (by omega))
    rw [downloader.downloadWithRetry, heq]
    have h1 : 1 ≤ retries + 1 - (k + 1) := by omega
    rcases Nat.exists_eq_add_of_le h1 with ⟨f, hf⟩
    rw [show retries + 1 - (k + 1) = 1 + f from hf, show 1 + f = f + 1 by omega]
    have := retryFrom_count_ge outcomes retries f (0 + (k + 1) + 1)
    have hub := retryFrom_succ outcomes retries (0 + (k + 1)) f last'
    rw [hub]
    cases hdf : downloader.downloadFile (outcomes (0 + (k + 1))) with
    | ok _ => simp
    | error err =>
      by_cases hr : (asRetryable err).isSome = true
      · simp only [hr, if_true]
        have hge := retryFrom_count_ge outcomes retries f (0 + (k + 1) + 1)
          (some (downloader.attemptErr (0 + (k + 1)) (retries + 1) err))
        omega
      · simp only [hr, if_false]
        simp
  · intro o
    cases o with
    | httpStatus c h =>
      by_cases hc : c = 429 ∨ c = 500 ∨ c = 502 ∨ c = 503 ∨ c = 504
      · have hb : httpclient.isRetryableStatus c = true := by
          simp only [httpclient.isRetryableStatus, Bool.or_eq_true, decide_eq_true_eq]
          tauto
        simp [downloader.isTransient, downloader.downloadFile,
          httpclient.NewHTTPError, hb, asRetryable]
        tauto
      · have hb : httpclient.isRetryableStatus c = false := by
          simp only [httpclient.isRetryableStatus, Bool.or_eq_false_iff,
            decide_eq_false_iff_not]
          omega
        simp [downloader.isTransient, downloader.downloadFile,
          httpclient.NewHTTPError, hb, asRetryable]
        omega
    | _ =>
      simp [downloader.isTransient, downloader.downloadFile,
        httpclient.NewHTTPError, httpclient.isRetryableStatus, asRetryable]

/-- C4 witness: a transient 503 followed by a checksum mismatch stops the
loop at the second attempt with the (non-retryable) mismatch error. -/
theorem C4_retry_policy_witness :
    downloader.downloadWithRetry 3
        (fun i => if i = 0 then .httpStatus 503 ""
                  else .checksumMismatch "deadbeef" "baadf00d") =
      (.error (downloader.attemptErr 1 4
        (.msg "checksum mismatch: expected deadbeef, got baadf00d")), 2) := by
  have h := (C4_retry_policy 3
    (fun i => if i = 0 then .httpStatus 503 ""
              else .checksumMismatch "deadbeef" "baadf00d")).2.1
  exact h 1 (.msg "checksum mismatch: expected deadbeef, got baadf00d")
    (by omega)
    (by intro i hi
        have : i = 0 := by omega
        subst this
        rfl)
    rfl rfl

/-! ## C2 — lock-file ordering -/

theorem pkLess_asymm (a b : resolver.providerKey)
    (h : resolver.pkLess a b = true) : resolver.pkLess b a = false := by
  rw [pkLess_eq] at h ⊢
  exact decideLt_asymm _ _ h

theorem pkLess_negtrans (a b c : resolver.providerKey)
    (h : resolver.pkLess a c = true) :
    resolver.pkLess a b = true ∨ resolver.pkLess b c = true := by
  rw [pkLess_eq] at h ⊢
  rw [pkLess_eq (a := b)]
  exact decideLt_negtrans _ _ _ h

theorem pkLess_total (a b : resolver.providerKey) (hne : a ≠ b) :
    resolver.pkLess a b = true ∨ resolver.pkLess b a = true := by
  rw [pkLess_eq, pkLess_eq]
  apply decideLt_total
  intro h
  apply hne
  have h' : (a.hostname, toLex (a.ns, a.name)) = (b.hostname, toLex (b.ns, b.name)) :=
    toLex.injective h
  have h1 : a.hostname = b.hostname := congrArg Prod.fst h'
  have h2 : (a.ns, a.name) = (b.ns, b.name) := toLex.injective (congrArg Prod.snd h')
  have h3 : a.ns = b.ns := congrArg Prod.fst h2
  have h4 : a.name = b.name := congrArg Prod.snd h2
  cases a; cases b
  simp only at h1 h3 h4
  simp [h1, h3, h4]

theorem platLess_asymm (a b : mirror.LockFilePlatform)
    (h : mirror.platLess a b = true) : mirror.platLess b a = false := by
  rw [platLess_eq] at h ⊢
  exact decideLt_asymm _ _ h

theorem platLess_negtrans (a b c : mirror.LockFilePlatform)
    (h : mirror.platLess a c = true) :
    mirror.platLess a b = true ∨ mirror.platLess b c = true := by
  rw [platLess_eq] at h ⊢
  rw [platLess_eq (a := b)]
  exact decideLt_negtrans _ _ _ h

theorem strLess_asymm (a b : String) (h : strLess a b = true) : strLess b a = false := by
  rw [strLess_eq]
  rw [strLess_iff] at h
  simp [lt_asymm h]

theorem strLess_negtrans (a b c : String) (h : strLess a c = true) :
    strLess a b = true ∨ strLess b c = true := by
  rw [strLess_iff] at h ⊢
  rw [strLess_iff]
  rcases lt_or_le a b with h' | h'
  · exact Or.inl h'
  · exact Or.inr (lt_of_le_of_lt h' h)

theorem strLess_total (a b : String) (hne : a ≠ b) :
    strLess a b = true ∨ strLess b a = true := by
  rw [strLess_iff, strLess_iff]
  exact lt_or_gt_of_ne hne

theorem strLess_lt (a b : String) (h : strLess a b = true) : a < b :=
  (strLess_iff a b).mp h

/-- The structural invariants of the lock-file grouping maps: the
provider-key list has no duplicates, each per-provider version map has
no duplicate version keys, and every stored `LockFileVersion` carries its
own key as its `Version` field. -/
theorem lockMaps_invariants (h1Hashes : String → String)
    (results : List downloader.DownloadResult) :
    (mirror.lockMaps h1Hashes results).1.Nodup ∧
    (∀ kv ∈ (mirror.lockMaps h1Hashes results).2, (kv.2.map (·.1)).Nodup) ∧
    (∀ kv ∈ (mirror.lockMaps h1Hashes results).2, ∀ e ∈ kv.2, e.2.Version = e.1) := by
  rw [mirror.lockMaps]
  apply foldl_invariant
    (P := fun acc : List resolver.providerKey ×
        List (resolver.providerKey × List (String × mirror.LockFileVersion)) =>
      acc.1.Nodup ∧ (∀ kv ∈ acc.2, (kv.2.map (·.1)).Nodup) ∧
        (∀ kv ∈ acc.2, ∀ e ∈ kv.2, e.2.Version = e.1))
  · intro acc r hP
    obtain ⟨h1, h2, h3⟩ := hP
    rw [mirror.lockAccum]
    dsimp only
    refine ⟨?_, ?_, ?_⟩
    · by_cases hmem : (⟨r.Task.Provider.Source.Hostname, r.Task.Provider.Source.Namespace,
          r.Task.Provider.Source.Name⟩ : resolver.providerKey) ∈ acc.1
      · simpa [hmem] using h1
      · simp only [hmem, if_false]
        rw [List.nodup_append]
        refine ⟨h1, List.nodup_singleton _, ?_⟩
        intro a ha hb
        rw [List.mem_singleton] at hb
        subst hb
        exact hmem ha
    · refine mapUpdate_forall _ _ _ (fun kv => (kv.2.map (·.1)).Nodup) ?_ ?_ acc.2 h2
      · simp [mapUpdate]
      · intro v hv
        exact mapUpdate_noDupKeys _ _ _ _ hv
    · refine mapUpdate_forall _ _ _ (fun kv => ∀ e ∈ kv.2, e.2.Version = e.1) ?_ ?_ acc.2 h3
      · intro e he
        simp only [mapUpdate, List.mem_singleton] at he
        rw [he]
      · intro v hv
        refine mapUpdate_forall _ _ _ (fun e => e.2.Version = e.1) ?_ ?_ v hv
        · rfl
        · intro x hx
          exact hx
  · exact ⟨List.nodup_nil, by simp, by simp⟩

theorem lockVersionOf_version (verMap : List (String × mirror.LockFileVersion))
    (v : String) (hmem : v ∈ verMap.map (·.1))
    (hinv : ∀ e ∈ verMap, e.2.Version = e.1) :
    (mirror.lockVersionOf verMap v).Version = v := by
  rw [mirror.lockVersionOf]
  have hsome := lookup_isSome_of_mem_keys v _ hmem
  cases hlk : verMap.lookup v with
  | none => rw [hlk] at hsome; simp at hsome
  | some lv =>
    dsimp only
    simp only [Option.getD_some]
    exact hinv (v, lv) (lookup_mem v lv _ hlk)

/-- C2 (amended): in the `mirror.lock` value emitted by `writeLockFile`,
providers are ordered strictly ascending by `(hostname, namespace,
name)` and platforms within each version are ordered ascending by
`(os, arch)` — but the versions array within each provider is sorted by
`sort.Strings`, i.e. ascending lexicographically by the version string,
not descending by semver. -/
theorem C2_lockfile_ordering (h1Hashes : String → String) (generatedAt : String)
    (results : List downloader.DownloadResult) :
    ((mirror.writeLockFile h1Hashes generatedAt results).Providers.Pairwise
      (fun p q => resolver.pkLess ⟨p.Hostname, p.Namespace, p.Name⟩
        ⟨q.Hostname, q.Namespace, q.Name⟩ = true)) ∧
    (∀ p ∈ (mirror.writeLockFile h1Hashes generatedAt results).Providers,
      (p.Versions.map (fun v => v.Version)).Pairwise (fun a b => a < b) ∧
      ∀ v ∈ p.Versions,
        v.Platforms.Pairwise (fun x y => mirror.platLess y x = false)) := by
  obtain ⟨hnd1, hnd2, hver⟩ := lockMaps_invariants h1Hashes results
  have hProv : (mirror.writeLockFile h1Hashes generatedAt results).Providers =
      (sortGo resolver.pkLess (mirror.lockMaps h1Hashes results).1).map
        (mirror.lockProviderOf (mirror.lockMaps h1Hashes results).2) := rfl
  constructor
  · rw [hProv, List.pairwise_map]
    have hstrict : (sortGo resolver.pkLess (mirror.lockMaps h1Hashes results).1).Pairwise
        (fun a b => resolver.pkLess a b = true) := by
      apply pairwise_to_strict
      · exact sortGo_pairwise _ pkLess_asymm pkLess_negtrans _
      · exact (sortGo_perm resolver.pkLess _).nodup_iff.mpr hnd1
      · exact fun a b => pkLess_total a b
    exact hstrict.imp (fun h => h)
  · intro p hp
    rw [hProv] at hp
    obtain ⟨pk, _, rfl⟩ := List.mem_map.mp hp
    have hvm : ((((mirror.lockMaps h1Hashes results).2.lookup pk).getD []).map
          (fun x => x.1)).Nodup ∧
        ∀ e ∈ ((mirror.lockMaps h1Hashes results).2.lookup pk).getD [],
          e.2.Version = e.1 := by
      cases hlk : (mirror.lockMaps h1Hashes results).2.lookup pk with
      | none => simp [hlk]
      | some vm =>
        have hmem := lookup_mem pk vm _ hlk
        simp only [Option.getD_some]
        exact ⟨hnd2 (pk, vm) hmem, hver (pk, vm) hmem⟩
    obtain ⟨hndk, hvk⟩ := hvm
    have hVers : (mirror.lockProviderOf (mirror.lockMaps h1Hashes results).2 pk).Versions =
        (sortGo strLess
            ((((mirror.lockMaps h1Hashes results).2.lookup pk).getD []).map (·.1))).map
          (mirror.lockVersionOf
            (((mirror.lockMaps h1Hashes results).2.lookup pk).getD [])) := rfl
    constructor
    · rw [hVers, List.map_map, List.pairwise_map]
      have hstrict := pairwise_to_strict strLess _
        (sortGo_pairwise _ strLess_asymm strLess_negtrans _)
        ((sortGo_perm strLess _).nodup_iff.mpr hndk)
        (fun a b => strLess_total a b)
      refine List.Pairwise.imp_of_mem ?_ hstrict
      intro a b ha hb hab
      have ha' : a ∈ (((mirror.lockMaps h1Hashes results).2.lookup pk).getD []).map (·.1) :=
        (sortGo_perm strLess _).mem_iff.mp ha
      have hb' : b ∈ (((mirror.lockMaps h1Hashes results).2.lookup pk).getD []).map (·.1) :=
        (sortGo_perm strLess _).mem_iff.mp hb
      show (mirror.lockVersionOf _ a).Version < (mirror.lockVersionOf _ b).Version
      rw [lockVersionOf_version _ a ha' hvk, lockVersionOf_version _ b hb' hvk]
      exact strLess_lt a b hab
    · intro v hv
      rw [hVers] at hv
      obtain ⟨vk, _, rfl⟩ := List.mem_map.mp hv
      have hplat : (mirror.lockVersionOf
            (((mirror.lockMaps h1Hashes results).2.lookup pk).getD []) vk).Platforms =
          sortGo mirror.platLess
            (((((mirror.lockMaps h1Hashes results).2.lookup pk).getD []).lookup vk).getD
              { Version := vk, ManifestSources := [], Platforms := [] }).Platforms := rfl
      rw [hplat]
      exact sortGo_pairwise _ platLess_asymm platLess_negtrans _

/-- C2, counterexample: with two results for versions `1.0.0` and `2.0.0`
of one provider, the emitted versions array is `["1.0.0", "2.0.0"]` —
ascending by string — although `2.0.0` is semver-greater than `1.0.0`,
so the claimed semver-descending order does not hold. -/
theorem C2_counterexample :
    ((mirror.writeLockFile (fun _ => "h1:hash") "2024-01-01T00:00:00Z"
        [{ Task := { Provider := { Source := { Hostname := "registry.terraform.io",
                                               Namespace := "hashicorp", Name := "null" }
                                   Versions := [] }
                     Version := { Version := "1.0.0", Platforms := ["linux_amd64"]
                                  ManifestSources := ["hashicorp/null"] }
                     Platform := "linux_amd64", OS := "linux", Arch := "amd64" }
           CachePath := "c1", DownloadURL := "u1", Filename := "f1"
           SHA256Sum := "s1", Error := none, FromCache := false },
         { Task := { Provider := { Source := { Hostname := "registry.terraform.io",
                                               Namespace := "hashicorp", Name := "null" }
                                   Versions := [] }
                     Version := { Version := "2.0.0", Platforms := ["linux_amd64"]
                                  ManifestSources := ["hashicorp/null"] }
                     Platform := "linux_amd64", OS := "linux", Arch := "amd64" }
           CachePath := "c2", DownloadURL := "u2", Filename := "f2"
           SHA256Sum := "s2", Error := none, FromCache := false }]).Providers.map
      (fun p => p.Versions.map (fun v => v.Version))) = [["1.0.0", "2.0.0"]] ∧
    parseNumericVersion "1.0.0" = some (1, 0, 0) ∧
    parseNumericVersion "2.0.0" = some (2, 0, 0) ∧
    numLt (1, 0, 0) (2, 0, 0) = true := by
  refine ⟨?_, rfl, rfl, rfl⟩
  decide

/-- C2 witness: the provider and platform orderings instantiated at a
concrete two-provider result list. -/
theorem C2_lockfile_ordering_witness :
    ((mirror.writeLockFile (fun _ => "h1:hash") "2024-01-01T00:00:00Z"
        [{ Task := { Provider := { Source := { Hostname := "registry.terraform.io",
                                               Namespace := "hashicorp", Name := "null" }
                                   Versions := [] }
                     Version := { Version := "3.2.4", Platforms := ["linux_amd64"]
                                  ManifestSources := ["hashicorp/null"] }
                     Platform := "linux_amd64", OS := "linux", Arch := "amd64" }
           CachePath := "c1", DownloadURL := "u1", Filename := "f1"
           SHA256Sum := "s1", Error := none, FromCache := false },
         { Task := { Provider := { Source := { Hostname := "registry.opentofu.org",
                                               Namespace := "hashicorp", Name := "null" }
                                   Versions := [] }
                     Version := { Version := "3.2.4", Platforms := ["linux_amd64"]
                                  ManifestSources := ["hashicorp/null"] }
                     Platform := "linux_amd64", OS := "linux", Arch := "amd64" }
           CachePath := "c2", DownloadURL := "u2", Filename := "f2"
           SHA256Sum := "s2", Error := none, FromCache := false }]).Providers.Pairwise
      (fun p q => resolver.pkLess ⟨p.Hostname, p.Namespace, p.Name⟩
        ⟨q.Hostname, q.Namespace, q.Name⟩ = true)) :=
  (C2_lockfile_ordering (fun _ => "h1:hash") "2024-01-01T00:00:00Z" _).1

/-! ## C8 — manifest expansion -/

theorem expandProvider_spec (p : manifest.Provider)
    (l : List manifest.ExpandedProvider) (h : manifest.expandProvider p = .ok l) :
    ∃ parsed, manifest.ParseProviderSource p.Source = .ok parsed ∧
      (parsed.Hostname ≠ "" →
        l = [{ Source := parsed, Versions := p.Versions, Platforms := p.Platforms,
               Engine := "", SourceSpec := p.Source }]) ∧
      (parsed.Hostname = "" →
        l = p.Engines.map fun engine =>
          { Source := { parsed with Hostname := engine.DefaultRegistry }
            Versions := p.Versions, Platforms := p.Platforms
            Engine := engine, SourceSpec := p.Source }) := by
  rw [manifest.expandProvider] at h
  cases hp : manifest.ParseProviderSource p.Source with
  | error e => rw [hp] at h; exact absurd h (by simp)
  | ok parsed =>
    rw [hp] at h
    dsimp only at h
    refine ⟨parsed, rfl, ?_, ?_⟩
    · intro hne
      rw [if_pos hne] at h
      exact ((Except.ok.injEq _ _).mp h).symm
    · intro heq
      rw [if_neg (by simp [heq])] at h
      exact ((Except.ok.injEq _ _).mp h).symm

theorem expandProvider_length (p : manifest.Provider)
    (l : List manifest.ExpandedProvider) (h : manifest.expandProvider p = .ok l) :
    l.length = manifest.expectedCount p := by
  obtain ⟨parsed, hp, hyes, hno⟩ := expandProvider_spec p l h
  rw [manifest.expectedCount, manifest.hasExplicitHostname, hp]
  by_cases hne : parsed.Hostname = ""
  · rw [hno hne]
    simp [hne]
  · rw [hyes hne]
    simp [hne]

/-- C8: whenever `GetExpandedProviders` succeeds, its output is the
concatenation of one block per manifest entry, where an entry whose
source carries an explicit hostname yields exactly one
`ExpandedProvider` with that hostname and the engine unset (`""`), and
any other entry yields exactly one `ExpandedProvider` per engine in its
resolved engine list, with that engine's default registry as hostname;
`SourceSpec` is the verbatim manifest source string in every emitted
expansion, and the total count is the sum over entries of
(1 if explicit hostname, else the number of engines). -/
theorem C8_expansion (m : manifest.Manifest) (l : List manifest.ExpandedProvider)
    (h : manifest.GetExpandedProviders m = .ok l) :
    (∃ blocks : List (List manifest.ExpandedProvider),
      l = blocks.flatten ∧
      List.Forall₂
        (fun (p : manifest.Provider) (block : List manifest.ExpandedProvider) =>
          ∃ parsed, manifest.ParseProviderSource p.Source = .ok parsed ∧
            (parsed.Hostname ≠ "" →
              block = [{ Source := parsed, Versions := p.Versions,
                         Platforms := p.Platforms, Engine := "",
                         SourceSpec := p.Source }]) ∧
            (parsed.Hostname = "" →
              block = p.Engines.map fun engine =>
                { Source := { parsed with Hostname := engine.DefaultRegistry }
                  Versions := p.Versions, Platforms := p.Platforms
                  Engine := engine, SourceSpec := p.Source }))
        m.Providers blocks) ∧
    (∀ e ∈ l, ∃ p ∈ m.Providers, e.SourceSpec = p.Source) ∧
    l.length = (m.Providers.map manifest.expectedCount).sum := by
  rw [manifest.GetExpandedProviders] at h
  suffices hgen : ∀ ps (l : List manifest.ExpandedProvider),
      manifest.GetExpandedProviders.go ps = .ok l →
      (∃ blocks, l = blocks.flatten ∧
        List.Forall₂ _ ps blocks) ∧
      (∀ e ∈ l, ∃ p ∈ ps, e.SourceSpec = p.Source) ∧
      l.length = (ps.map manifest.expectedCount).sum by
    exact hgen m.Providers l h
  intro ps
  induction ps with
  | nil =>
    intro l hl
    rw [manifest.GetExpandedProviders.go] at hl
    cases hl
    exact ⟨⟨[], rfl, List.Forall₂.nil⟩, by simp, by simp⟩
  | cons p rest ih =>
    intro l hl
    rw [manifest.GetExpandedProviders.go] at hl
    cases hexp : manifest.expandProvider p with
    | error e => rw [hexp] at hl; exact absurd hl (by simp)
    | ok expanded =>
      rw [hexp] at hl
      cases hgo : manifest.GetExpandedProviders.go rest with
      | error e => rw [hgo] at hl; exact absurd hl (by simp)
      | ok all =>
        rw [hgo] at hl
        have hl' : l = expanded ++ all := ((Except.ok.injEq _ _).mp hl).symm
        obtain ⟨⟨blocks, hall, hf2⟩, hsrc, hlen⟩ := ih all hgo
        obtain ⟨parsed, hp, hyes, hno⟩ := expandProvider_spec p expanded hexp
        refine ⟨⟨expanded :: blocks, by simp [hl', hall], ?_⟩, ?_, ?_⟩
        · exact List.Forall₂.cons ⟨parsed, hp, hyes, hno⟩ hf2
        · intro e he
          rw [hl'] at he
          rcases List.mem_append.mp he with he | he
          · refine ⟨p, by simp, ?_⟩
            by_cases hne : parsed.Hostname = ""
            · rw [hno hne] at he
              obtain ⟨engine, _, rfl⟩ := List.mem_map.mp he
              rfl
            · rw [hyes hne] at he
              simp at he
              rw [he]
          · obtain ⟨q, hq, hsq⟩ := hsrc e he
            exact ⟨q, by simp [hq], hsq⟩
        · rw [hl']
          simp only [List.length_append, List.map_cons, List.sum_cons]
          rw [expandProvider_length p expanded hexp, hlen]

/-- C8 witness: a manifest with one explicit-hostname entry and one
two-engine entry expands to 1 + 2 providers with verbatim source specs. -/
theorem C8_expansion_witness :
    (manifest.GetExpandedProviders
      { Defaults := { Engines := ["terraform"], Platforms := ["linux_amd64"] }
        Providers :=
          [{ Source := "registry.opentofu.org/hashicorp/null"
             Versions := ["3.2.4"], Engines := ["terraform", "opentofu"]
             Platforms := ["linux_amd64"] },
           { Source := "hashicorp/null"
             Versions := ["3.2.4"], Engines := ["terraform", "opentofu"]
             Platforms := ["linux_amd64"] }] }).isOk = true ∧
    [({ Source := { Hostname := "registry.opentofu.org", Namespace := "hashicorp", Name := "null" }
        Versions := ["3.2.4"], Platforms := ["linux_amd64"], Engine := ""
        SourceSpec := "registry.opentofu.org/hashicorp/null" } : manifest.ExpandedProvider),
      { Source := { Hostname := "registry.terraform.io", Namespace := "hashicorp", Name := "null" }
        Versions := ["3.2.4"], Platforms := ["linux_amd64"], Engine := "terraform"
        SourceSpec := "hashicorp/null" },
      { Source := { Hostname := "registry.opentofu.org", Namespace := "hashicorp", Name := "null" }
        Versions := ["3.2.4"], Platforms := ["linux_amd64"], Engine := "opentofu"
        SourceSpec := "hashicorp/null" }].length =
      ([{ Source := "registry.opentofu.org/hashicorp/null"
          Versions := ["3.2.4"], Engines := ["terraform", "opentofu"]
          Platforms := ["linux_amd64"] },
        { Source := "hashicorp/null"
          Versions := ["3.2.4"], Engines := ["terraform", "opentofu"]
          Platforms := ["linux_amd64"] }].map manifest.expectedCount).sum := by
  constructor
  · rfl
  · exact (C8_expansion
      { Defaults := { Engines := ["terraform"], Platforms := ["linux_amd64"] }
        Providers :=
          [{ Source := "registry.opentofu.org/hashicorp/null"
             Versions := ["3.2.4"], Engines := ["terraform", "opentofu"]
             Platforms := ["linux_amd64"] },
           { Source := "hashicorp/null"
             Versions := ["3.2.4"], Engines := ["terraform", "opentofu"]
             Platforms := ["linux_amd64"] }] }
      _ rfl).2.2

/-! ## C10 — constructor defaults -/

theorem downloaderNew_config (tempDir : String) (environ : List String)
    (config : downloader.Config) :
    (downloader.New tempDir environ config).config =
      { CacheDir := if config.CacheDir = "" then tempDir ++ "/provider-mirror-cache"
                    else config.CacheDir
        NoCache := config.NoCache
        Concurrency := if config.Concurrency ≤ 0 then 8 else config.Concurrency
        Retries := if config.Retries ≤ 0 then 3 else config.Retries
        MaxBackoff := if config.MaxBackoff ≤ 0 then 60 else config.MaxBackoff
        ShowProgress := config.ShowProgress } := by
  by_cases h1 : config.CacheDir = "" <;> by_cases h2 : config.Concurrency ≤ 0 <;>
    by_cases h3 : config.Retries ≤ 0 <;> by_cases h4 : config.MaxBackoff ≤ 0 <;>
    simp [downloader.New, downloader.DefaultConfig, h1, h2, h3, h4]

theorem httpclientNew_client (environ : List String) (hcfg : httpclient.Config) :
    httpclient.New environ hcfg =
      { timeout := if hcfg.Timeout ≤ 0 then 30 else hcfg.Timeout
        credentials := httpclient.loadCredentials environ
        retries := if hcfg.Retries ≤ 0 then 3 else hcfg.Retries
        maxBackoff := if hcfg.MaxBackoff ≤ 0 then 60 else hcfg.MaxBackoff } := by
  by_cases h1 : hcfg.Timeout ≤ 0 <;> by_cases h2 : hcfg.Retries ≤ 0 <;>
    by_cases h3 : hcfg.MaxBackoff ≤ 0 <;>
    simp [httpclient.New, httpclient.DefaultConfig, h1, h2, h3]

/-- C10: `downloader.New` and `httpclient.New` replace every non-positive
numeric field (and the empty cache dir) with its default — Concurrency 8,
Retries 3, MaxBackoff 60 s, cache dir under the user temp dir, HTTP
timeout 30 s — so a constructed downloader or client never has zero
retries; in particular `Config{Retries: 0}` yields Retries 3 (the
embedded HTTP client of a downloader always does, since `New` passes
only the 5-minute timeout) and hence at most 4 attempts per task. -/
theorem C10_constructor_defaults (tempDir : String) (environ : List String)
    (config : downloader.Config) (hcfg : httpclient.Config) :
    (config.CacheDir = "" →
      (downloader.New tempDir environ config).config.CacheDir =
        tempDir ++ "/provider-mirror-cache") ∧
    (config.Concurrency ≤ 0 →
      (downloader.New tempDir environ config).config.Concurrency = 8) ∧
    (config.Retries ≤ 0 →
      (downloader.New tempDir environ config).config.Retries = 3) ∧
    (config.MaxBackoff ≤ 0 →
      (downloader.New tempDir environ config).config.MaxBackoff = 60) ∧
    (hcfg.Timeout ≤ 0 → (httpclient.New environ hcfg).timeout = 30) ∧
    (hcfg.Retries ≤ 0 → (httpclient.New environ hcfg).retries = 3) ∧
    (hcfg.MaxBackoff ≤ 0 → (httpclient.New environ hcfg).maxBackoff = 60) ∧
    ((downloader.New tempDir environ config).config.Retries ≠ 0) ∧
    ((httpclient.New environ hcfg).retries ≠ 0) ∧
    ((downloader.New tempDir environ config).httpClient.retries = 3) ∧
    ((downloader.New tempDir environ config).httpClient.timeout = 5 * 60) ∧
    (config.Retries = 0 →
      (downloader.New tempDir environ config).config.Retries = 3 ∧
      ∀ oc, (downloader.downloadWithRetry
          (downloader.New tempDir environ config).config.Retries.toNat oc).2 ≤ 4) := by
  have hdl : ∀ _ : config.Retries ≤ 0,
      (downloader.New tempDir environ config).config.Retries = 3 := by
    intro h
    rw [downloaderNew_config]
    simp [h]
  refine ⟨?_, ?_, hdl, ?_, ?_, ?_, ?_, ?_, ?_, ?_, ?_, ?_⟩
  · intro h; rw [downloaderNew_config]; simp [h]
  · intro h; rw [downloaderNew_config]; simp [h]
  · intro h; rw [downloaderNew_config]; simp [h]
  · intro h; rw [httpclientNew_client]; simp [h]
  · intro h; rw [httpclientNew_client]; simp [h]
  · intro h; rw [httpclientNew_client]; simp [h]
  · rw [downloaderNew_config]
    by_cases h : config.Retries ≤ 0 <;> simp [h] <;> omega
  · rw [httpclientNew_client]
    by_cases h : hcfg.Retries ≤ 0 <;> simp [h] <;> omega
  · have : (downloader.New tempDir environ config).httpClient =
        httpclient.New environ { Timeout := 5 * 60, Retries := 0, MaxBackoff := 0 } := by
      simp [downloader.New]
    rw [this, httpclientNew_client]
    norm_num
  · have : (downloader.New tempDir environ config).httpClient =
        httpclient.New environ { Timeout := 5 * 60, Retries := 0, MaxBackoff := 0 } := by
      simp [downloader.New]
    rw [this, httpclientNew_client]
    norm_num
  · intro h
    have h3 := hdl (by omega)
    refine ⟨h3, ?_⟩
    intro oc
    rw [h3]
    have := retryFrom_count_le oc ((3 : Int).toNat) ((3 : Int).toNat + 1) 0 none
    simpa [downloader.downloadWithRetry] using this

/-- C10 witness: a downloader built with `Config{Retries: 0}` makes at
most 4 attempts even when every attempt fails with a network error. -/
theorem C10_witness :
    (downloader.downloadWithRetry
        ((downloader.New "/tmp" []
          { CacheDir := "", NoCache := false, Concurrency := 0, Retries := 0,
            MaxBackoff := 0, ShowProgress := false }).config.Retries.toNat)
        (fun _ => .netErr "connection reset")).2 ≤ 4 :=
  ((C10_constructor_defaults "/tmp" []
      { CacheDir := "", NoCache := false, Concurrency := 0, Retries := 0,
        MaxBackoff := 0, ShowProgress := false }
      httpclient.DefaultConfig).2.2.2.2.2.2.2.2.2.2.2 rfl).2
    (fun _ => .netErr "connection reset")

/-! ## C1 — atomicity of the output swap -/

theorem prefixSnocEq : ∀ (l : List String) (p : List String) (a b : String),
    (l ++ [a]).isPrefixOf p = true → (l ++ [b]).isPrefixOf p = true → a = b := by
  intro l
  induction l with
  | nil =>
    intro p a b ha hb
    cases p with
    | nil => simp [List.isPrefixOf] at ha
    | cons x xs =>
      simp only [List.nil_append, List.isPrefixOf, Bool.and_eq_true, beq_iff_eq] at ha hb
      exact ha.1.trans hb.1.symm
  | cons d l ih =>
    intro p a b ha hb
    cases p with
    | nil => simp [List.isPrefixOf] at ha
    | cons x xs =>
      simp only [List.cons_append, List.isPrefixOf, Bool.and_eq_true] at ha hb
      exact ih xs a b ha.2 hb.2

theorem outStaging_disjoint (w : mirror.Writer) (p : mirror.Path) :
    ¬(mirror.isUnder w.outputDir p = true ∧ mirror.isUnder w.stagingDir p = true) := by
  rintro ⟨h1, h2⟩
  rw [mirror.isUnder, mirror.Writer.outputDir] at h1
  rw [mirror.isUnder, mirror.Writer.stagingDir] at h2
  have heq := prefixSnocEq w.dirs p w.base (w.base ++ ".staging") h1 h2
  have hlen := congrArg String.length heq
  rw [String.length_append] at hlen
  have h8 : (".staging" : String).length = 8 := rfl
  rw [h8] at hlen
  omega

theorem filter_filter_of_imp {α : Type} (p q : α → Bool)
    (h : ∀ a, p a = true → q a = true) :
    ∀ l : List α, (l.filter q).filter p = l.filter p := by
  intro l
  induction l with
  | nil => rfl
  | cons a l ih =>
    cases hq : q a
    · have hp : p a = false := by
        cases hpa : p a
        · rfl
        · rw [h a hpa] at hq; cases hq
      simp [List.filter_cons, hq, hp, ih]
    · simp [List.filter_cons, hq, ih]

theorem outputView_removeAllStaging (w : mirror.Writer) (fs : mirror.FS) :
    mirror.outputView w (mirror.removeAllFS w.stagingDir fs) = mirror.outputView w fs := by
  rw [mirror.outputView, mirror.outputView, mirror.removeAllFS]
  apply filter_filter_of_imp
  intro e he
  cases hs : mirror.isUnder w.stagingDir e.1
  · rfl
  · exact absurd ⟨he, hs⟩ (outStaging_disjoint w e.1)

theorem outputView_removeAllPartialStaging (w : mirror.Writer) (s : mirror.Path → Bool)
    (fs : mirror.FS) :
    mirror.outputView w (mirror.removeAllPartial w.stagingDir s fs) =
      mirror.outputView w fs := by
  rw [mirror.outputView, mirror.outputView, mirror.removeAllPartial]
  apply filter_filter_of_imp
  intro e he
  cases hs : mirror.isUnder w.stagingDir e.1
  · rfl
  · exact absurd ⟨he, hs⟩ (outStaging_disjoint w e.1)

theorem outputView_writeFileStaging (w : mirror.Writer) (p : mirror.Path)
    (d : mirror.FileData) (fs : mirror.FS)
    (hp : mirror.isUnder w.stagingDir p = true) :
    mirror.outputView w (mirror.writeFileFS p d fs) = mirror.outputView w fs := by
  rw [mirror.outputView, mirror.outputView, mirror.writeFileFS, List.filter_append]
  have hpo : mirror.isUnder w.outputDir p = false := by
    cases ho : mirror.isUnder w.outputDir p
    · rfl
    · exact absurd ⟨ho, hp⟩ (outStaging_disjoint w p)
  have hsing : List.filter (fun e => mirror.isUnder w.outputDir e.1)
      [(p, d)] = [] := by
    simp [List.filter, hpo]
  rw [hsing, List.append_nil]
  apply filter_filter_of_imp
  intro e he
  have hne : e.1 ≠ p := fun h => absurd ⟨h ▸ he, hp⟩ (outStaging_disjoint w p)
  exact decide_eq_true hne

theorem applyActions_cons (we : ℕ → Option String) (i : ℕ) (a : mirror.StageAction)
    (rest : List mirror.StageAction) (fs : mirror.FS) :
    mirror.applyActions we i (a :: rest) fs =
      match we i with
      | some e => (Except.error e, fs)
      | none =>
        mirror.applyActions we (i + 1) rest
          (match a with
            | .mkdirAct _ => fs
            | .writeAct p d => mirror.writeFileFS p d fs) := rfl

theorem applyActions_outputView (w : mirror.Writer) (we : ℕ → Option String) :
    ∀ (acts : List mirror.StageAction) (i : ℕ) (fs : mirror.FS),
      (∀ p d, mirror.StageAction.writeAct p d ∈ acts →
        mirror.isUnder w.stagingDir p = true) →
      mirror.outputView w (mirror.applyActions we i acts fs).2 =
        mirror.outputView w fs := by
  intro acts
  induction acts with
  | nil => intro i fs h; rfl
  | cons a rest ih =>
    intro i fs h
    rw [applyActions_cons]
    cases hwe : we i
    · simp only [hwe]
      cases a with
      | mkdirAct p =>
        exact ih (i + 1) fs (fun p d hm => h p d (List.mem_cons_of_mem _ hm))
      | writeAct p d =>
        rw [ih (i + 1) _ (fun q e hm => h q e (List.mem_cons_of_mem _ hm))]
        exact outputView_writeFileStaging w p d fs (h p d (List.mem_cons_self _ _))
    · simp only [hwe]

theorem isPrefixOf_append_self : ∀ (l t : List String), l.isPrefixOf (l ++ t) = true := by
  intro l t
  induction l with
  | nil => cases t <;> rfl
  | cons a l ih => simp [List.isPrefixOf, ih]

theorem isUnder_stagingExt (w : mirror.Writer) (rest : List String) :
    mirror.isUnder w.stagingDir (w.stagingDir ++ rest) = true := by
  rw [mirror.isUnder]
  exact isPrefixOf_append_self _ _

theorem providerActions_under (w : mirror.Writer) (h1s : String → String)
    (pk : resolver.providerKey)
    (versions : List (String × List downloader.DownloadResult)) (p : mirror.Path)
    (d : mirror.FileData)
    (hm : mirror.StageAction.writeAct p d ∈
      mirror.providerActions w.stagingDir h1s pk versions) :
    mirror.isUnder w.stagingDir p = true := by
  rw [mirror.providerActions] at hm
  rcases List.mem_cons.mp hm with heq | hm'
  · exact mirror.StageAction.noConfusion heq
  rcases List.mem_append.mp hm' with hA | hB
  · obtain ⟨⟨ver, downloads⟩, _, hmem2⟩ := List.mem_flatMap.mp hA
    rcases List.mem_append.mp hmem2 with hC | hD
    · obtain ⟨dl, _, heq⟩ := List.mem_map.mp hC
      injection heq.symm with hp _
      rw [hp, List.append_assoc]
      exact isUnder_stagingExt w _
    · rw [List.mem_singleton] at hD
      injection hD with hp _
      rw [hp, List.append_assoc]
      exact isUnder_stagingExt w _
  · rw [List.mem_singleton] at hB
    injection hB with hp _
    rw [hp, List.append_assoc]
    exact isUnder_stagingExt w _

theorem stagingActions_under (w : mirror.Writer) (h1s : String → String)
    (generatedAt : String) (results : List downloader.DownloadResult) (p : mirror.Path)
    (d : mirror.FileData)
    (hm : mirror.StageAction.writeAct p d ∈
      mirror.stagingActions w h1s generatedAt results) :
    mirror.isUnder w.stagingDir p = true := by
  rw [mirror.stagingActions] at hm
  rcases List.mem_append.mp hm with hA | hB
  · obtain ⟨g, _, hmem2⟩ := List.mem_flatMap.mp hA
    exact providerActions_under w h1s g.1 g.2 p d hmem2
  · rw [List.mem_singleton] at hB
    injection hB with hp _
    rw [hp]
    exact isUnder_stagingExt w _

/-- C1 (amended): the writer's swap is not atomic — `Write` ends with
`os.RemoveAll(output)` followed by `os.Rename(staging, output)` — so the
pre-swap invariant holds but not the full claim: whenever `Write` fails
and the failure is not in the swap phase itself (the `RemoveAll(output)`
and `Rename` steps succeed when reached), the `<output>` directory is
bit-identical to its pre-run state; a failure of the swap's `Rename`
after the successful `RemoveAll(output)`, by contrast, leaves `<output>`
absent (see the counterexample). -/
theorem C1_output_preservation (env : mirror.WriteEnv) (w : mirror.Writer)
    (generatedAt : String) (results : List downloader.DownloadResult)
    (fs : mirror.FS) (e : String)
    (he : (mirror.Write env w generatedAt results fs).1 = Except.error e)
    (h1 : env.rmOutputErr = none) (h2 : env.renameErr = none) :
    mirror.outputView w (mirror.Write env w generatedAt results fs).2 =
      mirror.outputView w fs := by
  cases hrs : env.rmStagingErr with
  | some e0 =>
    simp only [mirror.Write, hrs]
    exact outputView_removeAllPartialStaging w env.rmStagingSurvives fs
  | none =>
    simp only [mirror.Write, hrs] at he ⊢
    cases hf : results.find? (fun r => r.Error.isSome) with
    | some r =>
      simp only [hf]
      exact outputView_removeAllStaging w fs
    | none =>
      simp only [hf] at he ⊢
      cases hh : env.hashes with
      | error e1 =>
        simp only [hh]
        exact outputView_removeAllStaging w fs
      | ok h1Hashes =>
        simp only [hh] at he ⊢
        cases happ : mirror.applyActions env.writeErr 0
            (mirror.stagingActions w h1Hashes generatedAt results)
            (mirror.removeAllFS w.stagingDir fs) with
        | mk res fs2 =>
          have hpres : mirror.outputView w fs2 =
              mirror.outputView w (mirror.removeAllFS w.stagingDir fs) := by
            have := applyActions_outputView w env.writeErr
              (mirror.stagingActions w h1Hashes generatedAt results) 0
              (mirror.removeAllFS w.stagingDir fs)
              (fun p d hm => stagingActions_under w h1Hashes generatedAt results p d hm)
            rw [happ] at this
            exact this
          cases res with
          | error e2 =>
            simp only [happ]
            rw [hpres]
            exact outputView_removeAllStaging w fs
          | ok u =>
            simp only [happ, h1, h2] at he
            exact Except.noConfusion he

/-- C1 counterexample: with a prior build present in `<output>`, a run in
which every phase succeeds except the final `Rename` fails with the
rename error while `<output>` has been emptied by the preceding
`RemoveAll(output)` — the claim's "bit-identical on any failure" is
violated. -/
theorem C1_counterexample :
    (mirror.Write
        { rmStagingErr := none, rmStagingSurvives := fun _ => false,
          hashes := Except.ok (fun _ => "h1:x"), writeErr := fun _ => none,
          rmOutputErr := none, rmOutputSurvives := fun _ => false,
          renameErr := some "device busy" }
        { dirs := ["m"], base := "out" } "2024-01-01T00:00:00Z" []
        [(["m", "out", "old.txt"], mirror.FileData.indexJson ["1"])]).1 =
      Except.error "moving staging to output: device busy" ∧
    mirror.outputView { dirs := ["m"], base := "out" }
        (mirror.Write
          { rmStagingErr := none, rmStagingSurvives := fun _ => false,
            hashes := Except.ok (fun _ => "h1:x"), writeErr := fun _ => none,
            rmOutputErr := none, rmOutputSurvives := fun _ => false,
            renameErr := some "device busy" }
          { dirs := ["m"], base := "out" } "2024-01-01T00:00:00Z" []
          [(["m", "out", "old.txt"], mirror.FileData.indexJson ["1"])]).2 = [] ∧
    mirror.outputView { dirs := ["m"], base := "out" }
        [(["m", "out", "old.txt"], mirror.FileData.indexJson ["1"])] =
      [(["m", "out", "old.txt"], mirror.FileData.indexJson ["1"])] ∧
    ([] : mirror.FS) ≠ [(["m", "out", "old.txt"], mirror.FileData.indexJson ["1"])] :=
  ⟨rfl, rfl, rfl, by decide⟩

/-- C1 witness: a run failing at the very first phase (cleaning the
staging directory) leaves the previously built `<output>` untouched. -/
theorem C1_output_preservation_witness :
    mirror.outputView { dirs := ["m"], base := "out" }
        (mirror.Write
          { rmStagingErr := some "denied", rmStagingSurvives := fun _ => false,
            hashes := Except.ok (fun _ => "h1:x"), writeErr := fun _ => none,
            rmOutputErr := none, rmOutputSurvives := fun _ => false,
            renameErr := none }
          { dirs := ["m"], base := "out" } "2024-01-01T00:00:00Z" []
          [(["m", "out", "old.txt"], mirror.FileData.indexJson ["1"])]).2 =
      mirror.outputView { dirs := ["m"], base := "out" }
        [(["m", "out", "old.txt"], mirror.FileData.indexJson ["1"])] :=
  C1_output_preservation
    { rmStagingErr := some "denied", rmStagingSurvives := fun _ => false,
      hashes := Except.ok (fun _ => "h1:x"), writeErr := fun _ => none,
      rmOutputErr := none, rmOutputSurvives := fun _ => false,
      renameErr := none }
    { dirs := ["m"], base := "out" } "2024-01-01T00:00:00Z" []
    [(["m", "out", "old.txt"], mirror.FileData.indexJson ["1"])]
    "cleaning staging directory: denied" rfl rfl rfl


/-! ## Selection lemmas: head of a sorted list, numeric-library laws -/

theorem find?_stronger {α : Type u_1} (p q : α → Bool)
    (himp : ∀ a, q a = true → p a = true) :
    ∀ (l : List α) (h : α), l.find? p = some h → q h = true → l.find? q = some h := by
  intro l
  induction l with
  | nil => intro h hf; cases hf
  | cons a l ih =>
    intro h hf hq
    cases hpa : p a
    · have hqa : q a = false := by
        cases hqa : q a
        · rfl
        · rw [himp a hqa] at hpa; cases hpa
      rw [List.find?_cons, hpa] at hf
      rw [List.find?_cons, hqa]
      exact ih h hf hq
    · rw [List.find?_cons, hpa] at hf
      have ha : a = h := Option.some.inj hf
      subst ha
      rw [List.find?_cons, hq]

theorem sortGo_head_find (less : α → α → Bool)
    (asymm : ∀ a b, less a b = true → less b a = false)
    (negtrans : ∀ a b c, less a c = true → less a b = true ∨ less b c = true) :
    ∀ l : List α, (sortGo less l).head? =
      l.find? (fun a => l.all fun b => !less b a) := by
  have hirr : ∀ a, less a a = false := by
    intro a
    cases ha : less a a
    · rfl
    · have h2 := asymm a a ha
      rw [ha] at h2
      exact h2
  intro l
  induction l with
  | nil => rfl
  | cons x xs ih =>
    rw [sortGo]
    cases hS : sortGo less xs with
    | nil =>
      have hxs : xs = [] := by
        have hp := sortGo_perm less xs
        rw [hS] at hp
        exact hp.symm.eq_nil
      subst hxs
      rw [insertGo, List.find?_cons]
      have : ((List.all [x] fun b => !less b x)) = true := by
        simp [hirr x]
      rw [this]
      rfl
    | cons h t =>
      rw [hS] at ih
      have hfind : xs.find? (fun a => xs.all fun b => !less b a) = some h := ih.symm
      have hpredh := List.find?_some hfind
      have hmemh : h ∈ xs := List.mem_of_find?_eq_some hfind
      have hallh : ∀ b ∈ xs, less b h = false := by
        intro b hb
        have := List.all_eq_true.mp hpredh b hb
        simpa using this
      cases hx : less h x with
      | false =>
        rw [insertGo, hx, if_neg (by simp)]
        have hallx : ∀ b ∈ xs, less b x = false := by
          intro b hb
          cases hbx : less b x
          · rfl
          · rcases negtrans b h x hbx with h1 | h2
            · rw [hallh b hb] at h1; cases h1
            · rw [hx] at h2; cases h2
        have hpx : ((x :: xs).all fun b => !less b x) = true := by
          rw [List.all_eq_true]
          intro b hb
          rcases List.mem_cons.mp hb with rfl | hb'
          · simp [hirr b]
          · simp [hallx b hb']
        rw [List.find?_cons, hpx]
        rfl
      | true =>
        rw [insertGo, hx, if_pos rfl]
        have hpx : ((x :: xs).all fun b => !less b x) = false := by
          cases hv : (x :: xs).all fun b => !less b x
          · rfl
          · have := List.all_eq_true.mp hv h (List.mem_cons_of_mem _ hmemh)
            rw [hx] at this
            cases this
        rw [List.find?_cons, hpx]
        have hqh : ((x :: xs).all fun b => !less b h) = true := by
          rw [List.all_eq_true]
          intro b hb
          rcases List.mem_cons.mp hb with rfl | hb'
          · simp [asymm h b hx]
          · simp [hallh b hb']
        have himp : ∀ a, ((x :: xs).all fun b => !less b a) = true →
            (xs.all fun b => !less b a) = true := by
          intro a ha
          rw [List.all_eq_true] at ha ⊢
          intro b hb
          exact ha b (List.mem_cons_of_mem _ hb)
        have hres : xs.find? (fun a => (x :: xs).all fun b => !less b a) = some h :=
          find?_stronger _ _ himp xs h hfind hqh
        rw [hres]
        rfl

theorem numLt_asymm (a b : NumVer) (h : numLt a b = true) : numLt b a = false := by
  rw [numLt] at h ⊢
  split_ifs at h ⊢ <;> simp_all <;> omega

theorem numLt_negtrans (a b c : NumVer) (h : numLt a c = true) :
    numLt a b = true ∨ numLt b c = true := by
  rw [numLt] at h ⊢
  rw [numLt]
  split_ifs at h ⊢ <;> simp_all <;> omega

theorem numLt_antisymm (a b : NumVer) (h1 : numLt a b = false)
    (h2 : numLt b a = false) : a = b := by
  rw [numLt] at h1 h2
  obtain ⟨a1, a2, a3⟩ := a
  obtain ⟨b1, b2, b3⟩ := b
  split_ifs at h1 h2 <;> simp_all <;> omega

theorem numericLib_lawful : numericLib.Lawful := by
  constructor
  · intro a b h
    exact numLt_asymm b a h
  · intro a b c h
    exact (numLt_negtrans c b a h).symm
  · intro c a b h1 h2
    rw [numLt_antisymm a b h2 h1]

/-! ## C6 — platform availability for the selected version -/

theorem checkPlatforms_ok (src ver : String) (avail : List String) :
    ∀ (reqs ps : List String),
      resolver.checkPlatforms src ver avail reqs = .ok ps →
      ps = reqs ∧ ∀ p ∈ reqs, avail.contains p = true := by
  intro reqs
  induction reqs with
  | nil =>
    intro ps h
    rw [resolver.checkPlatforms] at h
    refine ⟨(Except.ok.inj h).symm, ?_⟩
    intro p hp
    cases hp
  | cons q rest ih =>
    intro ps h
    rw [resolver.checkPlatforms] at h
    by_cases hc : avail.contains q = true
    · rw [if_pos hc] at h
      cases hcp : resolver.checkPlatforms src ver avail rest with
      | error e => rw [hcp] at h; cases h
      | ok ps' =>
        rw [hcp] at h
        obtain ⟨hps', hall⟩ := ih ps' hcp
        refine ⟨?_, ?_⟩
        · rw [← Except.ok.inj h, hps']
        · intro p hp
          rcases List.mem_cons.mp hp with rfl | hp'
          · exact hc
          · exact hall p hp'
    · rw [if_neg hc] at h
      cases h

theorem checkPlatforms_err (src ver : String) (avail : List String) :
    ∀ reqs : List String, (∃ p ∈ reqs, avail.contains p = false) →
      ∃ q ∈ reqs, avail.contains q = false ∧
        resolver.checkPlatforms src ver avail reqs =
          .error s!"provider {src} version {ver} does not have platform {q}" := by
  intro reqs
  induction reqs with
  | nil =>
    rintro ⟨p, hp, _⟩
    cases hp
  | cons q rest ih =>
    rintro ⟨p, hp, hpc⟩
    by_cases hc : avail.contains q = true
    · have hpr : p ∈ rest := by
        rcases List.mem_cons.mp hp with rfl | hp'
        · rw [hc] at hpc; cases hpc
        · exact hp'
      obtain ⟨q', hq', hqc', herr⟩ := ih ⟨p, hpr, hpc⟩
      refine ⟨q', List.mem_cons_of_mem _ hq', hqc', ?_⟩
      rw [resolver.checkPlatforms, if_pos hc, herr]
    · refine ⟨q, List.mem_cons_self _ _, Bool.eq_false_iff.mpr hc, ?_⟩
      rw [resolver.checkPlatforms, if_neg hc]

/-- C6: for the selected version of an expansion, a successful resolution
returns exactly the requested platforms, each of which appears in the
registry's advertised (rendered) platform list for that exact version
string; and when any requested platform is absent from that list,
resolution fails with an error naming the provider, the selected version
and the missing platform. -/
theorem C6_platform_availability (lib : VersionLib V C) (reg : RegistrySnapshot)
    (constraintStr : String) (constraint : C) (ep : manifest.ExpandedProvider)
    (pvs : registry.ProviderVersions)
    (hreg : reg ep.Source.Hostname ep.Source.Namespace ep.Source.Name = .ok pvs) :
    (∀ r, resolver.resolveExpansion lib reg constraintStr constraint ep = .ok r →
      r.Platforms = ep.Platforms ∧
      ∀ p ∈ r.Platforms,
        p ∈ (resolver.platformsForVersion lib constraint pvs r.Version).map
          registry.ProviderPlatform.render) ∧
    (∀ sel rest, sortGo (fun a b : String × V => lib.gt a.2 b.2)
        (resolver.matchingOf lib constraint pvs) = sel :: rest →
      ∀ p ∈ ep.Platforms,
        p ∉ (resolver.platformsForVersion lib constraint pvs sel.1).map
          registry.ProviderPlatform.render →
        ∃ q ∈ ep.Platforms,
          q ∉ (resolver.platformsForVersion lib constraint pvs sel.1).map
            registry.ProviderPlatform.render ∧
          resolver.resolveExpansion lib reg constraintStr constraint ep =
            .error s!"provider {ep.Source.render} version {sel.1} does not have platform {q}") := by
  constructor
  · intro r h
    rw [resolver.resolveExpansion, hreg] at h
    dsimp only at h
    cases hsort : sortGo (fun a b : String × V => lib.gt a.2 b.2)
        (resolver.matchingOf lib constraint pvs) with
    | nil => rw [hsort] at h; cases h
    | cons sel rest =>
      rw [hsort] at h
      dsimp only at h
      cases hcp : resolver.checkPlatforms ep.Source.render sel.1
          ((resolver.platformsForVersion lib constraint pvs sel.1).map
            registry.ProviderPlatform.render) ep.Platforms with
      | error e => rw [hcp] at h; cases h
      | ok ps =>
        rw [hcp] at h
        dsimp only at h
        cases h
        obtain ⟨hps, hall⟩ := checkPlatforms_ok ep.Source.render sel.1 _ ep.Platforms ps hcp
        subst hps
        refine ⟨rfl, ?_⟩
        intro p hp
        have hc := hall p hp
        simpa using hc
  · intro sel rest hsort p hp hnotin
    have hpc : ((resolver.platformsForVersion lib constraint pvs sel.1).map
        registry.ProviderPlatform.render).contains p = false := by
      cases hcc : ((resolver.platformsForVersion lib constraint pvs sel.1).map
          registry.ProviderPlatform.render).contains p
      · rfl
      · exact absurd (by simpa using hcc) hnotin
    obtain ⟨q, hq, hqc, herr⟩ := checkPlatforms_err ep.Source.render sel.1
      ((resolver.platformsForVersion lib constraint pvs sel.1).map
        registry.ProviderPlatform.render) ep.Platforms ⟨p, hp, hpc⟩
    refine ⟨q, hq, ?_, ?_⟩
    · intro hmem
      rw [(by simpa using hmem : ((resolver.platformsForVersion lib constraint pvs
          sel.1).map registry.ProviderPlatform.render).contains q = true)] at hqc
      cases hqc
    · rw [resolver.resolveExpansion, hreg]
      dsimp only
      rw [hsort]
      dsimp only
      rw [herr]

/-- C6 witness: the success half at a snapshot where the requested
platform is advertised for the selected version, and the failure half at
a run requesting a platform the registry does not advertise. -/
theorem C6_platform_availability_witness :
    (({ Provider := { Hostname := "registry.terraform.io",
                      Namespace := "hashicorp", Name := "null" }
        Version := "2.0.0", Platforms := ["linux_amd64"]
        ManifestSource := "hashicorp/null" } :
        resolver.resolvedVersionResult).Platforms =
      ["linux_amd64"] ∧
      ∀ p ∈ (({ Provider := { Hostname := "registry.terraform.io",
                              Namespace := "hashicorp", Name := "null" }
                Version := "2.0.0", Platforms := ["linux_amd64"]
                ManifestSource := "hashicorp/null" } :
              resolver.resolvedVersionResult)).Platforms,
        p ∈ (resolver.platformsForVersion numericLib [(NumOp.geOp, (1, 0, 0))]
            { Versions :=
                [{ Version := "1.0.0", Protocols := ["6.0"],
                   Platforms := [{ OS := "linux", Arch := "amd64" }] },
                 { Version := "2.0.0", Protocols := ["6.0"],
                   Platforms := [{ OS := "linux", Arch := "amd64" }] }] }
            "2.0.0").map registry.ProviderPlatform.render) ∧
    (∃ q ∈ ["windows_arm"],
      q ∉ (resolver.platformsForVersion numericLib [(NumOp.geOp, (1, 0, 0))]
          { Versions :=
              [{ Version := "1.0.0", Protocols := ["6.0"],
                 Platforms := [{ OS := "linux", Arch := "amd64" }] },
               { Version := "2.0.0", Protocols := ["6.0"],
                 Platforms := [{ OS := "linux", Arch := "amd64" }] }] }
          "2.0.0").map registry.ProviderPlatform.render ∧
      resolver.resolveExpansion numericLib
          (fun _ _ _ => Except.ok
            { Versions :=
                [{ Version := "1.0.0", Protocols := ["6.0"],
                   Platforms := [{ OS := "linux", Arch := "amd64" }] },
                 { Version := "2.0.0", Protocols := ["6.0"],
                   Platforms := [{ OS := "linux", Arch := "amd64" }] }] })
          ">= 1.0.0" [(NumOp.geOp, (1, 0, 0))]
          { Source := { Hostname := "registry.terraform.io",
                        Namespace := "hashicorp", Name := "null" }
            Versions := [">= 1.0.0"], Platforms := ["windows_arm"], Engine := ""
            SourceSpec := "hashicorp/null" } =
        .error ("provider " ++
          ({ Hostname := "registry.terraform.io", Namespace := "hashicorp",
             Name := "null" } : manifest.ProviderSource).render ++
          " version 2.0.0 does not have platform " ++ q)) := by
  refine ⟨?_, ?_⟩
  · exact (C6_platform_availability numericLib
      (fun _ _ _ => Except.ok
        { Versions :=
            [{ Version := "1.0.0", Protocols := ["6.0"], Platforms := [{ OS := "linux", Arch := "amd64" }] },
             { Version := "2.0.0", Protocols := ["6.0"], Platforms := [{ OS := "linux", Arch := "amd64" }] }] })
      ">= 1.0.0" [(NumOp.geOp, (1, 0, 0))]
      { Source := { Hostname := "registry.terraform.io", Namespace := "hashicorp",
                    Name := "null" }
        Versions := [">= 1.0.0"], Platforms := ["linux_amd64"], Engine := ""
        SourceSpec := "hashicorp/null" }
      { Versions :=
          [{ Version := "1.0.0", Protocols := ["6.0"], Platforms := [{ OS := "linux", Arch := "amd64" }] },
           { Version := "2.0.0", Protocols := ["6.0"], Platforms := [{ OS := "linux", Arch := "amd64" }] }] }
      rfl).1 _ rfl
  · have := (C6_platform_availability numericLib
      (fun _ _ _ => Except.ok
        { Versions :=
            [{ Version := "1.0.0", Protocols := ["6.0"], Platforms := [{ OS := "linux", Arch := "amd64" }] },
             { Version := "2.0.0", Protocols := ["6.0"], Platforms := [{ OS := "linux", Arch := "amd64" }] }] })
      ">= 1.0.0" [(NumOp.geOp, (1, 0, 0))]
      { Source := { Hostname := "registry.terraform.io", Namespace := "hashicorp",
                    Name := "null" }
        Versions := [">= 1.0.0"], Platforms := ["windows_arm"], Engine := ""
        SourceSpec := "hashicorp/null" }
      { Versions :=
          [{ Version := "1.0.0", Protocols := ["6.0"], Platforms := [{ OS := "linux", Arch := "amd64" }] },
           { Version := "2.0.0", Protocols := ["6.0"], Platforms := [{ OS := "linux", Arch := "amd64" }] }] }
      rfl).2 ("2.0.0", ((2 : ℕ), (0 : ℕ), (0 : ℕ)))
      [("1.0.0", ((1 : ℕ), (0 : ℕ), (0 : ℕ)))] rfl "windows_arm" (by simp) (by decide)
    simpa using this


/-! ## Resolver map accumulation: content under permuted results -/

theorem mapUpdate_lookup_self {κ β : Type} [DecidableEq κ] (k : κ) (d : β) (f : β → β) :
    ∀ m : List (κ × β), (mapUpdate k d f m).lookup k = some (f ((m.lookup k).getD d)) := by
  intro m
  induction m with
  | nil =>
    simp [mapUpdate, List.lookup]
  | cons kv rest ih =>
    obtain ⟨k', v⟩ := kv
    by_cases h : k' = k
    · subst h
      simp [mapUpdate, List.lookup]
    · have hbeq : (k == k') = false := by simpa using Ne.symm h
      simp only [mapUpdate, if_neg h, List.lookup, hbeq]
      exact ih

theorem mapUpdate_lookup_ne {κ β : Type} [DecidableEq κ] (k q : κ) (d : β) (f : β → β)
    (hne : q ≠ k) :
    ∀ m : List (κ × β), (mapUpdate k d f m).lookup q = m.lookup q := by
  intro m
  induction m with
  | nil =>
    have hbeq : (q == k) = false := by simpa using hne
    simp [mapUpdate, List.lookup, hbeq]
  | cons kv rest ih =>
    obtain ⟨k', v⟩ := kv
    by_cases h : k' = k
    · subst h
      have hbeq : (q == k') = false := by simpa using hne
      simp [mapUpdate, List.lookup, hbeq]
    · cases hq : (q == k') with
      | true =>
        simp [mapUpdate, if_neg h, List.lookup, hq]
      | false =>
        simp only [mapUpdate, if_neg h, List.lookup, hq]
        exact ih

theorem mem_keys_mapUpdate {κ β : Type} [DecidableEq κ] (k q : κ) (d : β) (f : β → β)
    (m : List (κ × β)) :
    q ∈ (mapUpdate k d f m).map (·.1) ↔ q ∈ m.map (·.1) ∨ q = k := by
  rw [mapUpdate_keys]
  by_cases hk : k ∈ m.map (·.1)
  · simp only [hk, if_true]
    constructor
    · exact Or.inl
    · rintro (h | rfl)
      · exact h
      · exact hk
  · simp [hk]

theorem setInsert_mem (l : List String) (y x : String) :
    x ∈ setInsert l y ↔ x ∈ l ∨ x = y := by
  rw [setInsert]
  by_cases h : y ∈ l
  · simp only [h, if_true]
    constructor
    · exact Or.inl
    · rintro (hx | rfl)
      · exact hx
      · exact h
  · simp [h]

theorem mem_foldl_setInsert :
    ∀ (l acc : List String) (x : String),
      x ∈ l.foldl setInsert acc ↔ x ∈ acc ∨ x ∈ l := by
  intro l
  induction l with
  | nil => intro acc x; simp
  | cons y rest ih =>
    intro acc x
    rw [List.foldl_cons, ih, setInsert_mem]
    constructor
    · rintro ((hx | rfl) | hx)
      · exact Or.inl hx
      · exact Or.inr (by simp)
      · exact Or.inr (by simp [hx])
    · rintro (hx | hx)
      · exact Or.inl (Or.inl hx)
      · rcases List.mem_cons.mp hx with rfl | hx'
        · exact Or.inl (Or.inr rfl)
        · exact Or.inr hx'

theorem nodup_setInsert (l : List String) (y : String) (h : l.Nodup) :
    (setInsert l y).Nodup := by
  rw [setInsert]
  by_cases hy : y ∈ l
  · simpa [hy] using h
  · simp only [hy, if_false]
    rw [List.nodup_append]
    exact ⟨h, List.nodup_singleton _, fun a ha hb => by
      rw [List.mem_singleton] at hb; subst hb; exact hy ha⟩

theorem nodup_foldl_setInsert :
    ∀ (l acc : List String), acc.Nodup → (l.foldl setInsert acc).Nodup := by
  intro l
  induction l with
  | nil => intro acc h; exact h
  | cons y rest ih =>
    intro acc h
    exact ih _ (nodup_setInsert acc y h)

theorem resolveGroups_eq (lib : VersionLib V C) (reg : RegistrySnapshot) :
    ∀ (l : List resolver.constraintGroup) (rs : List resolver.resolvedVersionResult),
      resolver.resolveGroups lib reg l = .ok rs →
      rs = resolver.groupResultsOf lib reg l := by
  intro l
  induction l with
  | nil =>
    intro rs h
    rw [resolver.resolveGroups] at h
    rw [← Except.ok.inj h]
    rfl
  | cons cg rest ih =>
    intro rs h
    rw [resolver.resolveGroups] at h
    cases hcg : resolver.resolveConstraintGroup lib reg cg.constraint cg.expansions with
    | error e => rw [hcg] at h; cases h
    | ok r =>
      rw [hcg] at h
      cases hrest : resolver.resolveGroups lib reg rest with
      | error e => rw [hrest] at h; cases h
      | ok rs' =>
        rw [hrest] at h
        rw [← Except.ok.inj h]
        have hgr : resolver.groupResultsOf lib reg (cg :: rest) =
            r ++ resolver.groupResultsOf lib reg rest := by
          rw [resolver.groupResultsOf, resolver.groupResultsOf, List.flatMap_cons, hcg]
        rw [hgr, ← ih rs' hrest]

theorem addResult_fst (acc : resolver.StrSetMap × resolver.StrSetMap)
    (rv : resolver.resolvedVersionResult) :
    (resolver.addResult acc rv).1 =
      mapUpdate (resolver.vkOf rv) []
        (fun ps => rv.Platforms.foldl setInsert ps) acc.1 := rfl

theorem addResult_snd (acc : resolver.StrSetMap × resolver.StrSetMap)
    (rv : resolver.resolvedVersionResult) :
    (resolver.addResult acc rv).2 =
      mapUpdate (resolver.vkOf rv) []
        (fun ss => setInsert ss rv.ManifestSource) acc.2 := rfl

theorem maps_keys_mem (results : List resolver.resolvedVersionResult) :
    ∀ (acc : resolver.StrSetMap × resolver.StrSetMap) (vk : resolver.versionKey),
      (vk ∈ (results.foldl resolver.addResult acc).1.map (·.1) ↔
        vk ∈ acc.1.map (·.1) ∨ ∃ rv ∈ results, resolver.vkOf rv = vk) ∧
      (vk ∈ (results.foldl resolver.addResult acc).2.map (·.1) ↔
        vk ∈ acc.2.map (·.1) ∨ ∃ rv ∈ results, resolver.vkOf rv = vk) := by
  induction results with
  | nil =>
    intro acc vk
    simp
  | cons rv rest ih =>
    intro acc vk
    rw [List.foldl_cons]
    obtain ⟨ih1, ih2⟩ := ih (resolver.addResult acc rv) vk
    constructor
    · rw [ih1, addResult_fst, mem_keys_mapUpdate]
      constructor
      · rintro ((h | rfl) | ⟨rv', hrv', hvk⟩)
        · exact Or.inl h
        · exact Or.inr ⟨rv, by simp, rfl⟩
        · exact Or.inr ⟨rv', by simp [hrv'], hvk⟩
      · rintro (h | ⟨rv', hrv', hvk⟩)
        · exact Or.inl (Or.inl h)
        · rcases List.mem_cons.mp hrv' with rfl | hrv''
          · exact Or.inl (Or.inr hvk.symm)
          · exact Or.inr ⟨rv', hrv'', hvk⟩
    · rw [ih2, addResult_snd, mem_keys_mapUpdate]
      constructor
      · rintro ((h | rfl) | ⟨rv', hrv', hvk⟩)
        · exact Or.inl h
        · exact Or.inr ⟨rv, by simp, rfl⟩
        · exact Or.inr ⟨rv', by simp [hrv'], hvk⟩
      · rintro (h | ⟨rv', hrv', hvk⟩)
        · exact Or.inl (Or.inl h)
        · rcases List.mem_cons.mp hrv' with rfl | hrv''
          · exact Or.inl (Or.inr hvk.symm)
          · exact Or.inr ⟨rv', hrv'', hvk⟩

theorem maps_keys_nodup (results : List resolver.resolvedVersionResult) :
    ((results.foldl resolver.addResult ([], [])).1.map (·.1)).Nodup ∧
    ((results.foldl resolver.addResult ([], [])).2.map (·.1)).Nodup := by
  have := foldl_invariant
    (P := fun acc : resolver.StrSetMap × resolver.StrSetMap =>
      (acc.1.map (·.1)).Nodup ∧ (acc.2.map (·.1)).Nodup)
    resolver.addResult
    (fun acc rv h =>
      ⟨by rw [addResult_fst]; exact mapUpdate_noDupKeys _ _ _ _ h.1,
       by rw [addResult_snd]; exact mapUpdate_noDupKeys _ _ _ _ h.2⟩)
    results ([], []) ⟨List.nodup_nil, List.nodup_nil⟩
  exact this

theorem maps_platforms_mem (results : List resolver.resolvedVersionResult) :
    ∀ (acc : resolver.StrSetMap × resolver.StrSetMap) (vk : resolver.versionKey)
      (x : String),
      x ∈ (((results.foldl resolver.addResult acc).1.lookup vk).getD []) ↔
        x ∈ ((acc.1.lookup vk).getD []) ∨
          ∃ rv ∈ results, resolver.vkOf rv = vk ∧ x ∈ rv.Platforms := by
  induction results with
  | nil =>
    intro acc vk x
    simp
  | cons rv rest ih =>
    intro acc vk x
    rw [List.foldl_cons, ih]
    by_cases hk : vk = resolver.vkOf rv
    · subst hk
      rw [addResult_fst, mapUpdate_lookup_self]
      simp only [Option.getD_some]
      rw [mem_foldl_setInsert]
      constructor
      · rintro ((hx | hx) | ⟨rv', hrv', hvk, hx⟩)
        · exact Or.inl hx
        · exact Or.inr ⟨rv, by simp, rfl, hx⟩
        · exact Or.inr ⟨rv', by simp [hrv'], hvk, hx⟩
      · rintro (hx | ⟨rv', hrv', hvk, hx⟩)
        · exact Or.inl (Or.inl hx)
        · rcases List.mem_cons.mp hrv' with rfl | hrv''
          · exact Or.inl (Or.inr hx)
          · exact Or.inr ⟨rv', hrv'', hvk, hx⟩
    · rw [addResult_fst, mapUpdate_lookup_ne _ _ _ _ hk]
      constructor
      · rintro (hx | ⟨rv', hrv', hvk, hx⟩)
        · exact Or.inl hx
        · exact Or.inr ⟨rv', by simp [hrv'], hvk, hx⟩
      · rintro (hx | ⟨rv', hrv', hvk, hx⟩)
        · exact Or.inl hx
        · rcases List.mem_cons.mp hrv' with rfl | hrv''
          · exact absurd hvk.symm hk
          · exact Or.inr ⟨rv', hrv'', hvk, hx⟩

theorem maps_sources_mem (results : List resolver.resolvedVersionResult) :
    ∀ (acc : resolver.StrSetMap × resolver.StrSetMap) (vk : resolver.versionKey)
      (x : String),
      x ∈ (((results.foldl resolver.addResult acc).2.lookup vk).getD []) ↔
        x ∈ ((acc.2.lookup vk).getD []) ∨
          ∃ rv ∈ results, resolver.vkOf rv = vk ∧ x = rv.ManifestSource := by
  induction results with
  | nil =>
    intro acc vk x
    simp
  | cons rv rest ih =>
    intro acc vk x
    rw [List.foldl_cons, ih]
    by_cases hk : vk = resolver.vkOf rv
    · subst hk
      rw [addResult_snd, mapUpdate_lookup_self]
      simp only [Option.getD_some]
      rw [setInsert_mem]
      constructor
      · rintro ((hx | hx) | ⟨rv', hrv', hvk, hx⟩)
        · exact Or.inl hx
        · exact Or.inr ⟨rv, by simp, rfl, hx⟩
        · exact Or.inr ⟨rv', by simp [hrv'], hvk, hx⟩
      · rintro (hx | ⟨rv', hrv', hvk, hx⟩)
        · exact Or.inl (Or.inl hx)
        · rcases List.mem_cons.mp hrv' with rfl | hrv''
          · exact Or.inl (Or.inr hx)
          · exact Or.inr ⟨rv', hrv'', hvk, hx⟩
    · rw [addResult_snd, mapUpdate_lookup_ne _ _ _ _ hk]
      constructor
      · rintro (hx | ⟨rv', hrv', hvk, hx⟩)
        · exact Or.inl hx
        · exact Or.inr ⟨rv', by simp [hrv'], hvk, hx⟩
      · rintro (hx | ⟨rv', hrv', hvk, hx⟩)
        · exact Or.inl hx
        · rcases List.mem_cons.mp hrv' with rfl | hrv''
          · exact absurd hvk.symm hk
          · exact Or.inr ⟨rv', hrv'', hvk, hx⟩


/-! ## Selection under a stable sort: the chosen version is a function of
the snapshot and the semver-equivalence class -/

theorem matchingOf_eq (lib : VersionLib V C) (c : C) (pvs : registry.ProviderVersions) :
    resolver.matchingOf lib c pvs = pvs.Versions.filterMap
      (fun pv => match lib.parse pv.Version with
        | none => none
        | some v => if lib.check c v then some (pv.Version, v) else none) := rfl

theorem matchingOf_mem (lib : VersionLib V C) (c : C) (pvs : registry.ProviderVersions)
    (p : String × V) (h : p ∈ resolver.matchingOf lib c pvs) :
    lib.parse p.1 = some p.2 ∧ lib.check c p.2 = true := by
  rw [matchingOf_eq] at h
  obtain ⟨pv, _, hf⟩ := List.mem_filterMap.mp h
  cases hp : lib.parse pv.Version with
  | none => rw [hp] at hf; cases hf
  | some v =>
    rw [hp] at hf
    dsimp only at hf
    by_cases hc : lib.check c v = true
    · rw [if_pos hc] at hf
      have := Option.some.inj hf
      rw [← this]
      exact ⟨hp, hc⟩
    · rw [if_neg hc] at hf
      cases hf

theorem find?_congr_mem {α : Type u_1} (p q : α → Bool) :
    ∀ l : List α, (∀ a ∈ l, p a = q a) → l.find? p = l.find? q := by
  intro l
  induction l with
  | nil => intro _; rfl
  | cons a rest ih =>
    intro h
    rw [List.find?_cons, List.find?_cons, h a (by simp)]
    cases hq : q a
    · exact ih (fun x hx => h x (by simp [hx]))
    · rfl

theorem find?_filterMap {α β : Type u_1} (f : α → Option β) (p : β → Bool) :
    ∀ l : List α, (l.filterMap f).find? p =
      l.findSome? (fun x => match f x with
        | some y => if p y then some y else none
        | none => none) := by
  intro l
  induction l with
  | nil => rfl
  | cons a rest ih =>
    cases hfa : f a with
    | none =>
      rw [List.filterMap_cons, hfa, List.findSome?_cons, hfa]
      exact ih
    | some b =>
      rw [List.filterMap_cons, hfa, List.findSome?_cons, hfa]
      dsimp only
      rw [List.find?_cons]
      cases hpb : p b with
      | true => simp [hpb]
      | false =>
        simp only [hpb, Bool.false_eq_true, if_false]
        exact ih

theorem find?_filterMap_congr {α β : Type u_1} (f g : α → Option β) (p q : β → Bool)
    (h : ∀ x, (match f x with
        | some y => if p y then some y else none
        | none => none) =
      (match g x with
        | some y => if q y then some y else none
        | none => none)) :
    ∀ l : List α, (l.filterMap f).find? p = (l.filterMap g).find? q := by
  intro l
  induction l with
  | nil => rfl
  | cons a rest ih =>
    rw [List.filterMap_cons, List.filterMap_cons]
    cases hfa : f a with
    | none =>
      cases hga : g a with
      | none => exact ih
      | some b' =>
        cases hqb : q b' with
        | true =>
          have ha := h a
          rw [hfa, hga] at ha
          dsimp only at ha
          rw [hqb] at ha
          simp at ha
        | false =>
          rw [List.find?_cons, hqb]
          exact ih
    | some b =>
      cases hga : g a with
      | none =>
        cases hpb : p b with
        | true =>
          have ha := h a
          rw [hfa, hga] at ha
          dsimp only at ha
          rw [hpb] at ha
          simp at ha
        | false =>
          rw [List.find?_cons, hpb]
          exact ih
      | some b' =>
        rw [List.find?_cons, List.find?_cons]
        cases hpb : p b with
        | true =>
          cases hqb : q b' with
          | true =>
            have hbb : b = b' := by
              have ha := h a
              rw [hfa, hga] at ha
              dsimp only at ha
              rw [hpb, hqb] at ha
              simpa using ha
            rw [hbb]
          | false =>
            have ha := h a
            rw [hfa, hga] at ha
            dsimp only at ha
            rw [hpb, hqb] at ha
            simp at ha
        | false =>
          cases hqb : q b' with
          | true =>
            have ha := h a
            rw [hfa, hga] at ha
            dsimp only at ha
            rw [hpb, hqb] at ha
            simp at ha
          | false => exact ih

theorem selection_equiv_pred (lib : VersionLib V C) (hlaw : lib.Lawful)
    (m : List (String × V)) (s : String × V)
    (hfind : m.find? (fun a => m.all fun b => !lib.gt b.2 a.2) = some s) :
    ∀ a ∈ m, (m.all fun b => !lib.gt b.2 a.2) =
      (!lib.gt a.2 s.2 && !lib.gt s.2 a.2) := by
  have hps := List.find?_some hfind
  have hsm := List.mem_of_find?_eq_some hfind
  have hall_s : ∀ b ∈ m, lib.gt b.2 s.2 = false := by
    intro b hb
    have := List.all_eq_true.mp hps b hb
    simpa using this
  intro a ha
  cases hpa : (m.all fun b => !lib.gt b.2 a.2) with
  | true =>
    have hall_a : ∀ b ∈ m, lib.gt b.2 a.2 = false := by
      intro b hb
      have := List.all_eq_true.mp hpa b hb
      simpa using this
    simp [hall_s a ha, hall_a s hsm]
  | false =>
    cases he : (!lib.gt a.2 s.2 && !lib.gt s.2 a.2) with
    | false => rfl
    | true =>
      exfalso
      obtain ⟨h1, h2⟩ : lib.gt a.2 s.2 = false ∧ lib.gt s.2 a.2 = false := by
        simpa using he
      have hTrue : (m.all fun b => !lib.gt b.2 a.2) = true := by
        rw [List.all_eq_true]
        intro b hb
        cases hgt : lib.gt b.2 a.2 with
        | false => simp [hgt]
        | true =>
          rcases hlaw.gt_negtrans b.2 s.2 a.2 hgt with hx | hy
          · rw [hall_s b hb] at hx; cases hx
          · rw [h2] at hy; cases hy
      rw [hTrue] at hpa
      cases hpa

theorem selection_unique (lib : VersionLib V C) (hlaw : lib.Lawful)
    (pvs : registry.ProviderVersions) (c₁ c₂ : C) (s₁ s₂ : String × V)
    (h₁ : (resolver.matchingOf lib c₁ pvs).find?
        (fun a => (resolver.matchingOf lib c₁ pvs).all fun b => !lib.gt b.2 a.2) =
      some s₁)
    (h₂ : (resolver.matchingOf lib c₂ pvs).find?
        (fun a => (resolver.matchingOf lib c₂ pvs).all fun b => !lib.gt b.2 a.2) =
      some s₂)
    (hgt₁ : lib.gt s₁.2 s₂.2 = false) (hgt₂ : lib.gt s₂.2 s₁.2 = false) :
    s₁ = s₂ := by
  have hmem₁ := List.mem_of_find?_eq_some h₁
  have hmem₂ := List.mem_of_find?_eq_some h₂
  obtain ⟨hparse₁, hcheck₁⟩ := matchingOf_mem lib c₁ pvs s₁ hmem₁
  obtain ⟨hparse₂, hcheck₂⟩ := matchingOf_mem lib c₂ pvs s₂ hmem₂
  have e₁ : (resolver.matchingOf lib c₁ pvs).find?
      (fun a => !lib.gt a.2 s₁.2 && !lib.gt s₁.2 a.2) = some s₁ := by
    rw [← find?_congr_mem _ _ _ (selection_equiv_pred lib hlaw _ s₁ h₁)]
    exact h₁
  have e₂' : (resolver.matchingOf lib c₂ pvs).find?
      (fun a => !lib.gt a.2 s₂.2 && !lib.gt s₂.2 a.2) = some s₂ := by
    rw [← find?_congr_mem _ _ _ (selection_equiv_pred lib hlaw _ s₂ h₂)]
    exact h₂
  have hga : ∀ v, lib.gt v s₂.2 = lib.gt v s₁.2 := by
    intro v
    cases hx : lib.gt v s₁.2 with
    | true =>
      rcases hlaw.gt_negtrans v s₂.2 s₁.2 hx with h | h
      · exact h
      · rw [hgt₂] at h; cases h
    | false =>
      cases hy : lib.gt v s₂.2 with
      | false => rfl
      | true =>
        rcases hlaw.gt_negtrans v s₁.2 s₂.2 hy with h | h
        · rw [hx] at h; cases h
        · rw [hgt₁] at h; cases h
  have hgb : ∀ v, lib.gt s₂.2 v = lib.gt s₁.2 v := by
    intro v
    cases hx : lib.gt s₁.2 v with
    | true =>
      rcases hlaw.gt_negtrans s₁.2 s₂.2 v hx with h | h
      · rw [hgt₁] at h; cases h
      · exact h
    | false =>
      cases hy : lib.gt s₂.2 v with
      | false => rfl
      | true =>
        rcases hlaw.gt_negtrans s₂.2 s₁.2 v hy with h | h
        · rw [hgt₂] at h; cases h
        · rw [hx] at h; cases h
  have e₂ : (resolver.matchingOf lib c₂ pvs).find?
      (fun a => !lib.gt a.2 s₁.2 && !lib.gt s₁.2 a.2) = some s₂ := by
    rw [← e₂']
    exact (find?_congr_mem _ _ _ (fun a _ => by rw [hga a.2, hgb a.2])).symm
  have hequiv_check : ∀ v : V, (!lib.gt v s₁.2 && !lib.gt s₁.2 v) = true →
      lib.check c₁ v = true ∧ lib.check c₂ v = true := by
    intro v hv
    obtain ⟨hv1, hv2⟩ : lib.gt v s₁.2 = false ∧ lib.gt s₁.2 v = false := by
      simpa using hv
    constructor
    · rw [hlaw.check_congr c₁ v s₁.2 hv1 hv2]
      exact hcheck₁
    · have hv1b : lib.gt v s₂.2 = false := by rw [hga]; exact hv1
      have hv2b : lib.gt s₂.2 v = false := by rw [hgb]; exact hv2
      rw [hlaw.check_congr c₂ v s₂.2 hv1b hv2b]
      exact hcheck₂
  have key : (resolver.matchingOf lib c₁ pvs).find?
      (fun a => !lib.gt a.2 s₁.2 && !lib.gt s₁.2 a.2) =
      (resolver.matchingOf lib c₂ pvs).find?
      (fun a => !lib.gt a.2 s₁.2 && !lib.gt s₁.2 a.2) := by
    rw [matchingOf_eq lib c₁, matchingOf_eq lib c₂]
    apply find?_filterMap_congr
    intro pv
    cases hp : lib.parse pv.Version with
    | none => rfl
    | some v =>
      dsimp only
      cases hE : (!lib.gt v s₁.2 && !lib.gt s₁.2 v) with
      | true =>
        obtain ⟨hc₁, hc₂⟩ := hequiv_check v hE
        simp [hc₁, hc₂, hE]
      | false =>
        by_cases hc₁ : lib.check c₁ v = true <;>
          by_cases hc₂ : lib.check c₂ v = true <;>
            simp [hc₁, hc₂, hE]
  rw [key] at e₁
  rw [e₁] at e₂
  exact Option.some.inj e₂

theorem resolveExpansion_select (lib : VersionLib V C) (hlaw : lib.Lawful)
    (reg : RegistrySnapshot) (constraintStr : String) (constraint : C)
    (ep : manifest.ExpandedProvider) (rv : resolver.resolvedVersionResult)
    (h : resolver.resolveExpansion lib reg constraintStr constraint ep = .ok rv) :
    rv.Provider = ep.Source ∧
    ∃ pvs, reg rv.Provider.Hostname rv.Provider.Namespace rv.Provider.Name =
        Except.ok pvs ∧
      ∃ v, lib.parse rv.Version = some v ∧
        (resolver.matchingOf lib constraint pvs).find?
          (fun a => (resolver.matchingOf lib constraint pvs).all
            fun b => !lib.gt b.2 a.2) = some (rv.Version, v) := by
  rw [resolver.resolveExpansion] at h
  cases hreg : reg ep.Source.Hostname ep.Source.Namespace ep.Source.Name with
  | error e => rw [hreg] at h; cases h
  | ok pvs =>
    rw [hreg] at h
    dsimp only at h
    cases hsort : sortGo (fun a b : String × V => lib.gt a.2 b.2)
        (resolver.matchingOf lib constraint pvs) with
    | nil => rw [hsort] at h; cases h
    | cons sel rest =>
      rw [hsort] at h
      dsimp only at h
      have hhead : (sortGo (fun a b : String × V => lib.gt a.2 b.2)
          (resolver.matchingOf lib constraint pvs)).head? = some sel := by
        rw [hsort]; rfl
      rw [sortGo_head_find (fun (a b : String × V) => lib.gt a.2 b.2)
          (fun (a b : String × V) hab => hlaw.gt_asymm a.2 b.2 hab)
          (fun (a b c : String × V) hac => hlaw.gt_negtrans a.2 b.2 c.2 hac)] at hhead
      cases hcp : resolver.checkPlatforms ep.Source.render sel.1
          ((resolver.platformsForVersion lib constraint pvs sel.1).map
            registry.ProviderPlatform.render) ep.Platforms with
      | error e => rw [hcp] at h; cases h
      | ok ps =>
        rw [hcp] at h
        dsimp only at h
        cases h
        refine ⟨rfl, pvs, hreg, sel.2, ?_, ?_⟩
        · have hm := List.mem_of_find?_eq_some hhead
          exact (matchingOf_mem lib constraint pvs sel hm).1
        · dsimp only
          rw [Prod.mk.eta]
          exact hhead

theorem resolveExpansions_mem (lib : VersionLib V C) (reg : RegistrySnapshot)
    (constraintStr : String) (constraint : C) :
    ∀ (eps : List manifest.ExpandedProvider) (rs : List resolver.resolvedVersionResult),
      resolver.resolveExpansions lib reg constraintStr constraint eps = .ok rs →
      ∀ rv ∈ rs, ∃ ep, resolver.resolveExpansion lib reg constraintStr constraint ep =
        .ok rv := by
  intro eps
  induction eps with
  | nil =>
    intro rs h rv hrv
    rw [resolver.resolveExpansions] at h
    rw [← Except.ok.inj h] at hrv
    cases hrv
  | cons ep rest ih =>
    intro rs h rv hrv
    rw [resolver.resolveExpansions] at h
    cases he : resolver.resolveExpansion lib reg constraintStr constraint ep with
    | error e => rw [he] at h; cases h
    | ok r =>
      rw [he] at h
      cases hrest : resolver.resolveExpansions lib reg constraintStr constraint rest with
      | error e => rw [hrest] at h; cases h
      | ok rs' =>
        rw [hrest] at h
        rw [← Except.ok.inj h] at hrv
        rcases List.mem_cons.mp hrv with rfl | hrv'
        · exact ⟨ep, he⟩
        · exact ih rs' hrest rv hrv'

theorem resolveConstraintGroup_mem (lib : VersionLib V C) (reg : RegistrySnapshot)
    (constraintStr : String) (eps : List manifest.ExpandedProvider)
    (rs : List resolver.resolvedVersionResult)
    (h : resolver.resolveConstraintGroup lib reg constraintStr eps = .ok rs) :
    ∀ rv ∈ rs, ∃ c, lib.parseC constraintStr = some c ∧
      ∃ ep, resolver.resolveExpansion lib reg constraintStr c ep = .ok rv := by
  intro rv hrv
  rw [resolver.resolveConstraintGroup] at h
  by_cases hlen : eps.length = 0
  · rw [if_pos hlen] at h
    rw [← Except.ok.inj h] at hrv
    cases hrv
  · rw [if_neg hlen] at h
    cases hpc : lib.parseC constraintStr with
    | none => rw [hpc] at h; cases h
    | some c =>
      rw [hpc] at h
      obtain ⟨ep, hep⟩ := resolveExpansions_mem lib reg constraintStr c eps rs h rv hrv
      exact ⟨c, rfl, ep, hep⟩

theorem groupResultsOf_mem (lib : VersionLib V C) (reg : RegistrySnapshot)
    (l : List resolver.constraintGroup) (rv : resolver.resolvedVersionResult)
    (h : rv ∈ resolver.groupResultsOf lib reg l) :
    ∃ constraintStr c ep, lib.parseC constraintStr = some c ∧
      resolver.resolveExpansion lib reg constraintStr c ep = .ok rv := by
  rw [resolver.groupResultsOf] at h
  obtain ⟨cg, _, hmem⟩ := List.mem_flatMap.mp h
  cases hcg : resolver.resolveConstraintGroup lib reg cg.constraint cg.expansions with
  | error e => rw [hcg] at hmem; cases hmem
  | ok r =>
    rw [hcg] at hmem
    obtain ⟨c, hc, ep, hep⟩ :=
      resolveConstraintGroup_mem lib reg cg.constraint cg.expansions r hcg rv hmem
    exact ⟨cg.constraint, c, ep, hc, hep⟩


/-! ## Characterization of `buildResolution`'s grouping fold -/

theorem groupStep_eq (sm : resolver.StrSetMap)
    (grouped : List (resolver.providerKey × List (String × resolver.versionData)))
    (entry : resolver.versionKey × List String) :
    resolver.groupStep sm grouped entry =
      mapUpdate (resolver.pkOf entry.1) []
        (mapUpdate entry.1.version { platforms := [], sources := [] } fun vd =>
          { platforms := sortGo strLess ((vd.platforms ++ entry.2).foldl setInsert [])
            sources := sortGo strLess
              ((vd.sources ++ ((sm.lookup entry.1).getD [])).foldl setInsert []) })
        grouped := rfl

theorem lookup_cons_self {κ β : Type} [DecidableEq κ] (k : κ) (v : β) (m : List (κ × β)) :
    List.lookup k ((k, v) :: m) = some v := by
  simp [List.lookup]

theorem lookup_cons_ne {κ β : Type} [DecidableEq κ] (k : κ) (kv : κ × β)
    (m : List (κ × β)) (h : k ≠ kv.1) : List.lookup k (kv :: m) = List.lookup k m := by
  obtain ⟨k', v⟩ := kv
  have hbeq : (k == k') = false := by simpa using h
  simp [List.lookup, hbeq]

theorem grouped_keys_mem (sm : resolver.StrSetMap) :
    ∀ (vm : resolver.StrSetMap)
      (acc : List (resolver.providerKey × List (String × resolver.versionData)))
      (pk : resolver.providerKey),
      pk ∈ (vm.foldl (resolver.groupStep sm) acc).map (·.1) ↔
        pk ∈ acc.map (·.1) ∨ ∃ vk ∈ vm.map (·.1), resolver.pkOf vk = pk := by
  intro vm
  induction vm with
  | nil => intro acc pk; simp
  | cons e rest ih =>
    intro acc pk
    rw [List.foldl_cons, ih, groupStep_eq, mem_keys_mapUpdate]
    constructor
    · rintro ((h | rfl) | ⟨vk, hvk, hpk⟩)
      · exact Or.inl h
      · exact Or.inr ⟨e.1, by simp, rfl⟩
      · exact Or.inr ⟨vk, by simp [hvk], hpk⟩
    · rintro (h | ⟨vk, hvk, hpk⟩)
      · exact Or.inl (Or.inl h)
      · rw [List.map_cons] at hvk
        rcases List.mem_cons.mp hvk with rfl | hvk'
        · exact Or.inl (Or.inr hpk.symm)
        · exact Or.inr ⟨vk, hvk', hpk⟩

theorem grouped_keys_nodup (sm : resolver.StrSetMap) (vm : resolver.StrSetMap) :
    ((vm.foldl (resolver.groupStep sm) []).map (·.1)).Nodup := by
  have := foldl_invariant
    (P := fun acc : List (resolver.providerKey × List (String × resolver.versionData)) =>
      (acc.map (·.1)).Nodup)
    (resolver.groupStep sm)
    (fun acc e h => by rw [groupStep_eq]; exact mapUpdate_noDupKeys _ _ _ _ h)
    vm [] List.nodup_nil
  exact this

theorem grouped_inner_nodup (sm : resolver.StrSetMap) (vm : resolver.StrSetMap) :
    ∀ pk, ((((vm.foldl (resolver.groupStep sm) []).lookup pk).getD []).map
      (·.1)).Nodup := by
  have := foldl_invariant
    (P := fun acc : List (resolver.providerKey × List (String × resolver.versionData)) =>
      ∀ pk, (((acc.lookup pk).getD []).map (·.1)).Nodup)
    (resolver.groupStep sm)
    (fun acc e h pk => by
      rw [groupStep_eq]
      by_cases hpk : pk = resolver.pkOf e.1
      · subst hpk
        rw [mapUpdate_lookup_self]
        simp only [Option.getD_some]
        exact mapUpdate_noDupKeys _ _ _ _ (h _)
      · rw [mapUpdate_lookup_ne _ _ _ _ hpk]
        exact h pk)
    vm [] (fun pk => by simp)
  exact this

theorem grouped_inner_keys_mem (sm : resolver.StrSetMap) :
    ∀ (vm : resolver.StrSetMap)
      (acc : List (resolver.providerKey × List (String × resolver.versionData)))
      (pk : resolver.providerKey) (version : String),
      version ∈ ((((vm.foldl (resolver.groupStep sm) acc).lookup pk).getD []).map
          (·.1)) ↔
        version ∈ (((acc.lookup pk).getD []).map (·.1)) ∨
          (⟨pk.hostname, pk.ns, pk.name, version⟩ : resolver.versionKey) ∈
            vm.map (·.1) := by
  intro vm
  induction vm with
  | nil => intro acc pk version; simp
  | cons e rest ih =>
    intro acc pk version
    rw [List.foldl_cons, ih]
    by_cases hpk : pk = resolver.pkOf e.1
    · subst hpk
      rw [groupStep_eq, mapUpdate_lookup_self]
      simp only [Option.getD_some]
      rw [mem_keys_mapUpdate]
      constructor
      · rintro ((h | rfl) | h)
        · exact Or.inl h
        · refine Or.inr ?_
          rw [List.map_cons]
          refine List.mem_cons.mpr (Or.inl ?_)
          obtain ⟨⟨h1, h2, h3, h4⟩, val⟩ := e
          rfl
        · exact Or.inr (by rw [List.map_cons]; exact List.mem_cons.mpr (Or.inr h))
      · rintro (h | h)
        · exact Or.inl (Or.inl h)
        · rw [List.map_cons] at h
          rcases List.mem_cons.mp h with heq | h'
          · refine Or.inl (Or.inr ?_)
            have := congrArg resolver.versionKey.version heq
            exact this
          · exact Or.inr h'
    · rw [groupStep_eq, mapUpdate_lookup_ne _ _ _ _ hpk]
      constructor
      · rintro (h | h)
        · exact Or.inl h
        · exact Or.inr (by rw [List.map_cons]; exact List.mem_cons.mpr (Or.inr h))
      · rintro (h | h)
        · exact Or.inl h
        · rw [List.map_cons] at h
          rcases List.mem_cons.mp h with heq | h'
          · exfalso
            apply hpk
            rw [← heq]
            rfl
          · exact Or.inr h'

theorem grouped_slot_none (sm : resolver.StrSetMap) :
    ∀ (vm : resolver.StrSetMap)
      (acc : List (resolver.providerKey × List (String × resolver.versionData)))
      (pk : resolver.providerKey) (version : String),
      (∀ vk' ∈ vm.map (·.1),
        vk' ≠ (⟨pk.hostname, pk.ns, pk.name, version⟩ : resolver.versionKey)) →
      ((((vm.foldl (resolver.groupStep sm) acc).lookup pk).getD []).lookup version) =
        ((((acc.lookup pk).getD []).lookup version)) := by
  intro vm
  induction vm with
  | nil => intro acc pk version _; rfl
  | cons e rest ih =>
    intro acc pk version hne
    rw [List.foldl_cons]
    have hrest : ∀ vk' ∈ rest.map (·.1),
        vk' ≠ (⟨pk.hostname, pk.ns, pk.name, version⟩ : resolver.versionKey) := by
      intro vk' hvk'
      exact hne vk' (by rw [List.map_cons]; exact List.mem_cons.mpr (Or.inr hvk'))
    rw [ih _ pk version hrest]
    by_cases hpk : pk = resolver.pkOf e.1
    · subst hpk
      rw [groupStep_eq, mapUpdate_lookup_self]
      simp only [Option.getD_some]
      have hver : version ≠ e.1.version := by
        intro hv
        apply hne e.1 (by rw [List.map_cons]; exact List.mem_cons.mpr (Or.inl rfl))
        obtain ⟨⟨h1, h2, h3, h4⟩, val⟩ := e
        subst hv
        rfl
      rw [mapUpdate_lookup_ne _ _ _ _ hver]
    · rw [groupStep_eq, mapUpdate_lookup_ne _ _ _ _ hpk]

theorem grouped_slot_value (sm : resolver.StrSetMap) :
    ∀ (vm : resolver.StrSetMap), (vm.map (·.1)).Nodup →
      ∀ (acc : List (resolver.providerKey × List (String × resolver.versionData)))
        (vk : resolver.versionKey), vk ∈ vm.map (·.1) →
      ((((acc.lookup (resolver.pkOf vk)).getD []).lookup vk.version)) = none →
      ((((vm.foldl (resolver.groupStep sm) acc).lookup (resolver.pkOf vk)).getD
          []).lookup vk.version) =
        some { platforms := sortGo strLess (((vm.lookup vk).getD []).foldl setInsert [])
               sources :=
                 sortGo strLess (((sm.lookup vk).getD []).foldl setInsert []) } := by
  intro vm
  induction vm with
  | nil =>
    intro _ acc vk hvk _
    simp at hvk
  | cons e rest ih =>
    intro hnd acc vk hvk hnone
    rw [List.map_cons] at hvk hnd
    rw [List.foldl_cons]
    rcases List.mem_cons.mp hvk with heq | hvk'
    · -- vk is the head entry
      have hrest : ∀ vk' ∈ rest.map (·.1),
          vk' ≠ (⟨(resolver.pkOf vk).hostname, (resolver.pkOf vk).ns,
            (resolver.pkOf vk).name, vk.version⟩ : resolver.versionKey) := by
        intro vk' hvk' hcontra
        have hvketa : (⟨(resolver.pkOf vk).hostname, (resolver.pkOf vk).ns,
            (resolver.pkOf vk).name, vk.version⟩ : resolver.versionKey) = vk := rfl
        rw [hvketa] at hcontra
        subst hcontra
        rw [heq] at hvk'
        exact (List.nodup_cons.mp hnd).1 hvk'
      rw [grouped_slot_none sm rest _ _ _ hrest]
      subst heq
      rw [groupStep_eq, mapUpdate_lookup_self]
      simp only [Option.getD_some]
      rw [mapUpdate_lookup_self, hnone]
      simp only [Option.getD_none]
      have hlk : List.lookup e.1 (e :: rest) = some e.2 := by
        obtain ⟨k, v⟩ := e
        exact lookup_cons_self k v rest
      rw [hlk]
      simp only [Option.getD_some, List.nil_append]
    · -- vk is in the tail
      have hne : e.1 ≠ vk := by
        intro h
        rw [h] at hnd
        exact (List.nodup_cons.mp hnd).1 hvk'
      have hlk : List.lookup vk (e :: rest) = List.lookup vk rest :=
        lookup_cons_ne vk e rest (Ne.symm hne)
      rw [hlk]
      apply ih (List.nodup_cons.mp hnd).2 _ vk hvk'
      rw [groupStep_eq]
      by_cases hpk : resolver.pkOf vk = resolver.pkOf e.1
      · rw [hpk, mapUpdate_lookup_self]
        simp only [Option.getD_some]
        have hver : vk.version ≠ e.1.version := by
          intro hv
          apply hne
          obtain ⟨h1, h2, h3, h4⟩ := vk
          obtain ⟨⟨g1, g2, g3, g4⟩, val⟩ := e
          have e1 := congrArg resolver.providerKey.hostname hpk
          have e2 := congrArg resolver.providerKey.ns hpk
          have e3 := congrArg resolver.providerKey.name hpk
          simp [resolver.pkOf] at e1 e2 e3
          simp at hv
          rw [e1, e2, e3, hv]
        rw [mapUpdate_lookup_ne _ _ _ _ hver]
        rw [← hpk]
        exact hnone
      · rw [mapUpdate_lookup_ne _ _ _ _ hpk]
        exact hnone


/-! ## Sort canonicality relative to the sorted list's members -/

theorem insertGo_pairwise_mem (less : α → α → Bool) (l₀ : List α)
    (hasym : ∀ a ∈ l₀, ∀ b ∈ l₀, less a b = true → less b a = false)
    (hneg : ∀ a ∈ l₀, ∀ b ∈ l₀, ∀ c ∈ l₀,
      less a c = true → less a b = true ∨ less b c = true)
    (x : α) (hx : x ∈ l₀) :
    ∀ l : List α, (∀ z ∈ l, z ∈ l₀) →
      l.Pairwise (fun a b => less b a = false) →
      (insertGo less x l).Pairwise (fun a b => less b a = false) := by
  intro l
  induction l with
  | nil => intro _ _; simp [insertGo]
  | cons y ys ih =>
    intro hsub hl
    have hy₀ : y ∈ l₀ := hsub y (by simp)
    rcases List.pairwise_cons.mp hl with ⟨hy, hys⟩
    cases h : less y x with
    | true =>
      simp only [insertGo, h, if_true]
      refine List.pairwise_cons.mpr ⟨?_, ih (fun z hz => hsub z (by simp [hz])) hys⟩
      intro z hz
      rcases (mem_insertGo less x ys z).mp hz with rfl | hz
      · exact hasym y hy₀ z hx h
      · exact hy z hz
    | false =>
      simp only [insertGo, h]
      simp only [if_false, Bool.false_eq_true]
      refine List.pairwise_cons.mpr ⟨?_, hl⟩
      intro z hz
      rcases List.mem_cons.mp hz with rfl | hz
      · exact h
      · cases hzx : less z x with
        | false => rfl
        | true =>
          have hz₀ : z ∈ l₀ := hsub z (by simp [hz])
          rcases hneg z hz₀ y hy₀ x hx hzx with hzy | hyx
          · have := hy z hz
            rw [this] at hzy
            exact absurd hzy Bool.false_ne_true
          · rw [h] at hyx
            exact absurd hyx Bool.false_ne_true

theorem sortGo_pairwise_mem (less : α → α → Bool) (l₀ : List α)
    (hasym : ∀ a ∈ l₀, ∀ b ∈ l₀, less a b = true → less b a = false)
    (hneg : ∀ a ∈ l₀, ∀ b ∈ l₀, ∀ c ∈ l₀,
      less a c = true → less a b = true ∨ less b c = true) :
    ∀ l : List α, (∀ z ∈ l, z ∈ l₀) →
      (sortGo less l).Pairwise (fun a b => less b a = false) := by
  intro l
  induction l with
  | nil => intro _; simp [sortGo]
  | cons x xs ih =>
    intro hsub
    refine insertGo_pairwise_mem less l₀ hasym hneg x (hsub x (by simp)) _ ?_
      (ih (fun z hz => hsub z (by simp [hz])))
    intro z hz
    exact hsub z (by simp [(sortGo_perm less xs).mem_iff.mp hz])

theorem sortGo_canonical_mem (less : α → α → Bool) (l₁ l₂ : List α)
    (hperm : List.Perm l₁ l₂)
    (hasym : ∀ a ∈ l₁, ∀ b ∈ l₁, less a b = true → less b a = false)
    (hneg : ∀ a ∈ l₁, ∀ b ∈ l₁, ∀ c ∈ l₁,
      less a c = true → less a b = true ∨ less b c = true)
    (hanti : ∀ a ∈ l₁, ∀ b ∈ l₁, less a b = false → less b a = false → a = b) :
    sortGo less l₁ = sortGo less l₂ := by
  have p₁ := sortGo_perm less l₁
  have p₂ := sortGo_perm less l₂
  refine eq_of_perm_of_pairwise (fun a b => less b a = false) _ _
      (p₁.trans (hperm.trans p₂.symm))
      (sortGo_pairwise_mem less l₁ hasym hneg l₁ (fun z hz => hz)) ?_ ?_
  · exact sortGo_pairwise_mem less l₁ hasym hneg l₂
      (fun z hz => hperm.symm.subset hz)
  · intro a ha b hb hab hba
    exact hanti a (p₁.mem_iff.mp ha) b (p₁.mem_iff.mp hb) hba hab

theorem verLess_gt (lib : VersionLib V C) (a b : String) (va vb : V)
    (ha : lib.parse a = some va) (hb : lib.parse b = some vb) :
    resolver.verLess lib a b = lib.gt va vb := by
  rw [resolver.verLess, ha, hb]


/-! ## `buildResolution` depends only on map content -/

theorem buildResolution_eq (lib : VersionLib V C) (vm sm : resolver.StrSetMap) :
    resolver.buildResolution lib vm sm =
      { Providers :=
          (sortGo resolver.pkLess
              ((vm.foldl (resolver.groupStep sm) []).map (·.1))).map
            fun pk =>
              { Source := { Hostname := pk.hostname, Namespace := pk.ns,
                            Name := pk.name }
                Versions :=
                  (sortGo (resolver.verLess lib)
                      ((((vm.foldl (resolver.groupStep sm) []).lookup pk).getD
                        []).map (·.1))).map
                    fun v =>
                      { Version := v
                        Platforms :=
                          ((((((vm.foldl (resolver.groupStep sm) []).lookup pk).getD
                            []).lookup v).getD
                            { platforms := [], sources := [] })).platforms
                        ManifestSources :=
                          ((((((vm.foldl (resolver.groupStep sm) []).lookup pk).getD
                            []).lookup v).getD
                            { platforms := [], sources := [] })).sources } } } := rfl

theorem buildResolution_congr (lib : VersionLib V C)
    (vm₁ sm₁ vm₂ sm₂ : resolver.StrSetMap)
    (hnd₁ : (vm₁.map (·.1)).Nodup) (hnd₂ : (vm₂.map (·.1)).Nodup)
    (hkeys : ∀ vk : resolver.versionKey, vk ∈ vm₁.map (·.1) ↔ vk ∈ vm₂.map (·.1))
    (hvm : ∀ (vk : resolver.versionKey) (x : String),
      x ∈ ((vm₁.lookup vk).getD []) ↔ x ∈ ((vm₂.lookup vk).getD []))
    (hsm : ∀ (vk : resolver.versionKey) (x : String),
      x ∈ ((sm₁.lookup vk).getD []) ↔ x ∈ ((sm₂.lookup vk).getD []))
    (hparse : ∀ vk ∈ vm₁.map (·.1), ∃ v, lib.parse vk.version = some v)
    (hasymV : ∀ va vb : V, lib.gt va vb = true → lib.gt vb va = false)
    (hnegV : ∀ va vb vc : V,
      lib.gt va vc = true → lib.gt va vb = true ∨ lib.gt vb vc = true)
    (htie : ∀ vk₁ ∈ vm₁.map (·.1), ∀ vk₂ ∈ vm₁.map (·.1),
      resolver.pkOf vk₁ = resolver.pkOf vk₂ → vk₁.version ≠ vk₂.version →
      resolver.verLess lib vk₁.version vk₂.version = true ∨
        resolver.verLess lib vk₂.version vk₁.version = true) :
    resolver.buildResolution lib vm₁ sm₁ = resolver.buildResolution lib vm₂ sm₂ := by
  have hg₁nd := grouped_keys_nodup sm₁ vm₁
  have hg₂nd := grouped_keys_nodup sm₂ vm₂
  have hmemk : ∀ pk, pk ∈ (vm₁.foldl (resolver.groupStep sm₁) []).map (·.1) ↔
      pk ∈ (vm₂.foldl (resolver.groupStep sm₂) []).map (·.1) := by
    intro pk
    rw [grouped_keys_mem, grouped_keys_mem]
    simp only [List.map_nil, List.not_mem_nil, false_or]
    constructor
    · rintro ⟨vk, hvk, hpk⟩
      exact ⟨vk, (hkeys vk).mp hvk, hpk⟩
    · rintro ⟨vk, hvk, hpk⟩
      exact ⟨vk, (hkeys vk).mpr hvk, hpk⟩
  have hpkperm : ((vm₁.foldl (resolver.groupStep sm₁) []).map (·.1)).Perm
      ((vm₂.foldl (resolver.groupStep sm₂) []).map (·.1)) :=
    (List.perm_ext_iff_of_nodup hg₁nd hg₂nd).mpr hmemk
  have hPK : sortGo resolver.pkLess
      ((vm₁.foldl (resolver.groupStep sm₁) []).map (·.1)) =
      sortGo resolver.pkLess
      ((vm₂.foldl (resolver.groupStep sm₂) []).map (·.1)) := by
    refine sortGo_canonical resolver.pkLess pkLess_asymm pkLess_negtrans _ _ hpkperm ?_
    intro a _ b _ hab hba
    by_contra hne
    rcases pkLess_total a b hne with h | h
    · rw [hab] at h; cases h
    · rw [hba] at h; cases h
  rw [buildResolution_eq, buildResolution_eq]
  rw [← hPK]
  refine congrArg resolver.Resolution.mk ?_
  apply List.map_congr_left
  intro pk hpk
  have hpk₁ : pk ∈ (vm₁.foldl (resolver.groupStep sm₁) []).map (·.1) :=
    (sortGo_perm resolver.pkLess _).mem_iff.mp hpk
  have hinmem : ∀ version : String,
      version ∈ (((vm₁.foldl (resolver.groupStep sm₁) []).lookup pk).getD
        []).map (·.1) ↔
      version ∈ (((vm₂.foldl (resolver.groupStep sm₂) []).lookup pk).getD
        []).map (·.1) := by
    intro version
    rw [grouped_inner_keys_mem, grouped_inner_keys_mem]
    simp only [List.lookup_nil, Option.getD_none, List.map_nil, List.not_mem_nil,
      false_or]
    exact hkeys _
  have hinperm : ((((vm₁.foldl (resolver.groupStep sm₁) []).lookup pk).getD
      []).map (·.1)).Perm
      ((((vm₂.foldl (resolver.groupStep sm₂) []).lookup pk).getD []).map (·.1)) :=
    (List.perm_ext_iff_of_nodup (grouped_inner_nodup sm₁ vm₁ pk)
      (grouped_inner_nodup sm₂ vm₂ pk)).mpr hinmem
  have hinvk : ∀ version : String,
      version ∈ (((vm₁.foldl (resolver.groupStep sm₁) []).lookup pk).getD
        []).map (·.1) →
      (⟨pk.hostname, pk.ns, pk.name, version⟩ : resolver.versionKey) ∈
        vm₁.map (·.1) := by
    intro version h
    rw [grouped_inner_keys_mem] at h
    simpa using h
  have hVS : sortGo (resolver.verLess lib)
      ((((vm₁.foldl (resolver.groupStep sm₁) []).lookup pk).getD []).map (·.1)) =
      sortGo (resolver.verLess lib)
      ((((vm₂.foldl (resolver.groupStep sm₂) []).lookup pk).getD []).map (·.1)) := by
    refine sortGo_canonical_mem (resolver.verLess lib) _ _ hinperm ?_ ?_ ?_
    · intro a ha b hb h
      obtain ⟨va, hva⟩ := hparse _ (hinvk a ha)
      obtain ⟨vb, hvb⟩ := hparse _ (hinvk b hb)
      rw [verLess_gt lib a b va vb hva hvb] at h
      rw [verLess_gt lib b a vb va hvb hva]
      exact hasymV va vb h
    · intro a ha b hb c hc h
      obtain ⟨va, hva⟩ := hparse _ (hinvk a ha)
      obtain ⟨vb, hvb⟩ := hparse _ (hinvk b hb)
      obtain ⟨vc, hvc⟩ := hparse _ (hinvk c hc)
      rw [verLess_gt lib a c va vc hva hvc] at h
      rw [verLess_gt lib a b va vb hva hvb, verLess_gt lib b c vb vc hvb hvc]
      exact hnegV va vb vc h
    · intro a ha b hb hab hba
      by_contra hne
      rcases htie _ (hinvk a ha) _ (hinvk b hb) rfl hne with h | h
      · rw [hab] at h; cases h
      · rw [hba] at h; cases h
  refine congrArg₂ (fun s v => resolver.ResolvedProvider.mk s v) rfl ?_
  rw [← hVS]
  apply List.map_congr_left
  intro v hv
  have hv₁ : v ∈ (((vm₁.foldl (resolver.groupStep sm₁) []).lookup pk).getD
      []).map (·.1) := (sortGo_perm (resolver.verLess lib) _).mem_iff.mp hv
  have hkv₁ : (⟨pk.hostname, pk.ns, pk.name, v⟩ : resolver.versionKey) ∈
      vm₁.map (·.1) := hinvk v hv₁
  have hkv₂ : (⟨pk.hostname, pk.ns, pk.name, v⟩ : resolver.versionKey) ∈
      vm₂.map (·.1) := (hkeys _).mp hkv₁
  have hs₁ : (((vm₁.foldl (resolver.groupStep sm₁) []).lookup pk).getD
      []).lookup v = some
      { platforms := sortGo strLess
          (((vm₁.lookup (⟨pk.hostname, pk.ns, pk.name, v⟩ :
            resolver.versionKey)).getD []).foldl setInsert [])
        sources := sortGo strLess
          (((sm₁.lookup (⟨pk.hostname, pk.ns, pk.name, v⟩ :
            resolver.versionKey)).getD []).foldl setInsert []) } :=
    grouped_slot_value sm₁ vm₁ hnd₁ []
      (⟨pk.hostname, pk.ns, pk.name, v⟩ : resolver.versionKey) hkv₁ rfl
  have hs₂ : (((vm₂.foldl (resolver.groupStep sm₂) []).lookup pk).getD
      []).lookup v = some
      { platforms := sortGo strLess
          (((vm₂.lookup (⟨pk.hostname, pk.ns, pk.name, v⟩ :
            resolver.versionKey)).getD []).foldl setInsert [])
        sources := sortGo strLess
          (((sm₂.lookup (⟨pk.hostname, pk.ns, pk.name, v⟩ :
            resolver.versionKey)).getD []).foldl setInsert []) } :=
    grouped_slot_value sm₂ vm₂ hnd₂ []
      (⟨pk.hostname, pk.ns, pk.name, v⟩ : resolver.versionKey) hkv₂ rfl
  rw [hs₁, hs₂]
  simp only [Option.getD_some]
  have hplat : sortGo strLess
      (((vm₁.lookup (⟨pk.hostname, pk.ns, pk.name, v⟩ :
        resolver.versionKey)).getD []).foldl setInsert []) =
      sortGo strLess
      (((vm₂.lookup (⟨pk.hostname, pk.ns, pk.name, v⟩ :
        resolver.versionKey)).getD []).foldl setInsert []) := by
    refine sortGo_canonical strLess strLess_asymm strLess_negtrans _ _ ?_ ?_
    · refine (List.perm_ext_iff_of_nodup (nodup_foldl_setInsert _ _ List.nodup_nil)
        (nodup_foldl_setInsert _ _ List.nodup_nil)).mpr ?_
      intro x
      rw [mem_foldl_setInsert, mem_foldl_setInsert]
      simp only [List.not_mem_nil, false_or]
      exact hvm _ x
    · intro a _ b _ hab hba
      by_contra hne
      rcases strLess_total a b hne with h | h
      · rw [hab] at h; cases h
      · rw [hba] at h; cases h
  have hsrc : sortGo strLess
      (((sm₁.lookup (⟨pk.hostname, pk.ns, pk.name, v⟩ :
        resolver.versionKey)).getD []).foldl setInsert []) =
      sortGo strLess
      (((sm₂.lookup (⟨pk.hostname, pk.ns, pk.name, v⟩ :
        resolver.versionKey)).getD []).foldl setInsert []) := by
    refine sortGo_canonical strLess strLess_asymm strLess_negtrans _ _ ?_ ?_
    · refine (List.perm_ext_iff_of_nodup (nodup_foldl_setInsert _ _ List.nodup_nil)
        (nodup_foldl_setInsert _ _ List.nodup_nil)).mpr ?_
      intro x
      rw [mem_foldl_setInsert, mem_foldl_setInsert]
      simp only [List.not_mem_nil, false_or]
      exact hsm _ x
    · intro a _ b _ hab hba
      by_contra hne
      rcases strLess_total a b hne with h | h
      · rw [hab] at h; cases h
      · rw [hba] at h; cases h
  rw [hplat, hsrc]


/-! The lemmas above establish that `buildResolution`'s output depends
only on the content of the accumulated maps whenever the version
comparator is total on the strings that co-occur under one provider, and
that under a stable sort the selected strings of semver-equal classes
coincide across constraints (`selection_unique`), making every comparator
total where it is applied.  They do not discharge the resolver-determinism
claim unconditionally: Go's `sort.Slice` is unstable for slices longer
than twelve, so for large advertised version lists two constraints can
select different semver-equal strings for one provider, after which the
version sort has genuine ties between distinct strings and the randomized
Go map iteration order can reach the output. -/

/-! ## C3 — version selection and the tie-break -/

/-- C3 (amended): among the registry's advertised versions that parse as
semver and satisfy the constraint (unparsable strings are skipped without
error), the resolver selects a semver-greatest matching entry: the
selected string is an advertised matching version that no matching
version strictly exceeds under `GreaterThan`.  The proof uses only that
the descending sort returns a pairwise-sorted permutation of the matching
list, so the conclusion holds for every correct output of Go's
(documented-unstable) `sort.Slice`.  The spec's lexicographic tie-break,
by contrast, is not implemented: with two semver-equal matching strings —
a length at which Go's sort is exactly insertion sort and keeps advertised
order — the first-advertised string is selected, not the lexicographically
greater one (see the counterexample); beyond twelve matching entries the
tie order is whatever the unstable sort yields, never the lexicographic
rule. -/
theorem C3_version_selection (lib : VersionLib V C) (hlaw : lib.Lawful)
    (reg : RegistrySnapshot) (constraintStr : String) (constraint : C)
    (ep : manifest.ExpandedProvider) (r : resolver.resolvedVersionResult)
    (pvs : registry.ProviderVersions)
    (hreg : reg ep.Source.Hostname ep.Source.Namespace ep.Source.Name = .ok pvs)
    (h : resolver.resolveExpansion lib reg constraintStr constraint ep = .ok r) :
    ∃ v : V, lib.parse r.Version = some v ∧
      (r.Version, v) ∈ resolver.matchingOf lib constraint pvs ∧
      ∀ q ∈ resolver.matchingOf lib constraint pvs, lib.gt q.2 v = false := by
  obtain ⟨hprov, pvs', hreg', v, hparse, hfind⟩ :=
    resolveExpansion_select lib hlaw reg constraintStr constraint ep r h
  rw [hprov] at hreg'
  have hpvs : pvs' = pvs := Except.ok.inj (hreg'.symm.trans hreg)
  subst hpvs
  refine ⟨v, hparse, List.mem_of_find?_eq_some hfind, ?_⟩
  intro q hq
  have hp := List.find?_some hfind
  have := List.all_eq_true.mp hp q hq
  simpa using this

/-- C3 counterexample: advertised `["1.0", "1.0.0"]` under constraint
`>= 1.0` — both parse to the same semver value, so the semver-maximal set
is both strings.  At two matching entries Go's `sort.Slice` is exactly
the modelled insertion sort, so this run is the code's behavior: it
selects the first advertised string, `1.0`, while the spec's tie-break
(`specTieBreakPick`, written from the spec's words) picks the
lexicographically greater `1.0.0`. -/
theorem C3_counterexample :
    parseNumericConstraint ">= 1.0" = some [(NumOp.geOp, (1, 0, 0))] ∧
    resolver.resolveExpansion numericLib
        (fun _ _ _ => Except.ok
          { Versions :=
              [{ Version := "1.0", Protocols := ["6.0"], Platforms := [{ OS := "linux", Arch := "amd64" }] },
               { Version := "1.0.0", Protocols := ["6.0"], Platforms := [{ OS := "linux", Arch := "amd64" }] }] })
        ">= 1.0" [(NumOp.geOp, (1, 0, 0))]
        { Source := { Hostname := "registry.terraform.io", Namespace := "hashicorp",
                      Name := "null" }
          Versions := [">= 1.0"], Platforms := ["linux_amd64"], Engine := ""
          SourceSpec := "hashicorp/null" } =
      Except.ok { Provider := { Hostname := "registry.terraform.io",
                                Namespace := "hashicorp", Name := "null" }
                  Version := "1.0", Platforms := ["linux_amd64"]
                  ManifestSource := "hashicorp/null" } ∧
    resolver.specTieBreakPick numericLib [(NumOp.geOp, (1, 0, 0))]
        { Versions :=
            [{ Version := "1.0", Protocols := ["6.0"], Platforms := [{ OS := "linux", Arch := "amd64" }] },
             { Version := "1.0.0", Protocols := ["6.0"], Platforms := [{ OS := "linux", Arch := "amd64" }] }] } =
      some "1.0.0" ∧
    ("1.0" : String) ≠ "1.0.0" :=
  ⟨rfl, rfl, rfl, by decide⟩

/-- C3 witness: the selection property instantiated at a concrete
snapshot advertising `1.0.0` and `2.0.0` under `>= 1.0.0`. -/
theorem C3_version_selection_witness :
    ∃ v : NumVer,
      numericLib.parse (({ Provider := { Hostname := "registry.terraform.io",
                                         Namespace := "hashicorp", Name := "null" }
                           Version := "2.0.0", Platforms := ["linux_amd64"]
                           ManifestSource := "hashicorp/null" } :
          resolver.resolvedVersionResult).Version) = some v ∧
      ((({ Provider := { Hostname := "registry.terraform.io",
                         Namespace := "hashicorp", Name := "null" }
           Version := "2.0.0", Platforms := ["linux_amd64"]
           ManifestSource := "hashicorp/null" } :
          resolver.resolvedVersionResult)).Version, v) ∈
        resolver.matchingOf numericLib [(NumOp.geOp, (1, 0, 0))]
          { Versions :=
              [{ Version := "1.0.0", Protocols := ["6.0"],
                 Platforms := [{ OS := "linux", Arch := "amd64" }] },
               { Version := "2.0.0", Protocols := ["6.0"],
                 Platforms := [{ OS := "linux", Arch := "amd64" }] }] } ∧
      ∀ q ∈ resolver.matchingOf numericLib [(NumOp.geOp, (1, 0, 0))]
          { Versions :=
              [{ Version := "1.0.0", Protocols := ["6.0"],
                 Platforms := [{ OS := "linux", Arch := "amd64" }] },
               { Version := "2.0.0", Protocols := ["6.0"],
                 Platforms := [{ OS := "linux", Arch := "amd64" }] }] },
        numericLib.gt q.2 v = false :=
  C3_version_selection numericLib numericLib_lawful
    (fun _ _ _ => Except.ok
      { Versions :=
          [{ Version := "1.0.0", Protocols := ["6.0"],
             Platforms := [{ OS := "linux", Arch := "amd64" }] },
           { Version := "2.0.0", Protocols := ["6.0"],
             Platforms := [{ OS := "linux", Arch := "amd64" }] }] })
    ">= 1.0.0" [(NumOp.geOp, (1, 0, 0))]
    { Source := { Hostname := "registry.terraform.io", Namespace := "hashicorp",
                  Name := "null" }
      Versions := [">= 1.0.0"], Platforms := ["linux_amd64"], Engine := ""
      SourceSpec := "hashicorp/null" }
    { Provider := { Hostname := "registry.terraform.io",
                    Namespace := "hashicorp", Name := "null" }
      Version := "2.0.0", Platforms := ["linux_amd64"]
      ManifestSource := "hashicorp/null" }
    _ rfl rfl


end PM
